import Mathlib

/-!
Shallow embedding of the `graphs-and-paths` library (`src/graph.ts`,
`src/utils.ts`, `src/types.ts`).  JavaScript IEEE-754 doubles are idealized
as real numbers; fallible operations (which `throw` in the source) return
`Except String`; JavaScript `Map`s, which iterate in insertion order, are
represented as insertion-ordered lists whose entries are keyed by the `id`
field of the stored value.
-/

namespace GP

/-- Identifiers are numbers or strings (`type NodeId = string | number` in
`types.ts`); the data model restricts numbers to integers. -/
inductive Id where
  | int (n : ℤ)
  | str (s : String)
deriving DecidableEq, Repr

abbrev NodeId := Id

abbrev EdgeId := Id

/-- Template-literal stringification of an identifier, as used by the error
messages in `graph.ts`. -/
def Id.render : Id → String
  | .int n => toString n
  | .str s => s

/-- A 2-D Cartesian point (`interface Location` in `types.ts`). -/
structure Location where
  x : ℝ
  y : ℝ

theorem Location.ext_iff' (a b : Location) : a = b ↔ a.x = b.x ∧ a.y = b.y := by
  cases a; cases b; simp

noncomputable instance : DecidableEq Location := fun a b =>
  decidable_of_iff (a.x = b.x ∧ a.y = b.y) (Location.ext_iff' a b).symm

structure SimpleNode where
  id : NodeId
  location : Location

/-- An input edge.  The source allows `innerLocations` to be absent
(`innerLocations?`); `Graph.create` normalizes absence to `[]`, so the field
is represented as a plain list here. -/
structure SimpleEdge where
  id : EdgeId
  startNodeId : NodeId
  endNodeId : NodeId
  innerLocations : List Location

structure Node where
  id : NodeId
  location : Location
  edgeIds : List EdgeId

structure Edge where
  id : EdgeId
  startNodeId : NodeId
  endNodeId : NodeId
  innerLocations : List Location
  length : ℝ
  locations : List Location
  locationDistances : List ℝ

structure EdgePoint where
  edgeId : EdgeId
  distance : ℝ

structure OrientedEdge where
  edge : Edge
  isForward : Bool

structure Path where
  start : EdgePoint
  «end» : EdgePoint
  orientedEdges : List OrientedEdge
  nodes : List Node
  locations : List Location
  length : ℝ

/-- Placeholder location used where the source would read `undefined` from an
out-of-range index; such reads are unreachable on the inputs the library
produces. -/
def dummyLocation : Location := { x := 0, y := 0 }

def dummyEdge : Edge :=
  { id := .int 0, startNodeId := .int 0, endNodeId := .int 0, innerLocations := [],
    length := 0, locations := [], locationDistances := [] }

def dummyOrientedEdge : OrientedEdge := { edge := dummyEdge, isForward := true }

def dummyNode : Node := { id := .int 0, location := { x := 0, y := 0 }, edgeIds := [] }

namespace Utils

/-- Straight-line distance between two locations (`distanceBetween` in
`utils.ts`). -/
noncomputable def distanceBetween (location1 location2 : Location) : ℝ :=
  let dx := location2.x - location1.x
  let dy := location2.y - location1.y
  Real.sqrt (dx * dx + dy * dy)

/-- Tail of the cumulative-distance computation: given the running sum and the
previous location, emits one cumulative entry per remaining location. -/
noncomputable def cumulFrom (sum : ℝ) (prev : Location) : List Location → List ℝ
  | [] => []
  | l :: rest => (sum + distanceBetween prev l) :: cumulFrom (sum + distanceBetween prev l) l rest

/-- Cumulative distance to each location of a polyline (`getCumulativeDistances`
in `utils.ts`): same length as the input, first element `0`, each subsequent
element adds the length of one segment. -/
noncomputable def getCumulativeDistances : List Location → List ℝ
  | [] => []
  | p :: rest => 0 :: cumulFrom 0 p rest

/-- Loop body of the binary search in `findFloorIndex`.  The source's
`while (minIndex < maxIndex - 1)` loop is expressed with a fuel argument;
`xs.length + 2` units of fuel always suffice because `maxIndex - minIndex`
starts at `xs.length + 1` and strictly decreases each iteration.  The index
arithmetic `(minIndex + maxIndex) / 2 | 0` truncates toward zero in the
source; the operands reachable from `findFloorIndex` are nonnegative, where
truncation agrees with Lean's integer division. -/
noncomputable def findFloorGo (xs : List ℝ) (x : ℝ) : ℕ → ℤ → ℤ → ℤ
  | 0, minIndex, _ => minIndex
  | fuel + 1, minIndex, maxIndex =>
    if minIndex < maxIndex - 1 then
      let guessIndex := (minIndex + maxIndex) / 2
      let guess := xs.getD guessIndex.toNat 0
      if guess < x then findFloorGo xs x fuel guessIndex maxIndex
      else if guess = x then guessIndex
      else findFloorGo xs x fuel minIndex guessIndex
    else minIndex

/-- Binary search over a sorted array (`findFloorIndex` in `utils.ts`):
intended to return the largest index whose element is at most `x`, or `-1`
when every element exceeds `x`. -/
noncomputable def findFloorIndex (xs : List ℝ) (x : ℝ) : ℤ :=
  findFloorGo xs x (xs.length + 2) (-1) xs.length

/-- Clamp `x` into `[lo, hi]` (`clamp` in `utils.ts`:
`Math.max(min, Math.min(max, x))`). -/
noncomputable def clamp (x lo hi : ℝ) : ℝ :=
  max lo (min hi x)

/-- Point at a given distance along a segment (`getIntermediateLocation` in
`utils.ts`).  When the segment is degenerate the parameter `distance / 0`
is `0` under Lean's division convention, so the start point is returned,
realizing the clamp semantics the spec requires. -/
noncomputable def getIntermediateLocation (start stop : Location) (distance : ℝ) : Location :=
  let length := distanceBetween start stop
  let t := clamp (distance / length) 0 1
  { x := (1 - t) * start.x + t * stop.x, y := (1 - t) * start.y + t * stop.y }

/-- Three-way comparison of identifiers (`compareIds` in `utils.ts`): numbers
before strings, natural order within a type. -/
def compareIds : Id → Id → ℤ
  | .int a, .int b => if a < b then -1 else if a = b then 0 else 1
  | .str a, .str b => if a < b then -1 else if a = b then 0 else 1
  | .int _, .str _ => -1
  | .str _, .int _ => 1

/-- Minimum of a list under a comparator (`min` in `utils.ts`, which reduces
with `(a, b) => comparator(a, b) < 0 ? a : b` and throws on the empty list,
modelled as `none`). -/
def minOf : List α → (α → α → ℤ) → Option α
  | [], _ => none
  | a :: rest, comparator =>
    some (rest.foldl (fun x y => if comparator x y < 0 then x else y) a)

/-- Last element of an array (`last` in `utils.ts`); throws on an empty
array. -/
def last {α : Type} : List α → Except String α
  | [] => .error "Cannot take last element of empty array"
  | a :: rest => .ok ((a :: rest).getLastD a)

/-- Reverse a list of oriented edges, flipping each orientation (`reversePath`
in `utils.ts`). -/
def reversePath (edges : List OrientedEdge) : List OrientedEdge :=
  (edges.map fun oe => { edge := oe.edge, isForward := !oe.isForward }).reverse

/-- Concatenation of the images of `f` (`flatMap` in `utils.ts`). -/
def flatMap (array : List α) (f : α → List β) : List β :=
  (array.map f).flatten

/-- Result of `closestPointOnSegment` in `utils.ts`. -/
structure SegmentProjection where
  distanceDownSegment : ℝ
  distanceFromLocation : ℝ

/-- Closest point on segment `ab` to `p` (`closestPointOnSegment` in
`utils.ts`): project, clamp the parameter into `[0, 1]`, and report both the
distance down the segment and the distance from `p`. -/
noncomputable def closestPointOnSegment (p a b : Location) : SegmentProjection :=
  let apX := p.x - a.x
  let apY := p.y - a.y
  let abX := b.x - a.x
  let abY := b.y - a.y
  let ab2 := abX * abX + abY * abY
  let apDotAb := apX * abX + apY * abY
  let unclampedT := apDotAb / ab2
  let t := clamp unclampedT 0 1
  let distanceDownSegment := Real.sqrt ab2 * t
  let closestPoint : Location := { x := a.x + t * abX, y := a.y + t * abY }
  { distanceDownSegment := distanceDownSegment,
    distanceFromLocation := distanceBetween p closestPoint }

/-- Bitwise equality of locations (`areLocationsEqual` in `utils.ts`). -/
def areLocationsEqual (location1 location2 : Location) : Prop :=
  location1.x = location2.x ∧ location1.y = location2.y

noncomputable instance (l1 l2 : Location) : Decidable (areLocationsEqual l1 l2) :=
  inferInstanceAs (Decidable (_ ∧ _))

/-- Collapse runs of equal consecutive locations (`dedupeLocations` in
`utils.ts`, specialized from its generic `dedupe`). -/
noncomputable def dedupeLocations (locations : List Location) : List Location :=
  locations.foldl
    (fun result t =>
      match result.getLast? with
      | none => result ++ [t]
      | some lastLoc => if areLocationsEqual lastLoc t then result else result ++ [t])
    []

end Utils

/-- Items stored in the RBush tree for quick closest-point retrieval
(`interface MeshPoint` in `graph.ts`). -/
structure MeshPoint where
  x : ℝ
  y : ℝ
  edgeId : EdgeId
  locationIndex : ℤ

/-- A graph: the two insertion-ordered id-keyed maps of `graph.ts` (here
insertion-ordered lists, every entry keyed by the `id` of the stored value)
plus the optional closest-point mesh.  The R-tree holding the mesh is an
external dependency; only its contents (the loaded mesh points) are
modelled. -/
structure Graph where
  nodes : List Node
  edges : List Edge
  mesh : Option (List MeshPoint) := none

/-- Node pass of `Graph.create`: build the node map in input order, rejecting
duplicate IDs with the source's error message. -/
def buildNodes : List SimpleNode → List Node → Except String (List Node)
  | [], acc => .ok acc
  | node :: rest, acc =>
    if acc.any (fun n => n.id = node.id) then
      .error ("Multiple nodes with ID " ++ node.id.render)
    else
      buildNodes rest (acc ++ [{ id := node.id, location := node.location, edgeIds := [] }])

/-- Append `edgeId` to the `edgeIds` of the node with the given id, keeping
every node in place (the source mutates the node object held in the map). -/
def pushEdgeId (nodes : List Node) (nodeId : NodeId) (edgeId : EdgeId) : List Node :=
  nodes.map fun n => if n.id = nodeId then { n with edgeIds := n.edgeIds ++ [edgeId] } else n

/-- Derived edge record built by the edge pass of `Graph.create`: the polyline
runs from the start node's stored location through the inner locations to the
end node's stored location, the cumulative distances are derived from it, and
the length is the last cumulative distance. -/
noncomputable def mkDerivedEdge (edge : SimpleEdge) (startNode endNode : Node) : Edge :=
  let locations := startNode.location :: (edge.innerLocations ++ [endNode.location])
  let locationDistances := Utils.getCumulativeDistances locations
  { id := edge.id, startNodeId := edge.startNodeId,
    endNodeId := edge.endNodeId, innerLocations := edge.innerLocations,
    length := locationDistances.getLastD 0, locations := locations,
    locationDistances := locationDistances }

/-- Edge pass body of `Graph.create`: reject duplicate edge IDs, resolve both
endpoints (rejecting dangling references with the source's messages), derive
the edge record and register its id with both endpoints. -/
noncomputable def addEdge (st : List Node × List Edge) (edge : SimpleEdge) :
    Except String (List Node × List Edge) :=
  if st.2.any (fun e => e.id = edge.id) then
    .error ("Multiple edges with ID " ++ edge.id.render)
  else
    match st.1.find? (fun n => n.id = edge.startNodeId) with
    | none => .error ("Edge with ID " ++ edge.id.render ++
        " referenced nonexistent start node ID " ++ edge.startNodeId.render)
    | some startNode =>
      match st.1.find? (fun n => n.id = edge.endNodeId) with
      | none => .error ("Edge with ID " ++ edge.id.render ++
          " referenced nonexistent end node ID " ++ edge.endNodeId.render)
      | some endNode =>
        .ok (pushEdgeId (pushEdgeId st.1 edge.startNodeId edge.id) edge.endNodeId edge.id,
          st.2 ++ [mkDerivedEdge edge startNode endNode])

/-- Validated construction (`Graph.create` in `graph.ts`). -/
noncomputable def Graph.create (nodes : List SimpleNode) (edges : List SimpleEdge) :
    Except String Graph := do
  let ns ← buildNodes nodes []
  let (ns', es) ← edges.foldlM addEdge (ns, [])
  return { nodes := ns', edges := es, mesh := none }

def Graph.getAllNodes (g : Graph) : List Node := g.nodes

def Graph.getAllEdges (g : Graph) : List Edge := g.edges

/-- Lookup that signals absence rather than failing (`getNode`). -/
def Graph.getNode (g : Graph) (nodeId : NodeId) : Option Node :=
  g.nodes.find? (fun n => n.id = nodeId)

/-- Lookup that signals absence rather than failing (`getEdge`). -/
def Graph.getEdge (g : Graph) (edgeId : EdgeId) : Option Edge :=
  g.edges.find? (fun e => e.id = edgeId)

def Graph.getNodeOrThrow (g : Graph) (nodeId : NodeId) : Except String Node :=
  match g.getNode nodeId with
  | none => .error ("Node ID " ++ nodeId.render ++ " does not exist")
  | some node => .ok node

def Graph.getEdgeOrThrow (g : Graph) (edgeId : EdgeId) : Except String Edge :=
  match g.getEdge edgeId with
  | none => .error ("Edge ID " ++ edgeId.render ++ " does not exist")
  | some edge => .ok edge

def Graph.getEdgesOfNode (g : Graph) (nodeId : NodeId) : Except String (List Edge) := do
  let node ← g.getNodeOrThrow nodeId
  node.edgeIds.mapM g.getEdgeOrThrow

def Graph.getEndpointsOfEdge (g : Graph) (edgeId : EdgeId) : Except String (Node × Node) := do
  let edge ← g.getEdgeOrThrow edgeId
  let startNode ← g.getNodeOrThrow edge.startNodeId
  let endNode ← g.getNodeOrThrow edge.endNodeId
  return (startNode, endNode)

def Graph.getOtherEndpoint (g : Graph) (edgeId : EdgeId) (nodeId : NodeId) :
    Except String Node := do
  let edge ← g.getEdgeOrThrow edgeId
  if edge.startNodeId = nodeId then g.getNodeOrThrow edge.endNodeId
  else if edge.endNodeId = nodeId then g.getNodeOrThrow edge.startNodeId
  else .error ("Node " ++ nodeId.render ++ " is not an endpoint of edge " ++ edgeId.render)

def Graph.getNeighbors (g : Graph) (nodeId : NodeId) : Except String (List Node) := do
  let node ← g.getNodeOrThrow nodeId
  node.edgeIds.mapM (fun edgeId => g.getOtherEndpoint edgeId nodeId)

/-- Cartesian coordinates of an edge point (`getLocation` in `graph.ts`):
negative distances clamp to the start node's stored location, distances at
least the edge length clamp to the end node's stored location, and interior
distances interpolate within the polyline segment found by `findFloorIndex`. -/
noncomputable def Graph.getLocation (g : Graph) (edgePoint : EdgePoint) :
    Except String Location := do
  let e ← g.getEdgeOrThrow edgePoint.edgeId
  let (startNode, endNode) ← g.getEndpointsOfEdge edgePoint.edgeId
  if edgePoint.distance < 0 then
    return startNode.location
  else if edgePoint.distance ≥ e.length then
    return endNode.location
  else
    let i := Utils.findFloorIndex e.locationDistances edgePoint.distance
    return Utils.getIntermediateLocation (e.locations.getD i.toNat dummyLocation)
      (e.locations.getD (i + 1).toNat dummyLocation)
      (edgePoint.distance - e.locationDistances.getD i.toNat 0)

/-- Segment walk of `Graph.advanceAlongLocations`: deduct whole segments while
the remaining distance covers them, split the first segment that is longer
than what remains.  When the walk exhausts the list, the source ends in
`return [Utils.last(locations)]`, which yields the last surviving location
and throws on an empty location list. -/
noncomputable def advanceLocationsGo (remainingDistance : ℝ) :
    List Location → Except String (List Location)
  | segmentStart :: segmentEnd :: rest =>
    let segmentLength := Utils.distanceBetween segmentStart segmentEnd
    if remainingDistance < segmentLength then
      .ok (Utils.getIntermediateLocation segmentStart segmentEnd remainingDistance ::
        segmentEnd :: rest)
    else
      advanceLocationsGo (remainingDistance - segmentLength) (segmentEnd :: rest)
  | [l] => .ok [l]
  | [] => .error "Cannot take last element of empty array"

/-- Advance a raw location list by a distance (`Graph.advanceAlongLocations`
in `graph.ts`): negative distances fail, zero returns the input unchanged. -/
noncomputable def Graph.advanceAlongLocations (locations : List Location) (distance : ℝ) :
    Except String (List Location) :=
  if distance < 0 then .error "Cannot advance path by negative distance"
  else if distance = 0 then .ok locations
  else advanceLocationsGo distance locations

/-- Path obtained when advancing the given path all the way to the end
(`Graph.getFinishedPath`); fails through `Utils.last` when the path has no
oriented edges or no locations. -/
def Graph.getFinishedPath (path : Path) : Except String Path := do
  let lastEdge ← Utils.last path.orientedEdges
  let lastLocation ← Utils.last path.locations
  return { start := path.«end», «end» := path.«end»,
           orientedEdges := [lastEdge],
           nodes := [],
           locations := [lastLocation],
           length := 0 }

/-- Edge walk of `Graph.advanceAlongPath`: starting from the oriented start
offset, drop every oriented edge that is fully consumed.  Returns the index of
the surviving edge and the residual distance, or `none` when every edge is
consumed (the source's floating-point fallback, which returns the finished
path). -/
noncomputable def advancePathGo : ℝ → List OrientedEdge → ℕ → Option (ℕ × ℝ)
  | _, [], _ => none
  | distanceRemaining, oe :: rest, idx =>
    if distanceRemaining ≥ oe.edge.length then
      advancePathGo (distanceRemaining - oe.edge.length) rest (idx + 1)
    else some (idx, distanceRemaining)

/-- Truncate a path by a travelled distance (`Graph.advanceAlongPath` in
`graph.ts`). -/
noncomputable def Graph.advanceAlongPath (path : Path) (distance : ℝ) : Except String Path :=
  if distance = 0 then .ok path
  else if distance ≥ path.length then Graph.getFinishedPath path
  else if distance < 0 then .error "Cannot advance path by a negative distance"
  else
    let startOriented := path.orientedEdges.headD dummyOrientedEdge
    let orientedStartDistance :=
      if startOriented.isForward then path.start.distance
      else startOriented.edge.length - path.start.distance
    match advancePathGo (distance + orientedStartDistance) path.orientedEdges 0 with
    | none => Graph.getFinishedPath path
    | some (edgeIndex, distanceRemaining) =>
      let newStartEdge := path.orientedEdges.getD edgeIndex dummyOrientedEdge
      let distanceDownEdge :=
        if newStartEdge.isForward then distanceRemaining
        else newStartEdge.edge.length - distanceRemaining
      match Graph.advanceAlongLocations path.locations distance with
      | .error e => .error e
      | .ok newLocations =>
        .ok { start := { edgeId := newStartEdge.edge.id, distance := distanceDownEdge },
              «end» := path.«end»,
              orientedEdges := path.orientedEdges.drop edgeIndex,
              nodes := path.nodes.drop edgeIndex,
              locations := newLocations,
              length := path.length - distance }

/-- Removes zero-length segments at the start and end of the path caused by
the ambiguity of representing a node location with an edge point
(`Graph.canonicalizePath` in `graph.ts`). -/
noncomputable def Graph.canonicalizePath (path : Path) : Path :=
  if path.orientedEdges.length = 1 then path
  else
    let firstEdge := path.orientedEdges.headD dummyOrientedEdge
    let lastEdge := path.orientedEdges.getLastD dummyOrientedEdge
    let firstEdgeIsTrivial : Bool :=
      (firstEdge.isForward && decide (path.start.distance ≥ firstEdge.edge.length)) ||
      (!firstEdge.isForward && decide (path.start.distance ≤ 0))
    let lastEdgeIsTrivial : Bool :=
      (lastEdge.isForward && decide (path.«end».distance ≤ 0)) ||
      (!lastEdge.isForward && decide (path.«end».distance ≥ lastEdge.edge.length))
    if firstEdgeIsTrivial && lastEdgeIsTrivial && path.nodes.length = 1 then
      { path with
        start := path.«end»,
        «end» := path.«end»,
        nodes := [],
        orientedEdges := [path.orientedEdges.getLastD dummyOrientedEdge] }
    else if firstEdgeIsTrivial || lastEdgeIsTrivial then
      let newStart : EdgePoint :=
        if firstEdgeIsTrivial then
          let secondEdge := path.orientedEdges.getD 1 dummyOrientedEdge
          { edgeId := secondEdge.edge.id,
            distance := if secondEdge.isForward then 0 else secondEdge.edge.length }
        else path.start
      let newEnd : EdgePoint :=
        if lastEdgeIsTrivial then
          let secondLastEdge := path.orientedEdges.getD (path.orientedEdges.length - 2) dummyOrientedEdge
          { edgeId := secondLastEdge.edge.id,
            distance := if secondLastEdge.isForward then secondLastEdge.edge.length else 0 }
        else path.«end»
      let cutEdges :=
        (path.orientedEdges.take
          (if lastEdgeIsTrivial then path.orientedEdges.length - 1 else path.orientedEdges.length)).drop
          (if firstEdgeIsTrivial then 1 else 0)
      let cutNodes :=
        (path.nodes.take
          (if lastEdgeIsTrivial then path.nodes.length - 1 else path.nodes.length)).drop
          (if firstEdgeIsTrivial then 1 else 0)
      { path with
        start := newStart,
        «end» := newEnd,
        orientedEdges := cutEdges,
        nodes := cutNodes }
    else path

/-- Sub-polyline of an edge between two distances, ordered from the first
distance to the second (`Graph.getLocationsOnEdgeInterval` in `graph.ts`). -/
noncomputable def Graph.getLocationsOnEdgeInterval (g : Graph) (edgeId : EdgeId)
    (startDistance endDistance : ℝ) : Except String (List Location) := do
  if startDistance = endDistance then
    let l ← g.getLocation { edgeId := edgeId, distance := startDistance }
    return [l]
  else
    let e ← g.getEdgeOrThrow edgeId
    let minDistance := min startDistance endDistance
    let maxDistance := max startDistance endDistance
    let minLocationIndex := Utils.findFloorIndex e.locationDistances minDistance
    let maxLocationIndex := Utils.findFloorIndex e.locationDistances maxDistance
    let startLocation ← g.getLocation { edgeId := edgeId, distance := startDistance }
    let endLocation ← g.getLocation { edgeId := edgeId, distance := endDistance }
    let intermediateLocations :=
      (e.locations.take (maxLocationIndex + 1).toNat).drop (minLocationIndex + 1).toNat
    let intermediateLocations :=
      if endDistance < startDistance then intermediateLocations.reverse else intermediateLocations
    return Utils.dedupeLocations ([startLocation] ++ intermediateLocations ++ [endLocation])

/-- Single-edge path between two points on the same edge
(`Graph.getShortestPathOnSameEdge` in `graph.ts`). -/
noncomputable def Graph.getShortestPathOnSameEdge (g : Graph) (start stop : EdgePoint) :
    Except String Path := do
  let e ← g.getEdgeOrThrow start.edgeId
  let orientedEdge : OrientedEdge :=
    { edge := e, isForward := decide (start.distance ≤ stop.distance) }
  let locs ← g.getLocationsOnEdgeInterval start.edgeId start.distance stop.distance
  return { start := start, «end» := stop, orientedEdges := [orientedEdge], nodes := [],
           locations := locs, length := |start.distance - stop.distance| }

/-- Backward walk of `Graph.reconstructPath` along the `cameFrom` predecessor
map, accumulating oriented edges, interior nodes and reversed polyline
slices.  The source's `while (true)` loop is expressed with fuel
(`cameFrom.length + 1` always suffices: each step consumes one `cameFrom`
entry of an acyclic predecessor map; on exhaustion the walk is cut short,
which no reachable input does). -/
noncomputable def reconstructGo (g : Graph) (cameFrom : List (NodeId × Edge)) :
    ℕ → NodeId → List OrientedEdge → List Node → List Location →
    Except String (NodeId × List OrientedEdge × List Node × List Location)
  | 0, currentNodeId, orientedEdges, nodes, locations =>
    .ok (currentNodeId, orientedEdges, nodes, locations)
  | fuel + 1, currentNodeId, orientedEdges, nodes, locations => do
    let node ← g.getNodeOrThrow currentNodeId
    let nodes := nodes ++ [node]
    match cameFrom.find? (fun p => p.1 = currentNodeId) with
    | none => .ok (currentNodeId, orientedEdges, nodes, locations)
    | some pair =>
      let currentEdge := pair.2
      let isForward := decide (currentEdge.endNodeId = currentNodeId)
      let orientedEdges := orientedEdges ++ [{ edge := currentEdge, isForward := isForward }]
      let newLocations := if isForward then currentEdge.locations.reverse else currentEdge.locations
      let locations := locations ++ newLocations
      let nextNode ← g.getOtherEndpoint currentEdge.id currentNodeId
      reconstructGo g cameFrom fuel nextNode.id orientedEdges nodes locations

/-- Path reconstruction after A* (`Graph.reconstructPath` in `graph.ts`).
`getShortestPath` invokes this once the synthetic goal is popped, passing the
best predecessor map, the orientation of the goal edge and the computed
total cost as `length`, and pipes the result through `canonicalizePath`. -/
noncomputable def Graph.reconstructPath (g : Graph) (start stop : EdgePoint)
    (cameFrom : List (NodeId × Edge)) (endEdgeIsForward : Bool) (length : ℝ) :
    Except String Path := do
  if start.edgeId = stop.edgeId ∧ |start.distance - stop.distance| ≤ length then
    g.getShortestPathOnSameEdge start stop
  else
    let endEdge ← g.getEdgeOrThrow stop.edgeId
    let orientedEdges : List OrientedEdge := [{ edge := endEdge, isForward := endEdgeIsForward }]
    let endEdgeAgain ← g.getEdgeOrThrow stop.edgeId
    let locations ← g.getLocationsOnEdgeInterval stop.edgeId stop.distance
      (if endEdgeIsForward then 0 else endEdgeAgain.length)
    let currentNodeId := if endEdgeIsForward then endEdge.startNodeId else endEdge.endNodeId
    let walk ← reconstructGo g cameFrom (cameFrom.length + 1) currentNodeId orientedEdges [] locations
    let finalNodeId := walk.1
    let orientedEdges := walk.2.1
    let nodes := walk.2.2.1
    let locations := walk.2.2.2
    let startEdge ← g.getEdgeOrThrow start.edgeId
    let startEdgeIsForward : Bool :=
      if startEdge.startNodeId = startEdge.endNodeId then
        decide (start.distance < startEdge.length / 2)
      else
        decide (finalNodeId = startEdge.endNodeId)
    let orientedEdges := orientedEdges ++ [{ edge := startEdge, isForward := startEdgeIsForward }]
    let startEdgeAgain ← g.getEdgeOrThrow start.edgeId
    let startLocs ← g.getLocationsOnEdgeInterval start.edgeId
      (if startEdgeIsForward then startEdgeAgain.length else 0) start.distance
    let locations := locations ++ startLocs
    return { start := start, «end» := stop,
             orientedEdges := orientedEdges.reverse,
             nodes := nodes.reverse,
             locations := (Utils.dedupeLocations locations).reverse,
             length := length }

noncomputable instance : DecidableEq Edge := Classical.decEq _

noncomputable instance : DecidableEq OrientedEdge := Classical.decEq _

/-- Projection of a derived edge back to its input fields.  `coalesced` pushes
`Edge` objects into its `SimpleEdge[]` accumulator; `Graph.create` reads only
these fields from them. -/
def Edge.toSimple (e : Edge) : SimpleEdge :=
  { id := e.id, startNodeId := e.startNodeId, endNodeId := e.endNodeId,
    innerLocations := e.innerLocations }

/-- Walk of `Graph.getOnlyPathInDirection`: follow consecutive edges while the
next node has exactly two incident edge slots, stopping at a fork or when the
walk returns to the start edge (isolated loop).  The source's `while (true)`
loop is expressed with fuel; `2 * |edges| + 2` units always suffice on graphs
produced by `Graph.create` because the walk visits each oriented edge at most
once before stopping or looping. -/
noncomputable def onlyPathGo (g : Graph) (startEdge : OrientedEdge) :
    ℕ → OrientedEdge → List OrientedEdge → Except String (List OrientedEdge)
  | 0, _, path => .ok path
  | fuel + 1, currentEdge, path => do
    let path := path ++ [currentEdge]
    let nextNodeId :=
      if currentEdge.isForward then currentEdge.edge.endNodeId else currentEdge.edge.startNodeId
    let nextNode ← g.getNodeOrThrow nextNodeId
    if nextNode.edgeIds.length = 2 then
      let edgeId1 := nextNode.edgeIds.getD 0 (.int 0)
      let edgeId2 := nextNode.edgeIds.getD 1 (.int 0)
      let nextEdgeId := if currentEdge.edge.id = edgeId1 then edgeId2 else edgeId1
      if nextEdgeId = startEdge.edge.id then
        .ok (path ++ [startEdge])
      else do
        let nextEdge ← g.getEdgeOrThrow nextEdgeId
        let isForward := decide (nextEdge.startNodeId = nextNodeId)
        onlyPathGo g startEdge fuel { edge := nextEdge, isForward := isForward } path
    else
      .ok path

/-- One-directional chain walk (`Graph.getOnlyPathInDirection` in
`graph.ts`). -/
noncomputable def Graph.getOnlyPathInDirection (g : Graph) (startEdge : OrientedEdge) :
    Except String (List OrientedEdge) :=
  onlyPathGo g startEdge (2 * g.edges.length + 2) startEdge []

/-- Maximal chain through an edge (`Graph.getOnlyPath` in `graph.ts`).  The
source detects an isolated loop by reference equality of the first and last
entries of the forward walk; the only way the forward walk's last entry can
equal its first with length above one is the literal re-push of the start
edge, so structural equality coincides with it. -/
noncomputable def Graph.getOnlyPath (g : Graph) (edge : Edge) :
    Except String (List OrientedEdge) := do
  let forwardPath ← g.getOnlyPathInDirection { edge := edge, isForward := true }
  if forwardPath.length > 1 ∧
      forwardPath.headD dummyOrientedEdge = forwardPath.getLastD dummyOrientedEdge then
    return forwardPath.take (forwardPath.length - 1)
  else
    let backwardsPath ← g.getOnlyPathInDirection { edge := edge, isForward := false }
    return Utils.reversePath (backwardsPath.drop 1) ++ forwardPath

/-- Working state of the `coalesced` sweep: node IDs deleted from the new-node
map, edge IDs deleted from the remaining-edge map, and the accumulated new
edges.  Deleted map entries are skipped by the source's iteration. -/
structure CoalesceState where
  deletedNodeIds : List NodeId
  deletedEdgeIds : List EdgeId
  newEdges : List SimpleEdge

/-- Body of the `coalesced` sweep for one remaining edge (`graph.ts`
`coalesced`, the `remainingEdgesById.forEach` callback). -/
noncomputable def coalesceStep (g : Graph) (st : CoalesceState) (edge : Edge) :
    Except String CoalesceState :=
  if edge.id ∈ st.deletedEdgeIds then .ok st
  else do
    let path ← g.getOnlyPath edge
    if path.length = 1 then
      return { st with newEdges := st.newEdges ++ [edge.toSimple] }
    else
      let firstEdge := path.headD dummyOrientedEdge
      let lastEdge := path.getLastD dummyOrientedEdge
      let startNodeId :=
        if firstEdge.isForward then firstEdge.edge.startNodeId else firstEdge.edge.endNodeId
      let endNodeId :=
        if lastEdge.isForward then lastEdge.edge.endNodeId else lastEdge.edge.startNodeId
      let minEdgeId :=
        (Utils.minOf (path.map fun pathEdge => pathEdge.edge.id) Utils.compareIds).getD (.int 0)
      let allLocations := Utils.dedupeLocations (Utils.flatMap path fun pathEdge =>
        if pathEdge.isForward then pathEdge.edge.locations else pathEdge.edge.locations.reverse)
      let innerLocations := (allLocations.take (allLocations.length - 1)).drop 1
      let newEdge : SimpleEdge :=
        { id := minEdgeId, startNodeId := startNodeId, endNodeId := endNodeId,
          innerLocations := innerLocations }
      let nodeIdsToDelete :=
        (Utils.flatMap path fun pathEdge => [pathEdge.edge.startNodeId, pathEdge.edge.endNodeId]).filter
          (fun nodeId => nodeId ≠ startNodeId && nodeId ≠ endNodeId)
      let edgesSeen := path.map (·.edge)
      return { deletedNodeIds := st.deletedNodeIds ++ nodeIdsToDelete,
               deletedEdgeIds := st.deletedEdgeIds ++ edgesSeen.map (·.id),
               newEdges := st.newEdges ++ [newEdge] }

/-- Chain coalescing (`Graph.coalesced` in `graph.ts`): sweep the remaining
edges in insertion order, replace each maximal chain by one new edge, drop
the chain-interior nodes, and build a fresh graph. -/
noncomputable def Graph.coalesced (g : Graph) : Except String Graph := do
  let st ← g.edges.foldlM (coalesceStep g) ⟨[], [], []⟩
  let newNodes := g.nodes.filter (fun n => n.id ∉ st.deletedNodeIds)
  Graph.create (newNodes.map fun n => { id := n.id, location := n.location }) st.newEdges

/-- The `SimpleEdge` pushed by the merge branch of `coalesceStep`, with the
`let`-bound fields inlined. -/
noncomputable def mergedEntry (path : List OrientedEdge) : SimpleEdge :=
  { id := (Utils.minOf (path.map fun pathEdge => pathEdge.edge.id) Utils.compareIds).getD
      (.int 0),
    startNodeId :=
      if (path.headD dummyOrientedEdge).isForward then
        (path.headD dummyOrientedEdge).edge.startNodeId
      else (path.headD dummyOrientedEdge).edge.endNodeId,
    endNodeId :=
      if (path.getLastD dummyOrientedEdge).isForward then
        (path.getLastD dummyOrientedEdge).edge.endNodeId
      else (path.getLastD dummyOrientedEdge).edge.startNodeId,
    innerLocations :=
      ((Utils.dedupeLocations (Utils.flatMap path fun pathEdge =>
          if pathEdge.isForward then pathEdge.edge.locations
          else pathEdge.edge.locations.reverse)).take
        ((Utils.dedupeLocations (Utils.flatMap path fun pathEdge =>
          if pathEdge.isForward then pathEdge.edge.locations
          else pathEdge.edge.locations.reverse)).length - 1)).drop 1 }

/-- The node ids deleted by the merge branch of `coalesceStep`, with the
`let`-bound fields inlined. -/
noncomputable def mergedDels (path : List OrientedEdge) : List NodeId :=
  (Utils.flatMap path fun pathEdge =>
    [pathEdge.edge.startNodeId, pathEdge.edge.endNodeId]).filter
    (fun nodeId =>
      nodeId ≠ (if (path.headD dummyOrientedEdge).isForward then
          (path.headD dummyOrientedEdge).edge.startNodeId
        else (path.headD dummyOrientedEdge).edge.endNodeId) &&
      nodeId ≠ (if (path.getLastD dummyOrientedEdge).isForward then
          (path.getLastD dummyOrientedEdge).edge.endNodeId
        else (path.getLastD dummyOrientedEdge).edge.startNodeId))

/-- Set-insertion step of the traversal's `edgeIds.add` calls: append an id
unless it is already present (insertion-ordered set model). -/
def addUnique (s : List EdgeId) (edgeId : EdgeId) : List EdgeId :=
  if edgeId ∈ s then s else s ++ [edgeId]

/-- Neighbor-marking step of the traversal: record an unseen neighbor's id
and push the neighbor onto the pending stack. -/
def bfsMark (st : List NodeId × List Node) (neighbor : Node) : List NodeId × List Node :=
  if neighbor.id ∈ st.1 then st else (st.1 ++ [neighbor.id], st.2 ++ [neighbor])

/-- Traversal of `getConnectedComponentOfNode`: the source's stack-based
search, popping from the back of `pending`, collecting incident edge IDs and
marking unseen neighbors.  Fuel of `|nodes| + 1` always suffices because
every iteration pops one pending node and only unseen nodes are ever
pushed. -/
def bfsGo (g : Graph) :
    ℕ → List Node → List NodeId → List EdgeId → Except String (List NodeId × List EdgeId)
  | 0, _, nodesIdsSeen, edgeIds => .ok (nodesIdsSeen, edgeIds)
  | fuel + 1, pending, nodesIdsSeen, edgeIds =>
    if pending.isEmpty then .ok (nodesIdsSeen, edgeIds)
    else do
      let currentNode := pending.getLastD dummyNode
      let pending := pending.take (pending.length - 1)
      let edgeIds := currentNode.edgeIds.foldl addUnique edgeIds
      let neighbors ← g.getNeighbors currentNode.id
      let st := neighbors.foldl bfsMark (nodesIdsSeen, pending)
      bfsGo g fuel st.2 st.1 edgeIds

/-- Connected component of a node (`Graph.getConnectedComponentOfNode` in
`graph.ts`): traverse from the node, then filter the original node and edge
lists to preserve insertion order and build a fresh graph. -/
noncomputable def Graph.getConnectedComponentOfNode (g : Graph) (nodeId : NodeId) :
    Except String Graph := do
  let startNode ← g.getNodeOrThrow nodeId
  let seen ← bfsGo g (g.nodes.length + 1) [startNode] [startNode.id] []
  let nodes := g.getAllNodes.filter (fun n => n.id ∈ seen.1)
  let edges := g.getAllEdges.filter (fun e => e.id ∈ seen.2)
  Graph.create (nodes.map fun n => { id := n.id, location := n.location })
    (edges.map Edge.toSimple)

/-- Sweep of `getConnectedComponents`: visit all nodes in insertion order and
collect the component of each not-yet-seen node. -/
noncomputable def componentsGo (g : Graph) :
    List Node → List NodeId → List Graph → Except String (List Graph)
  | [], _, acc => .ok acc
  | node :: rest, seen, acc =>
    if node.id ∈ seen then componentsGo g rest seen acc
    else do
      let component ← g.getConnectedComponentOfNode node.id
      let seen := (component.getAllNodes.map (·.id)).foldl
        (fun s nid => if nid ∈ s then s else s ++ [nid]) seen
      componentsGo g rest seen (acc ++ [component])

/-- Connected components in order of first occurrence
(`Graph.getConnectedComponents` in `graph.ts`). -/
noncomputable def Graph.getConnectedComponents (g : Graph) : Except String (List Graph) :=
  componentsGo g g.nodes [] []

/-- Node-sample step of `withClosestPointMesh`: a node with at least one
incident edge contributes a sample at its own coordinates, attached to its
first incident edge, with `locationIndex` `0` when the node is that edge's
start and `locations.length - 2` otherwise. -/
noncomputable def meshNodeStep (g : Graph) (acc : List MeshPoint) (node : Node) :
    Except String (List MeshPoint) := do
  if node.edgeIds.length > 0 then
    let e ← g.getEdgeOrThrow (node.edgeIds.getD 0 (.int 0))
    let locationIndex : ℤ :=
      if e.startNodeId = node.id then 0 else (e.locations.length : ℤ) - 2
    let pt : MeshPoint :=
      { x := node.location.x, y := node.location.y, edgeId := e.id,
        locationIndex := locationIndex }
    return acc ++ [pt]
  else
    return acc

/-- Interior-sample step of `withClosestPointMesh` for one sample index `i`
of an edge: sample the point at distance `i * stepDistance` and attach the
floor index of that distance in the cumulative-distance table. -/
noncomputable def meshSampleStep (g : Graph) (edge : Edge) (stepDistance : ℝ)
    (acc2 : List MeshPoint) (i : ℕ) : Except String (List MeshPoint) := do
  let distance := (i : ℝ) * stepDistance
  let l ← g.getLocation { edgeId := edge.id, distance := distance }
  let locationIndex := Utils.findFloorIndex edge.locationDistances distance
  let pt : MeshPoint :=
    { x := l.x, y := l.y, edgeId := edge.id, locationIndex := locationIndex }
  return acc2 ++ [pt]

/-- Edge-sample step of `withClosestPointMesh`: an edge of length `L`
contributes samples at `i * (L / ceil(L / precision))` for
`i = 1 .. ceil(L / precision) - 1`. -/
noncomputable def meshEdgeStep (g : Graph) (precision : ℝ) (acc : List MeshPoint)
    (edge : Edge) : Except String (List MeshPoint) :=
  let numSegments : ℤ := ⌈edge.length / precision⌉
  let stepDistance := edge.length / (numSegments : ℝ)
  ((List.range (numSegments.toNat - 1)).map (· + 1)).foldlM
    (meshSampleStep g edge stepDistance) acc

/-- Mesh samples of `withClosestPointMesh`: one sample per node with at least
one incident edge (attached to its first incident edge) followed by
`ceil(length / precision) - 1` evenly spaced samples per edge. -/
noncomputable def Graph.meshPoints (g : Graph) (precision : ℝ) :
    Except String (List MeshPoint) := do
  let nodeSamples ← g.getAllNodes.foldlM (meshNodeStep g) ([] : List MeshPoint)
  g.getAllEdges.foldlM (meshEdgeStep g precision) nodeSamples

/-- Enable the closest-point index (`Graph.withClosestPointMesh` in
`graph.ts`): same maps, mesh populated. -/
noncomputable def Graph.withClosestPointMesh (g : Graph) (precision : ℝ) :
    Except String Graph := do
  let pts ← g.meshPoints precision
  return { g with mesh := some pts }

/-- Refinement step of `getClosestPointWithMesh` in `graph.ts`.  The external
R-tree 1-NN query (`knn`) returns one of the loaded mesh points; the chosen
point is taken here as an argument, and the body refines it to the exact
closest point on the identified polyline segment. -/
noncomputable def Graph.refineClosestMeshPoint (g : Graph) (location : Location)
    (mp : MeshPoint) : Except String EdgePoint := do
  let e ← g.getEdgeOrThrow mp.edgeId
  let proj := Utils.closestPointOnSegment location
    (e.locations.getD mp.locationIndex.toNat dummyLocation)
    (e.locations.getD (mp.locationIndex + 1).toNat dummyLocation)
  return { edgeId := mp.edgeId,
           distance := e.locationDistances.getD mp.locationIndex.toNat 0 +
             proj.distanceDownSegment }

/-- One segment comparison of `getClosestPointWithoutMesh`: refine the query
against segment `i` of the edge and keep the nearer of it and the best
candidate so far.  The source seeds `bestDistance` with `+∞` and updates on
strict improvement; the empty state is represented by `none`, which every
first candidate replaces, matching the strict comparison against `+∞`. -/
noncomputable def scanSegmentStep (location : Location) (edge : Edge)
    (best : Option (EdgePoint × ℝ)) (i : ℕ) : Option (EdgePoint × ℝ) :=
  let proj := Utils.closestPointOnSegment location
    (edge.locations.getD i dummyLocation) (edge.locations.getD (i + 1) dummyLocation)
  let candidate : EdgePoint :=
    { edgeId := edge.id,
      distance := edge.locationDistances.getD i 0 + proj.distanceDownSegment }
  match best with
  | none => some (candidate, proj.distanceFromLocation)
  | some pair =>
    if proj.distanceFromLocation < pair.2 then some (candidate, proj.distanceFromLocation)
    else some pair

/-- Per-edge scan of `getClosestPointWithoutMesh`: try every polyline
segment of the edge in order. -/
noncomputable def scanSegments (location : Location) (edge : Edge)
    (best : Option (EdgePoint × ℝ)) : Option (EdgePoint × ℝ) :=
  (List.range (edge.locations.length - 1)).foldl (scanSegmentStep location edge) best

/-- Linear-scan fallback of `getClosestPoint`
(`Graph.getClosestPointWithoutMesh` in `graph.ts`). -/
noncomputable def Graph.getClosestPointWithoutMesh (g : Graph) (location : Location) :
    Except String EdgePoint :=
  match g.edges.foldl (fun best edge => scanSegments location edge best) none with
  | none => .error "Cannot find closest edge point on graph with no edges"
  | some pair => .ok pair.1

/-! ### Derived predicates used by the claims -/

/-- Location of the node with a given id, used to state stability of the node
map across the `create` edge pass. -/
def nodeLocation (ns : List Node) (i : NodeId) : Option Location :=
  (ns.find? (fun n => n.id = i)).map (·.location)

/-- Invariant of every derived edge produced by the `create` edge pass, stated
against a location lookup. -/
def EdgeInv (nl : NodeId → Option Location) (e : Edge) : Prop :=
  e.locationDistances = Utils.getCumulativeDistances e.locations ∧
  e.length = e.locationDistances.getLastD 0 ∧
  ∃ ls le, nl e.startNodeId = some ls ∧ nl e.endNodeId = some le ∧
    e.locations = ls :: (e.innerLocations ++ [le])

/-- Distance already travelled along the first oriented edge when standing at
the path's start point, accounting for the edge's orientation (the
`orientedStartDistance` of `advanceAlongPath`). -/
noncomputable def pathStartOffset (p : Path) : ℝ :=
  if (p.orientedEdges.headD dummyOrientedEdge).isForward then p.start.distance
  else (p.orientedEdges.headD dummyOrientedEdge).edge.length - p.start.distance

/-- Distance left on the last oriented edge beyond the path's end point,
accounting for the edge's orientation. -/
noncomputable def pathEndOffset (p : Path) : ℝ :=
  if (p.orientedEdges.getLastD dummyOrientedEdge).isForward then
    (p.orientedEdges.getLastD dummyOrientedEdge).edge.length - p.«end».distance
  else p.«end».distance

/-- Shape invariants of a `Path` (spec §3): nonempty oriented-edge and
location lists, one interior node fewer than edges, the start and end points
on the first and last oriented edges within bounds, and the length
accounting identity: the path length is the total edge length minus the
start and end offsets. -/
def Path.IsValid (p : Path) : Prop :=
  p.orientedEdges ≠ [] ∧
  p.locations ≠ [] ∧
  p.nodes.length + 1 = p.orientedEdges.length ∧
  p.start.edgeId = (p.orientedEdges.headD dummyOrientedEdge).edge.id ∧
  p.«end».edgeId = (p.orientedEdges.getLastD dummyOrientedEdge).edge.id ∧
  0 ≤ p.start.distance ∧
  p.start.distance ≤ (p.orientedEdges.headD dummyOrientedEdge).edge.length ∧
  0 ≤ p.«end».distance ∧
  p.«end».distance ≤ (p.orientedEdges.getLastD dummyOrientedEdge).edge.length ∧
  p.length = (p.orientedEdges.map (·.edge.length)).sum - pathStartOffset p - pathEndOffset p

/-- Total identifier order of spec §3, stated from the spec's words: every
integer compares less than every string, and identifiers of the same type
compare in natural order. -/
def idLE : Id → Id → Prop
  | .int a, .int b => a ≤ b
  | .int _, .str _ => True
  | .str _, .int _ => False
  | .str a, .str b => a ≤ b

/-- Substring containment, witnessed by an explicit decomposition. -/
def strContains (s sub : String) : Prop := ∃ pre post, s = pre ++ sub ++ post

/-- Facts available for every edge of a successfully created graph, packaged
for the closest-point proofs: the edge resolves to itself by id, its
cumulative-distance table derives from its polyline, its length is the last
cumulative distance, and the polyline has at least two points. -/
def CreatedEdge (g : Graph) (e : Edge) : Prop :=
  g.getEdge e.id = some e ∧
  e.locationDistances = Utils.getCumulativeDistances e.locations ∧
  e.length = e.locationDistances.getLastD 0 ∧
  2 ≤ e.locations.length

/-- Everything `refineClosestMeshPoint` needs of a mesh point in order to
return an in-range edge point: the referenced edge exists, the cumulative
distance at its location index is nonnegative, and that distance plus the
length of the identified segment stays within the edge length. -/
def MeshPointInv (g : Graph) (mp : MeshPoint) : Prop :=
  ∃ e, g.getEdge mp.edgeId = some e ∧
    0 ≤ e.locationDistances.getD mp.locationIndex.toNat 0 ∧
    e.locationDistances.getD mp.locationIndex.toNat 0 +
      Utils.distanceBetween (e.locations.getD mp.locationIndex.toNat dummyLocation)
        (e.locations.getD (mp.locationIndex + 1).toNat dummyLocation) ≤ e.length

/-- In-range property of an edge point against a graph, as claimed for the
results of the closest-point queries. -/
def EdgePointInRange (g : Graph) (pt : EdgePoint) : Prop :=
  ∃ e, g.getEdge pt.edgeId = some e ∧ 0 ≤ pt.distance ∧ pt.distance ≤ e.length

/-- Consistency facts of a constructed graph used by the traversal safety
proof: node and edge ids are duplicate-free, every edge's endpoints name
existing nodes, and every id in a node's incident-edge list names an existing
edge having that node as an endpoint. -/
def Wellformed (g : Graph) : Prop :=
  (g.nodes.map (·.id)).Nodup ∧
  (g.edges.map (·.id)).Nodup ∧
  (∀ e ∈ g.edges, e.startNodeId ∈ g.nodes.map (·.id) ∧ e.endNodeId ∈ g.nodes.map (·.id)) ∧
  (∀ n ∈ g.nodes, ∀ i ∈ n.edgeIds,
    ∃ e ∈ g.edges, e.id = i ∧ (e.startNodeId = n.id ∨ e.endNodeId = n.id))

/-- Endpoint-slot contributions of a list of input edges at a node id, in
registration order: the edge pass of `Graph.create` pushes each edge's id
onto its start node's list and then onto its end node's list, so a node's
final `edgeIds` is exactly this list. -/
def contribS (nid : NodeId) : List SimpleEdge → List EdgeId
  | [] => []
  | e :: rest =>
    ((if e.startNodeId = nid then [e.id] else []) ++
      (if e.endNodeId = nid then [e.id] else [])) ++ contribS nid rest

/-- Endpoint-slot contributions of a list of derived edges at a node id
(same shape as `contribS`, read off `Edge` records). -/
def contribE (nid : NodeId) : List Edge → List EdgeId
  | [] => []
  | e :: rest =>
    ((if e.startNodeId = nid then [e.id] else []) ++
      (if e.endNodeId = nid then [e.id] else [])) ++ contribE nid rest

/-- Node the walk moves to when traversing an oriented edge. -/
def OrientedEdge.target (o : OrientedEdge) : NodeId :=
  if o.isForward then o.edge.endNodeId else o.edge.startNodeId

/-- Node the walk stands on before traversing an oriented edge. -/
def OrientedEdge.source (o : OrientedEdge) : NodeId :=
  if o.isForward then o.edge.startNodeId else o.edge.endNodeId

/-- One continuation step of the chain walk `onlyPathGo`: the target node of
`o` has exactly two incident-edge slots, and the walk leaves it along the
slot other than the one it arrived by, oriented away from that node. -/
def WalkStep (g : Graph) (o o' : OrientedEdge) : Prop :=
  ∃ n, g.getNode (OrientedEdge.target o) = some n ∧ n.edgeIds.length = 2 ∧
    o'.edge ∈ g.edges ∧
    o'.edge.id = (if o.edge.id = n.edgeIds.getD 0 (.int 0) then n.edgeIds.getD 1 (.int 0)
      else n.edgeIds.getD 0 (.int 0)) ∧
    o'.isForward = decide (o'.edge.startNodeId = OrientedEdge.target o)

/-- A graph on which the coalescing sweep finds no chain to merge: every
edge's maximal chain is the edge itself. -/
def CoalesceStable (h : Graph) : Prop :=
  ∀ e ∈ h.edges, ∃ p, h.getOnlyPath e = .ok p ∧ p.length = 1

/-- Every node with exactly two incident-edge slots carries a single
self-loop: its slot list is `[i, i]` for one edge id `i`. -/
def Deg2Loop (h : Graph) : Prop :=
  ∀ n ∈ h.nodes, n.edgeIds.length = 2 → ∃ i, n.edgeIds = [i, i]

/-- Weak linkage of two consecutive oriented edges of a walk result: they
meet at a node with exactly two incident-edge slots, both slots are theirs,
and they are distinct edges. -/
def LinkedAt (g : Graph) (o o' : OrientedEdge) : Prop :=
  OrientedEdge.target o = OrientedEdge.source o' ∧
  ∃ n, g.getNode (OrientedEdge.target o) = some n ∧ n.edgeIds.length = 2 ∧
    o.edge.id ∈ n.edgeIds ∧ o'.edge.id ∈ n.edgeIds ∧ o.edge.id ≠ o'.edge.id

/-- Edge ids of a chain, in walk order. -/
def chainIds (p : List OrientedEdge) : List EdgeId := p.map (·.edge.id)

/-- A maximal chain as returned by `Graph.getOnlyPath`: a nonempty linked
walk over distinct graph edges whose ends either stop at nodes without
exactly two slots, close up into a loop, or consist of a single self-loop
edge filling both slots of its node. -/
def GoodChain (g : Graph) (p : List OrientedEdge) : Prop :=
  p ≠ [] ∧ (∀ o ∈ p, o.edge ∈ g.edges) ∧ ((p.map (·.edge.id)).Nodup) ∧
  List.Chain' (LinkedAt g) p ∧
  (((∀ n, g.getNode (OrientedEdge.source (p.headD dummyOrientedEdge)) = some n →
        n.edgeIds.length ≠ 2) ∧
      (∀ n, g.getNode (OrientedEdge.target (p.getLastD dummyOrientedEdge)) = some n →
        n.edgeIds.length ≠ 2)) ∨
    (2 ≤ p.length ∧ LinkedAt g (p.getLastD dummyOrientedEdge) (p.headD dummyOrientedEdge)) ∨
    (∃ o, p = [o] ∧ o.edge.startNodeId = o.edge.endNodeId ∧
      ∀ n, g.getNode o.edge.endNodeId = some n → n.edgeIds = [o.edge.id, o.edge.id]))

/-- One maximal chain recorded during the `coalesced` sweep: the walk, the
`SimpleEdge` the sweep pushed for it, and the node ids its merge step
deleted. -/
structure ChainDat where
  path : List OrientedEdge
  entry : SimpleEdge
  dels : List NodeId

/-- Facts the coalescing sweep establishes for each recorded chain. -/
def ChainDatOK (g : Graph) (c : ChainDat) : Prop :=
  GoodChain g c.path ∧
  c.entry.startNodeId = OrientedEdge.source (c.path.headD dummyOrientedEdge) ∧
  c.entry.endNodeId = OrientedEdge.target (c.path.getLastD dummyOrientedEdge) ∧
  c.entry.id ∈ chainIds c.path ∧
  (c.path.length = 1 → c.dels = []) ∧
  (2 ≤ c.path.length →
    ∀ i, (∃ o ∈ c.path, i = o.edge.startNodeId ∨ i = o.edge.endNodeId) →
      i ≠ c.entry.startNodeId → i ≠ c.entry.endNodeId → i ∈ c.dels) ∧
  (∀ i ∈ c.dels, ∃ n ∈ g.nodes, n.id = i ∧ n.edgeIds.length = 2)

/-- Invariant of the `coalesced` fold over the edge list: the working state
is described by a list of recorded chains covering the processed prefix. -/
def SweepInv (g : Graph) (done : List Edge) (st : CoalesceState) (cs : List ChainDat) : Prop :=
  (∀ c ∈ cs, ChainDatOK g c) ∧
  List.Pairwise (fun c c2 => ∀ i ∈ chainIds c.path, i ∉ chainIds c2.path) cs ∧
  st.newEdges = cs.map (·.entry) ∧
  (∀ i ∈ st.deletedEdgeIds, ∃ c ∈ cs, i ∈ chainIds c.path) ∧
  (∀ c ∈ cs, 2 ≤ c.path.length → ∀ i ∈ chainIds c.path, i ∈ st.deletedEdgeIds) ∧
  (∀ c ∈ cs, ∀ i ∈ c.dels, i ∈ st.deletedNodeIds) ∧
  (∀ i ∈ st.deletedNodeIds, ∃ c ∈ cs, i ∈ c.dels) ∧
  (∀ e ∈ done, ∃ c ∈ cs, e.id ∈ chainIds c.path) ∧
  (∀ c ∈ cs, c.path.length = 1 → ∃ o, c.path = [o] ∧ o.edge ∈ done)

/-! ### Concrete inputs used by the witnesses -/

def witNodesC8 : List SimpleNode :=
  [{ id := .int 0, location := { x := 0, y := 0 } },
   { id := .int 1, location := { x := 0, y := 0 } }]

def witEdgesC8 : List SimpleEdge :=
  [{ id := .int 7, startNodeId := .int 0, endNodeId := .int 1, innerLocations := [] }]

def witNodeRec0 : Node := { id := .int 0, location := { x := 0, y := 0 }, edgeIds := [.int 7] }

def witNodeRec1 : Node := { id := .int 1, location := { x := 0, y := 0 }, edgeIds := [.int 7] }

def witEdgeRec : Edge :=
  { id := .int 7, startNodeId := .int 0, endNodeId := .int 1,
    innerLocations := [],
    length := 0,
    locations := [{ x := 0, y := 0 }, { x := 0, y := 0 }],
    locationDistances := [0, 0] }

/-- Image of `witNodesC8`/`witEdgesC8` under `Graph.create`. -/
def witGraphC8 : Graph :=
  { nodes := [witNodeRec0, witNodeRec1], edges := [witEdgeRec], mesh := none }

def witEdgeLen1 : Edge :=
  { id := .int 9, startNodeId := .int 0, endNodeId := .int 1, innerLocations := [],
    length := 1, locations := [{ x := 0, y := 0 }, { x := 1, y := 0 }],
    locationDistances := [0, 1] }

/-- Forward single-edge path across `witEdgeLen1`. -/
def witPathC6 : Path :=
  { start := { edgeId := .int 9, distance := 0 },
    «end» := { edgeId := .int 9, distance := 1 },
    orientedEdges := [{ edge := witEdgeLen1, isForward := true }],
    nodes := [], locations := [{ x := 0, y := 0 }, { x := 1, y := 0 }], length := 1 }

def witNodeA4 : Node := { id := .int 0, location := { x := 0, y := 0 }, edgeIds := [.int 5] }

def witNodeB4 : Node :=
  { id := .int 1, location := { x := 1, y := 0 }, edgeIds := [.int 5, .int 3] }

def witNodeD4 : Node := { id := .int 2, location := { x := 2, y := 0 }, edgeIds := [.int 3] }

def witEdge5 : Edge :=
  { id := .int 5, startNodeId := .int 0, endNodeId := .int 1, innerLocations := [],
    length := 1, locations := [{ x := 0, y := 0 }, { x := 1, y := 0 }],
    locationDistances := [0, 1] }

def witEdge3 : Edge :=
  { id := .int 3, startNodeId := .int 1, endNodeId := .int 2, innerLocations := [],
    length := 1, locations := [{ x := 1, y := 0 }, { x := 2, y := 0 }],
    locationDistances := [0, 1] }

/-- Two-edge chain through a degree-2 node, used to exercise the coalescing
sweep. -/
def witGraphC4 : Graph :=
  { nodes := [witNodeA4, witNodeB4, witNodeD4], edges := [witEdge5, witEdge3], mesh := none }

def witPathC4 : List OrientedEdge :=
  [{ edge := witEdge5, isForward := true }, { edge := witEdge3, isForward := true }]

def witNewEdgeC4 : SimpleEdge :=
  { id := .int 3, startNodeId := .int 0, endNodeId := .int 2,
    innerLocations := [{ x := 1, y := 0 }] }

def witStC4 : CoalesceState :=
  { deletedNodeIds := [.int 1, .int 1], deletedEdgeIds := [.int 5, .int 3],
    newEdges := [witNewEdgeC4] }

/-! ### Claim C3: `findFloorIndex` -/

/-- Property claimed of `findFloorIndex`: the result is the largest index
whose element is at most `x`, and `-1` exactly when every element exceeds
`x`. -/
def IsFloorIndex (xs : List ℝ) (x : ℝ) (r : ℤ) : Prop :=
  (r = -1 ∧ ∀ a ∈ xs, x < a) ∨
  (0 ≤ r ∧ r.toNat < xs.length ∧ xs.getD r.toNat 0 ≤ x ∧
    ∀ j : ℕ, r.toNat < j → j < xs.length → x < xs.getD j 0)

theorem sorted_getD_lt {xs : List ℝ} (hs : List.Sorted (· < ·) xs) {i j : ℕ}
    (hij : i < j) (hj : j < xs.length) : xs.getD i 0 < xs.getD j 0 := by
  rw [List.getD_eq_getElem _ _ (lt_trans hij hj), List.getD_eq_getElem _ _ hj]
  exact List.pairwise_iff_getElem.mp hs i j (lt_trans hij hj) hj hij

theorem findFloorGo_correct {xs : List ℝ} {x : ℝ} (hs : List.Sorted (· < ·) xs) :
    ∀ (fuel : ℕ) (minI maxI : ℤ),
      -1 ≤ minI → minI < maxI → maxI ≤ xs.length →
      (minI = -1 ∨ (0 ≤ minI ∧ minI.toNat < xs.length ∧ xs.getD minI.toNat 0 ≤ x)) →
      (∀ j : ℕ, maxI ≤ (j : ℤ) → j < xs.length → x < xs.getD j 0) →
      (maxI - minI).toNat ≤ fuel + 1 →
      IsFloorIndex xs x (Utils.findFloorGo xs x fuel minI maxI) := by
  intro fuel
  induction fuel with
  | zero =>
    intro minI maxI h0 h1 h2 h3 h4 h5
    have hmax : maxI = minI + 1 := by omega
    rw [Utils.findFloorGo]
    rcases h3 with h3 | h3
    · left
      refine ⟨h3, fun a ha => ?_⟩
      obtain ⟨j, hj, rfl⟩ := List.mem_iff_getElem.mp ha
      rw [← List.getD_eq_getElem _ 0 hj]
      exact h4 j (by omega) hj
    · right
      exact ⟨h3.1, h3.2.1, h3.2.2, fun j hj hjl => h4 j (by omega) hjl⟩
  | succ fuel ih =>
    intro minI maxI h0 h1 h2 h3 h4 h5
    rw [Utils.findFloorGo]
    by_cases hguard : minI < maxI - 1
    · rw [if_pos hguard]
      set g := (minI + maxI) / 2 with hg
      have hglo : minI < g := by omega
      have hghi : g < maxI := by omega
      have hgnn : 0 ≤ g := by omega
      have hglen : g.toNat < xs.length := by omega
      by_cases hlt : xs.getD g.toNat 0 < x
      · simp only [if_pos hlt]
        exact ih g maxI (by omega) hghi h2 (Or.inr ⟨hgnn, hglen, le_of_lt hlt⟩) h4 (by omega)
      · simp only [if_neg hlt]
        by_cases heq : xs.getD g.toNat 0 = x
        · simp only [if_pos heq]
          right
          refine ⟨hgnn, hglen, le_of_eq heq, fun j hj hjl => ?_⟩
          calc x = xs.getD g.toNat 0 := heq.symm
            _ < xs.getD j 0 := sorted_getD_lt hs hj hjl
        · simp only [if_neg heq]
          have hgt : x < xs.getD g.toNat 0 := lt_of_le_of_ne (not_lt.mp hlt) (fun h => heq h.symm)
          refine ih minI g h0 hglo (by omega) h3 (fun j hj hjl => ?_) (by omega)
          rcases lt_or_ge (j : ℤ) (g + 1) with hcase | hcase
          · have : j = g.toNat := by omega
            rw [this]; exact hgt
          · calc x < xs.getD g.toNat 0 := hgt
              _ < xs.getD j 0 := sorted_getD_lt hs (by omega) hjl
    · rw [if_neg hguard]
      have hmax : maxI = minI + 1 := by omega
      rcases h3 with h3 | h3
      · left
        refine ⟨h3, fun a ha => ?_⟩
        obtain ⟨j, hj, rfl⟩ := List.mem_iff_getElem.mp ha
        rw [← List.getD_eq_getElem _ 0 hj]
        exact h4 j (by omega) hj
      · right
        exact ⟨h3.1, h3.2.1, h3.2.2, fun j hj hjl => h4 j (by omega) hjl⟩

/-- C3 (counterexample): the claim fails on arrays that are sorted in
non-decreasing order but contain duplicates.  On `[1, 1]` with `x = 1` the
binary search returns index `0`, yet index `1` also carries an element at
most `x`, so `0` is not the largest such index. -/
theorem C3_counterexample :
    List.Sorted (· ≤ ·) [(1 : ℝ), 1] ∧
    Utils.findFloorIndex [(1 : ℝ), 1] 1 = 0 ∧
    ¬ IsFloorIndex [(1 : ℝ), 1] 1 (Utils.findFloorIndex [(1 : ℝ), 1] 1) := by
  refine ⟨by norm_num [List.sorted_cons], ?_, ?_⟩
  · norm_num [Utils.findFloorIndex, Utils.findFloorGo]
  · rw [show Utils.findFloorIndex [(1 : ℝ), 1] 1 = 0 by
      norm_num [Utils.findFloorIndex, Utils.findFloorGo]]
    intro h
    rcases h with ⟨h1, _⟩ | ⟨_, _, _, h4⟩
    · exact absurd h1 (by norm_num)
    · have := h4 1 (by norm_num) (by norm_num)
      norm_num at this

/-- C3 (amended): for every array of numbers sorted in strictly increasing
order and every number `x`, `findFloorIndex(xs, x)` returns the largest index
`i` with `xs[i] ≤ x`, and `-1` when every element of `xs` is strictly greater
than `x`. -/
theorem C3_findFloorIndex_strict_sorted {xs : List ℝ} {x : ℝ}
    (hs : List.Sorted (· < ·) xs) : IsFloorIndex xs x (Utils.findFloorIndex xs x) := by
  apply findFloorGo_correct hs
  · omega
  · omega
  · omega
  · omega
  · intro j hj hjl
    omega
  · omega

/-- C3 (witness): the amended theorem applied to the strictly sorted array
`[0, 2]` with `x = 1`. -/
theorem C3_witness :
    List.Sorted (· < ·) [(0 : ℝ), 2] ∧
    IsFloorIndex [(0 : ℝ), 2] 1 (Utils.findFloorIndex [(0 : ℝ), 2] 1) :=
  ⟨by norm_num [List.sorted_cons], C3_findFloorIndex_strict_sorted (by norm_num [List.sorted_cons])⟩

/-! ### Claim C2: `getLocation` -/

/-- C2: for every graph, every edge `e` whose id resolves to it, and every
number `d`, `getLocation {edgeId := e.id, distance := d}` returns the stored
location of `e`'s start node when `d < 0`, the stored location of `e`'s end
node whenever `d ≥ e.length`, and otherwise
`intermediate(e.locations[i], e.locations[i+1], d - e.locationDistances[i])`
with `i = findFloorIndex(e.locationDistances, d)`. -/
theorem C2_getLocation (g : Graph) (e : Edge) (sn tn : Node) (d : ℝ)
    (he : g.getEdge e.id = some e)
    (hs : g.getNode e.startNodeId = some sn)
    (ht : g.getNode e.endNodeId = some tn)
    (hlen : 0 ≤ e.length) :
    (d < 0 → g.getLocation { edgeId := e.id, distance := d } = .ok sn.location) ∧
    (d ≥ e.length → g.getLocation { edgeId := e.id, distance := d } = .ok tn.location) ∧
    (0 ≤ d → d < e.length →
      g.getLocation { edgeId := e.id, distance := d } =
        .ok (Utils.getIntermediateLocation
          (e.locations.getD (Utils.findFloorIndex e.locationDistances d).toNat dummyLocation)
          (e.locations.getD ((Utils.findFloorIndex e.locationDistances d) + 1).toNat dummyLocation)
          (d - e.locationDistances.getD (Utils.findFloorIndex e.locationDistances d).toNat 0))) := by
  have hbase : g.getLocation { edgeId := e.id, distance := d } =
      if d < 0 then .ok sn.location
      else if d ≥ e.length then .ok tn.location
      else .ok (Utils.getIntermediateLocation
        (e.locations.getD (Utils.findFloorIndex e.locationDistances d).toNat dummyLocation)
        (e.locations.getD ((Utils.findFloorIndex e.locationDistances d) + 1).toNat dummyLocation)
        (d - e.locationDistances.getD (Utils.findFloorIndex e.locationDistances d).toNat 0)) := by
    simp only [Graph.getLocation, Graph.getEdgeOrThrow, Graph.getEndpointsOfEdge,
      Graph.getNodeOrThrow, he, hs, ht, bind, Except.bind, pure, Except.pure]
  refine ⟨fun h => ?_, fun h => ?_, fun h0 h1 => ?_⟩
  · rw [hbase, if_pos h]
  · rw [hbase, if_neg (not_lt.mpr (le_trans hlen h)), if_pos h]
  · rw [hbase, if_neg (not_lt.mpr h0), if_neg (not_le.mpr h1)]

/-! ### Claim C8: construction invariants -/

theorem cumulFrom_length (s : ℝ) (p : Location) (ls : List Location) :
    (Utils.cumulFrom s p ls).length = ls.length := by
  induction ls generalizing s p with
  | nil => rfl
  | cons l rest ih => simp [Utils.cumulFrom, ih]

theorem getCumulativeDistances_length (ls : List Location) :
    (Utils.getCumulativeDistances ls).length = ls.length := by
  cases ls with
  | nil => rfl
  | cons p rest => simp [Utils.getCumulativeDistances, cumulFrom_length]

theorem find?_map_location {f : Node → Node}
    (hid : ∀ n, (f n).id = n.id) (hloc : ∀ n, (f n).location = n.location)
    (ns : List Node) (i : NodeId) :
    nodeLocation (ns.map f) i = nodeLocation ns i := by
  induction ns with
  | nil => rfl
  | cons n rest ih =>
    simp only [nodeLocation, List.map_cons, List.find?_cons] at *
    have hdec : (decide ((f n).id = i)) = (decide (n.id = i)) := by rw [hid]
    rw [hdec]
    cases hd : decide (n.id = i) with
    | true => simp [hloc]
    | false => exact ih

theorem pushEdgeId_nodeLocation (ns : List Node) (nid : NodeId) (eid : EdgeId) (i : NodeId) :
    nodeLocation (pushEdgeId ns nid eid) i = nodeLocation ns i := by
  apply find?_map_location
  · intro n; by_cases h : n.id = nid <;> simp [h]
  · intro n; by_cases h : n.id = nid <;> simp [h]

theorem addEdge_ok {st : List Node × List Edge} {e : SimpleEdge} {out : List Node × List Edge}
    (h : addEdge st e = .ok out) :
    ∃ startNode endNode,
      st.1.find? (fun n => n.id = e.startNodeId) = some startNode ∧
      st.1.find? (fun n => n.id = e.endNodeId) = some endNode ∧
      out = (pushEdgeId (pushEdgeId st.1 e.startNodeId e.id) e.endNodeId e.id,
             st.2 ++ [mkDerivedEdge e startNode endNode]) := by
  unfold addEdge at h
  by_cases hdup : (st.2.any (fun e2 => e2.id = e.id)) = true
  · rw [if_pos hdup] at h; cases h
  · rw [if_neg hdup] at h
    cases hfs : st.1.find? (fun n => n.id = e.startNodeId) with
    | none => rw [hfs] at h; cases h
    | some startNode =>
      rw [hfs] at h
      cases hft : st.1.find? (fun n => n.id = e.endNodeId) with
      | none => rw [hft] at h; cases h
      | some endNode =>
        rw [hft] at h
        cases h
        exact ⟨startNode, endNode, rfl, rfl, rfl⟩

theorem foldlM_addEdge_inv :
    ∀ (es : List SimpleEdge) (ns : List Node) (acc : List Edge)
      (out : List Node × List Edge),
      es.foldlM addEdge (ns, acc) = .ok out →
      (∀ i, nodeLocation out.1 i = nodeLocation ns i) ∧
      (∀ e ∈ out.2, e ∈ acc ∨ EdgeInv (nodeLocation out.1) e) := by
  intro es
  induction es with
  | nil =>
    intro ns acc out h
    simp only [List.foldlM_nil, pure, Except.pure, Except.ok.injEq] at h
    subst h
    exact ⟨fun _ => rfl, fun e he => Or.inl he⟩
  | cons e rest ih =>
    intro ns acc out h
    rw [List.foldlM_cons] at h
    cases ha : addEdge (ns, acc) e with
    | error msg => rw [ha] at h; cases h
    | ok st' =>
      rw [ha] at h
      simp only [bind, Except.bind] at h
      obtain ⟨sn, tn, hfs, hft, hout⟩ := addEdge_ok ha
      subst hout
      obtain ⟨hpres, hinv⟩ := ih _ _ _ h
      have hpres' : ∀ i, nodeLocation out.1 i = nodeLocation ns i := by
        intro i
        rw [hpres i, pushEdgeId_nodeLocation, pushEdgeId_nodeLocation]
      refine ⟨hpres', fun ed hed => ?_⟩
      rcases hinv ed hed with hmem | hinv'
      · rcases List.mem_append.mp hmem with h1 | h2
        · exact Or.inl h1
        · right
          have hed' : ed = mkDerivedEdge e sn tn := by simpa using h2
          subst hed'
          refine ⟨rfl, rfl, sn.location, tn.location, ?_, ?_, rfl⟩
          · rw [show (mkDerivedEdge e sn tn).startNodeId = e.startNodeId from rfl, hpres']
            simp [nodeLocation, hfs]
          · rw [show (mkDerivedEdge e sn tn).endNodeId = e.endNodeId from rfl, hpres']
            simp [nodeLocation, hft]
      · exact Or.inr hinv'

theorem create_ok {ns : List SimpleNode} {es : List SimpleEdge} {g : Graph}
    (h : Graph.create ns es = .ok g) :
    ∃ nsb out, buildNodes ns [] = .ok nsb ∧
      es.foldlM addEdge (nsb, []) = .ok out ∧
      g.nodes = out.1 ∧ g.edges = out.2 ∧ g.mesh = none := by
  unfold Graph.create at h
  cases hb : buildNodes ns [] with
  | error m => rw [hb] at h; cases h
  | ok nsb =>
    rw [hb] at h
    simp only [bind, Except.bind] at h
    cases hf : es.foldlM addEdge (nsb, []) with
    | error m => rw [hf] at h; cases h
    | ok out =>
      rw [hf] at h
      obtain ⟨ns', es'⟩ := out
      simp only [pure, Except.pure, Except.ok.injEq] at h
      subst h
      exact ⟨nsb, (ns', es'), rfl, hf, rfl, rfl, rfl⟩

/-- C8: for every graph returned by a successful `Graph.create` (and hence by
`coalesced`, `getConnectedComponentOfNode` and `getConnectedComponents`,
which all construct their results through `Graph.create`), every edge `e`
satisfies `e.locationDistances[0] = 0`, `last(e.locationDistances) =
e.length`, `|e.locations| = |e.locationDistances| = |e.innerLocations| + 2`,
and `e.locations` is the start node's stored location, then the inner
locations, then the end node's stored location. -/
theorem C8_create_edge_invariants (ns : List SimpleNode) (es : List SimpleEdge) (g : Graph)
    (h : Graph.create ns es = .ok g) :
    ∀ e ∈ g.edges,
      e.locationDistances.getD 0 0 = 0 ∧
      e.locationDistances.getLastD 0 = e.length ∧
      e.locations.length = e.locationDistances.length ∧
      e.locationDistances.length = e.innerLocations.length + 2 ∧
      ∃ sn tn, g.getNode e.startNodeId = some sn ∧ g.getNode e.endNodeId = some tn ∧
        e.locations = sn.location :: (e.innerLocations ++ [tn.location]) := by
  obtain ⟨nsb, out, hb, hf, hn, he, hm⟩ := create_ok h
  obtain ⟨hpres, hinv⟩ := foldlM_addEdge_inv es nsb [] out hf
  intro e hmem
  rcases hinv e (he ▸ hmem) with h0 | hEI
  · cases h0
  · obtain ⟨h1, h2, ls, le, hls, hle, hshape⟩ := hEI
    have hlen : e.locationDistances.length = e.innerLocations.length + 2 := by
      rw [h1, getCumulativeDistances_length, hshape]
      simp
    refine ⟨?_, h2.symm, ?_, hlen, ?_⟩
    · rw [h1, hshape]
      simp [Utils.getCumulativeDistances]
    · rw [h1, getCumulativeDistances_length]
    · obtain ⟨sn, hsn, hsnl⟩ := Option.map_eq_some'.mp hls
      obtain ⟨tn, htn, htnl⟩ := Option.map_eq_some'.mp hle
      refine ⟨sn, tn, ?_, ?_, ?_⟩
      · rw [Graph.getNode, hn]; exact hsn
      · rw [Graph.getNode, hn]; exact htn
      · rw [hshape, hsnl, htnl]

/-- C8 (witness): the invariant theorem applied to a concrete two-node,
one-edge construction. -/
theorem C8_witness :
    witEdgeRec.locationDistances.getD 0 0 = 0 ∧
    witEdgeRec.locationDistances.getLastD 0 = witEdgeRec.length ∧
    witEdgeRec.locations.length = witEdgeRec.locationDistances.length ∧
    witEdgeRec.locationDistances.length = witEdgeRec.innerLocations.length + 2 ∧
    ∃ sn tn, witGraphC8.getNode witEdgeRec.startNodeId = some sn ∧
      witGraphC8.getNode witEdgeRec.endNodeId = some tn ∧
      witEdgeRec.locations = sn.location :: (witEdgeRec.innerLocations ++ [tn.location]) :=
  C8_create_edge_invariants witNodesC8 witEdgesC8 witGraphC8 (by
    simp [Graph.create, buildNodes, addEdge, mkDerivedEdge, pushEdgeId,
      witNodesC8, witEdgesC8, witGraphC8, witNodeRec0, witNodeRec1, witEdgeRec,
      Utils.getCumulativeDistances, Utils.cumulFrom, Utils.distanceBetween,
      bind, Except.bind, pure, Except.pure, List.find?])
    witEdgeRec (by simp [witGraphC8])

/-- C2 (witness): the branch theorem applied to a concrete graph at distance
`-1`. -/
theorem C2_witness :
    witGraphC8.getEdge witEdgeRec.id = some witEdgeRec ∧
    (((-1 : ℝ) < 0 →
        witGraphC8.getLocation { edgeId := witEdgeRec.id, distance := -1 } =
          .ok witNodeRec0.location) ∧
      ((-1 : ℝ) ≥ witEdgeRec.length →
        witGraphC8.getLocation { edgeId := witEdgeRec.id, distance := -1 } =
          .ok witNodeRec1.location) ∧
      (0 ≤ (-1 : ℝ) → (-1 : ℝ) < witEdgeRec.length →
        witGraphC8.getLocation { edgeId := witEdgeRec.id, distance := -1 } =
          .ok (Utils.getIntermediateLocation
            (witEdgeRec.locations.getD
              (Utils.findFloorIndex witEdgeRec.locationDistances (-1)).toNat dummyLocation)
            (witEdgeRec.locations.getD
              ((Utils.findFloorIndex witEdgeRec.locationDistances (-1)) + 1).toNat dummyLocation)
            ((-1) - witEdgeRec.locationDistances.getD
              (Utils.findFloorIndex witEdgeRec.locationDistances (-1)).toNat 0)))) :=
  ⟨by simp [Graph.getEdge, witGraphC8, witEdgeRec, List.find?],
    C2_getLocation witGraphC8 witEdgeRec witNodeRec0 witNodeRec1 (-1)
      (by simp [Graph.getEdge, witGraphC8, witEdgeRec, List.find?])
      (by simp [Graph.getNode, witGraphC8, witEdgeRec, witNodeRec0, List.find?])
      (by simp [Graph.getNode, witGraphC8, witEdgeRec, witNodeRec0, witNodeRec1, List.find?])
      (by norm_num [witEdgeRec])⟩

/-! ### Claim C1: same-edge shortest paths -/

theorem getLocation_ok (g : Graph) (ep : EdgePoint) (e : Edge) (sn tn : Node)
    (he : g.getEdge ep.edgeId = some e)
    (hs : g.getNode e.startNodeId = some sn)
    (ht : g.getNode e.endNodeId = some tn) :
    ∃ l, g.getLocation ep = .ok l := by
  simp only [Graph.getLocation, Graph.getEdgeOrThrow, Graph.getEndpointsOfEdge,
    Graph.getNodeOrThrow, he, hs, ht, bind, Except.bind, pure, Except.pure]
  by_cases h1 : ep.distance < 0
  · rw [if_pos h1]; exact ⟨_, rfl⟩
  · rw [if_neg h1]
    by_cases h2 : ep.distance ≥ e.length
    · rw [if_pos h2]; exact ⟨_, rfl⟩
    · rw [if_neg h2]; exact ⟨_, rfl⟩

theorem getLocationsOnEdgeInterval_ok (g : Graph) (edgeId : EdgeId) (d1 d2 : ℝ)
    (e : Edge) (sn tn : Node)
    (he : g.getEdge edgeId = some e)
    (hs : g.getNode e.startNodeId = some sn)
    (ht : g.getNode e.endNodeId = some tn) :
    ∃ locs, g.getLocationsOnEdgeInterval edgeId d1 d2 = .ok locs := by
  obtain ⟨l1, hl1⟩ := getLocation_ok g { edgeId := edgeId, distance := d1 } e sn tn he hs ht
  obtain ⟨l2, hl2⟩ := getLocation_ok g { edgeId := edgeId, distance := d2 } e sn tn he hs ht
  unfold Graph.getLocationsOnEdgeInterval
  by_cases hd : d1 = d2
  · rw [if_pos hd]
    simp only [hl1, bind, Except.bind, pure, Except.pure]
    exact ⟨_, rfl⟩
  · rw [if_neg hd]
    simp only [Graph.getEdgeOrThrow, he, hl1, hl2, bind, Except.bind, pure, Except.pure]
    exact ⟨_, rfl⟩

/-- C1: whenever `getShortestPath` succeeds with `start.edgeId = end.edgeId`
and `|start.distance − end.distance|` at most the A*-computed total cost
(the `length` argument `getShortestPath` passes to `reconstructPath`), the
returned path — `reconstructPath` followed by `canonicalizePath` — is the
single-edge path: one oriented edge whose `isForward` flag is
`start.distance ≤ end.distance`, no interior nodes, length
`|start.distance − end.distance|`, and locations the sub-polyline of the
edge from `start.distance` to `end.distance`. -/
theorem C1_same_edge_path (g : Graph) (start stop : EdgePoint) (e : Edge) (sn tn : Node)
    (cameFrom : List (NodeId × Edge)) (endEdgeIsForward : Bool) (len : ℝ)
    (he : g.getEdge start.edgeId = some e)
    (hs : g.getNode e.startNodeId = some sn)
    (ht : g.getNode e.endNodeId = some tn)
    (hsame : start.edgeId = stop.edgeId)
    (hle : |start.distance - stop.distance| ≤ len) :
    ∃ locs, g.getLocationsOnEdgeInterval start.edgeId start.distance stop.distance = .ok locs ∧
      Except.map Graph.canonicalizePath
          (g.reconstructPath start stop cameFrom endEdgeIsForward len) =
        .ok { start := start, «end» := stop,
              orientedEdges := [{ edge := e, isForward := decide (start.distance ≤ stop.distance) }],
              nodes := [], locations := locs,
              length := |start.distance - stop.distance| } := by
  obtain ⟨locs, hlocs⟩ :=
    getLocationsOnEdgeInterval_ok g start.edgeId start.distance stop.distance e sn tn he hs ht
  refine ⟨locs, hlocs, ?_⟩
  unfold Graph.reconstructPath
  rw [if_pos ⟨hsame, hle⟩]
  unfold Graph.getShortestPathOnSameEdge
  simp only [Graph.getEdgeOrThrow, he, hlocs, bind, Except.bind, pure, Except.pure, Except.map]
  unfold Graph.canonicalizePath
  simp

/-- C1 (witness): the same-edge theorem applied to a concrete graph with
`start = end = {edge 7, 0}` and computed cost `0`. -/
theorem C1_witness :
    ∃ locs, witGraphC8.getLocationsOnEdgeInterval (Id.int 7) 0 0 = .ok locs ∧
      Except.map Graph.canonicalizePath
          (witGraphC8.reconstructPath { edgeId := .int 7, distance := 0 }
            { edgeId := .int 7, distance := 0 } [] true 0) =
        .ok { start := { edgeId := .int 7, distance := 0 },
              «end» := { edgeId := .int 7, distance := 0 },
              orientedEdges := [{ edge := witEdgeRec, isForward := decide ((0 : ℝ) ≤ 0) }],
              nodes := [], locations := locs, length := |(0 : ℝ) - 0| } :=
  C1_same_edge_path witGraphC8 { edgeId := .int 7, distance := 0 }
    { edgeId := .int 7, distance := 0 } witEdgeRec witNodeRec0 witNodeRec1 [] true 0
    (by simp [Graph.getEdge, witGraphC8, witEdgeRec, List.find?])
    (by simp [Graph.getNode, witGraphC8, witEdgeRec, witNodeRec0, List.find?])
    (by simp [Graph.getNode, witGraphC8, witEdgeRec, witNodeRec0, witNodeRec1, List.find?])
    rfl
    (by norm_num)

/-! ### Claim C6: `advanceAlongPath` length accounting -/

theorem advancePathGo_some : ∀ (oes : List OrientedEdge) (r : ℝ) (idx : ℕ),
    0 ≤ r → r < (oes.map (·.edge.length)).sum →
    ∃ idx' rem, advancePathGo r oes idx = some (idx', rem) := by
  intro oes
  induction oes with
  | nil =>
    intro r idx h0 h1
    simp only [List.map_nil, List.sum_nil] at h1
    linarith
  | cons oe rest ih =>
    intro r idx h0 h1
    unfold advancePathGo
    by_cases hge : r ≥ oe.edge.length
    · rw [if_pos hge]
      apply ih
      · linarith
      · simp only [List.map_cons, List.sum_cons] at h1
        linarith
    · rw [if_neg hge]
      exact ⟨idx, r, rfl⟩

theorem last_ok {α : Type} {l : List α} (h : l ≠ []) (d : α) :
    Utils.last l = .ok (l.getLastD d) := by
  cases l with
  | nil => exact absurd rfl h
  | cons a t =>
    show Except.ok ((a :: t).getLastD a) = Except.ok ((a :: t).getLastD d)
    rw [List.getLastD_cons, List.getLastD_cons]

theorem getFinishedPath_ok {p : Path} (he : p.orientedEdges ≠ [])
    (hl : p.locations ≠ []) :
    Graph.getFinishedPath p = .ok
      { start := p.«end», «end» := p.«end»,
        orientedEdges := [p.orientedEdges.getLastD dummyOrientedEdge],
        nodes := [],
        locations := [p.locations.getLastD dummyLocation],
        length := 0 } := by
  unfold Graph.getFinishedPath
  rw [last_ok he dummyOrientedEdge, last_ok hl dummyLocation]
  rfl

theorem advanceLocationsGo_ok : ∀ (ls : List Location) (r : ℝ), ls ≠ [] →
    ∃ out, advanceLocationsGo r ls = .ok out := by
  intro ls
  induction ls with
  | nil => intro r h; exact absurd rfl h
  | cons a t ih =>
    intro r _
    cases t with
    | nil => exact ⟨[a], rfl⟩
    | cons b t2 =>
      by_cases hc : r < Utils.distanceBetween a b
      · refine ⟨Utils.getIntermediateLocation a b r :: b :: t2, ?_⟩
        simp only [advanceLocationsGo]
        rw [if_pos hc]
      · obtain ⟨out, hout⟩ := ih (r - Utils.distanceBetween a b) (List.cons_ne_nil _ _)
        refine ⟨out, ?_⟩
        simp only [advanceLocationsGo]
        rw [if_neg hc]
        exact hout

/-- C6: for every valid path `p` and every distance `d` with
`0 ≤ d ≤ p.length`, `advanceAlongPath(p, d)` succeeds and returns a path
whose `length` field equals `p.length − d`; in particular `d = 0` returns
`p` unchanged and `d = p.length` returns a path of length `0`. -/
theorem C6_advanceAlongPath_length (p : Path) (d : ℝ) (hv : Path.IsValid p)
    (h0 : 0 ≤ d) (h1 : d ≤ p.length) :
    ∃ q, Graph.advanceAlongPath p d = .ok q ∧ q.length = p.length - d ∧
      (d = 0 → q = p) ∧ (d = p.length → q.length = 0) := by
  obtain ⟨hne, hlocne, hnl, hsid, heid, hs0, hs1, he0, he1, hacct⟩ := hv
  by_cases hz : d = 0
  · subst hz
    refine ⟨p, ?_, by ring, fun _ => rfl, fun hpl => ?_⟩
    · unfold Graph.advanceAlongPath
      rw [if_pos rfl]
    · rw [← hpl]
  · by_cases hge : d ≥ p.length
    · have hdl : d = p.length := le_antisymm h1 hge
      refine ⟨Path.mk p.«end» p.«end» [p.orientedEdges.getLastD dummyOrientedEdge]
          [] [p.locations.getLastD dummyLocation] 0,
        ?_, ?_, fun h => absurd h hz, fun _ => rfl⟩
      · unfold Graph.advanceAlongPath
        rw [if_neg hz, if_pos hge]
        exact getFinishedPath_ok hne hlocne
      · show (0 : ℝ) = p.length - d
        rw [hdl]; ring
    · have hdlt : d < p.length := lt_of_le_of_ne h1 (fun hh => hge (ge_of_eq hh))
      have hso : 0 ≤ pathStartOffset p := by
        unfold pathStartOffset
        by_cases hf : (p.orientedEdges.headD dummyOrientedEdge).isForward = true
        · rw [if_pos hf]; exact hs0
        · rw [if_neg hf]; linarith
      have heo : 0 ≤ pathEndOffset p := by
        unfold pathEndOffset
        by_cases hf : (p.orientedEdges.getLastD dummyOrientedEdge).isForward = true
        · rw [if_pos hf]; linarith
        · rw [if_neg hf]; exact he0
      have hsum : d + pathStartOffset p < (p.orientedEdges.map (·.edge.length)).sum := by
        have := hacct
        linarith
      obtain ⟨idx, rem, hgo⟩ :=
        advancePathGo_some p.orientedEdges (d + pathStartOffset p) 0 (by linarith) hsum
      obtain ⟨newlocs, hnlocs⟩ := advanceLocationsGo_ok p.locations d hlocne
      have hal : Graph.advanceAlongLocations p.locations d = .ok newlocs := by
        unfold Graph.advanceAlongLocations
        rw [if_neg (not_lt.mpr h0), if_neg hz]
        exact hnlocs
      unfold pathStartOffset at hgo
      unfold Graph.advanceAlongPath
      rw [if_neg hz, if_neg hge, if_neg (not_lt.mpr h0)]
      simp only [hgo, hal]
      exact ⟨_, rfl, rfl, fun h => absurd h hz, fun h => absurd h (ne_of_lt hdlt)⟩

/-! ### Claim C4: deterministic id rule of `coalesced` -/

theorem compareIds_lt {x y : Id} (h : Utils.compareIds x y < 0) : idLE x y := by
  cases x with
  | int a =>
    cases y with
    | int b =>
      simp only [Utils.compareIds] at h
      split_ifs at h with h1 h2
      · exact le_of_lt h1
      · exact absurd h (by norm_num)
      · exact absurd h (by norm_num)
    | str s => trivial
  | str a =>
    cases y with
    | int b =>
      simp only [Utils.compareIds] at h
      exact absurd h (by norm_num)
    | str b =>
      simp only [Utils.compareIds] at h
      split_ifs at h with h1 h2
      · exact le_of_lt h1
      · exact absurd h (by norm_num)
      · exact absurd h (by norm_num)

theorem compareIds_not_lt {x y : Id} (h : ¬ Utils.compareIds x y < 0) : idLE y x := by
  cases x with
  | int a =>
    cases y with
    | int b =>
      simp only [Utils.compareIds] at h
      split_ifs at h with h1 h2
      · exact absurd (by norm_num) h
      · exact le_of_eq h2.symm
      · exact le_of_not_lt h1
    | str s =>
      simp only [Utils.compareIds] at h
      exact absurd (by norm_num) h
  | str a =>
    cases y with
    | int b => trivial
    | str b =>
      simp only [Utils.compareIds] at h
      split_ifs at h with h1 h2
      · exact absurd (by norm_num) h
      · exact le_of_eq h2.symm
      · exact le_of_not_lt h1

theorem idLE_refl (x : Id) : idLE x x := by
  cases x with
  | int a => exact le_refl a
  | str s => exact le_refl s

theorem idLE_trans {x y z : Id} (h1 : idLE x y) (h2 : idLE y z) : idLE x z := by
  cases x <;> cases y <;> cases z <;>
    first
      | trivial
      | exact h1.elim
      | exact h2.elim
      | exact le_trans h1 h2

theorem foldl_minOf_spec : ∀ (rest : List Id) (a : Id),
    (rest.foldl (fun x y => if Utils.compareIds x y < 0 then x else y) a) ∈ a :: rest ∧
    idLE (rest.foldl (fun x y => if Utils.compareIds x y < 0 then x else y) a) a ∧
    ∀ x ∈ rest, idLE (rest.foldl (fun x y => if Utils.compareIds x y < 0 then x else y) a) x := by
  intro rest
  induction rest with
  | nil =>
    intro a
    refine ⟨List.mem_cons_self _ _, idLE_refl a, fun x hx => absurd hx (List.not_mem_nil x)⟩
  | cons y t ih =>
    intro a
    simp only [List.foldl_cons]
    obtain ⟨hmem, hle, hall⟩ := ih (if Utils.compareIds a y < 0 then a else y)
    have ha'a : idLE (if Utils.compareIds a y < 0 then a else y) a := by
      by_cases hc : Utils.compareIds a y < 0
      · rw [if_pos hc]; exact idLE_refl a
      · rw [if_neg hc]; exact compareIds_not_lt hc
    have ha'y : idLE (if Utils.compareIds a y < 0 then a else y) y := by
      by_cases hc : Utils.compareIds a y < 0
      · rw [if_pos hc]; exact compareIds_lt hc
      · rw [if_neg hc]; exact idLE_refl y
    refine ⟨?_, idLE_trans hle ha'a, ?_⟩
    · rcases List.mem_cons.mp hmem with h | h
      · rw [h]
        by_cases hc : Utils.compareIds a y < 0
        · rw [if_pos hc]
          exact List.mem_cons_self _ _
        · rw [if_neg hc]
          exact List.mem_cons_of_mem _ (List.mem_cons_self _ _)
      · exact List.mem_cons_of_mem _ (List.mem_cons_of_mem _ h)
    · intro x hx
      rcases List.mem_cons.mp hx with h | h
      · rw [h]; exact idLE_trans hle ha'y
      · exact hall x h

theorem minOf_compareIds_spec (ids : List Id) (h : ids ≠ []) :
    ∃ m, Utils.minOf ids Utils.compareIds = some m ∧ m ∈ ids ∧ ∀ x ∈ ids, idLE m x := by
  cases ids with
  | nil => exact absurd rfl h
  | cons a rest =>
    obtain ⟨hmem, hle, hall⟩ := foldl_minOf_spec rest a
    refine ⟨_, rfl, hmem, fun x hx => ?_⟩
    rcases List.mem_cons.mp hx with h | h
    · rw [h]; exact hle
    · exact hall x h

/-- C4: every edge that the coalescing sweep produces by combining a chain of
two or more original edges carries as its id the minimum of the constituent
edges' ids under the total identifier order in which every integer compares
less than every string and same-type identifiers compare naturally
(`idLE`). -/
theorem C4_coalesced_min_id (g : Graph) (e : Edge) (path : List OrientedEdge)
    (st st' : CoalesceState)
    (hskip : e.id ∉ st.deletedEdgeIds)
    (hpath : g.getOnlyPath e = .ok path)
    (hlen : 2 ≤ path.length)
    (hstep : coalesceStep g st e = .ok st') :
    ∃ newEdge, st'.newEdges = st.newEdges ++ [newEdge] ∧
      newEdge.id ∈ path.map (·.edge.id) ∧
      ∀ i ∈ path.map (·.edge.id), idLE newEdge.id i := by
  have hids : path.map (·.edge.id) ≠ [] := by
    intro hc
    have := congrArg List.length hc
    simp only [List.length_map, List.length_nil] at this
    omega
  obtain ⟨m, hm, hmem, hall⟩ := minOf_compareIds_spec _ hids
  unfold coalesceStep at hstep
  rw [if_neg hskip] at hstep
  simp only [hpath, bind, Except.bind] at hstep
  rw [if_neg (by omega : ¬ path.length = 1)] at hstep
  simp only [hm, pure, Except.pure, Option.getD_some, Except.ok.injEq] at hstep
  subst hstep
  exact ⟨_, rfl, hmem, hall⟩

/-- C4 (witness): the id-rule theorem applied to a concrete chain of edges
`5` and `3` through a degree-2 node; the combined edge takes id `3`. -/
theorem C4_witness :
    ∃ newEdge, witStC4.newEdges = ([] : List SimpleEdge) ++ [newEdge] ∧
      newEdge.id ∈ witPathC4.map (·.edge.id) ∧
      ∀ i ∈ witPathC4.map (·.edge.id), idLE newEdge.id i :=
  C4_coalesced_min_id witGraphC4 witEdge5 witPathC4 ⟨[], [], []⟩ witStC4
    (by simp)
    (by norm_num [Graph.getOnlyPath, Graph.getOnlyPathInDirection, onlyPathGo, witGraphC4,
      witEdge5, witEdge3, witNodeA4, witNodeB4, witNodeD4, Graph.getNodeOrThrow,
      Graph.getNode, Graph.getEdgeOrThrow, Graph.getEdge, List.find?, witPathC4,
      bind, Except.bind, pure, Except.pure, Utils.reversePath, dummyOrientedEdge, dummyEdge])
    (by norm_num [witPathC4])
    (by norm_num [coalesceStep, Graph.getOnlyPath, Graph.getOnlyPathInDirection, onlyPathGo,
      witGraphC4, witEdge5, witEdge3, witNodeA4, witNodeB4, witNodeD4, Graph.getNodeOrThrow,
      Graph.getNode, Graph.getEdgeOrThrow, Graph.getEdge, List.find?, witStC4, witNewEdgeC4,
      bind, Except.bind, pure, Except.pure, Utils.reversePath, dummyOrientedEdge, dummyEdge,
      Utils.minOf, Utils.compareIds, Utils.flatMap, Utils.dedupeLocations,
      Utils.areLocationsEqual, Edge.toSimple, List.filter])

/-- C6 (witness): the length theorem applied to a concrete one-edge path of
length `1` advanced by `1/2`. -/
theorem C6_witness :
    Path.IsValid witPathC6 ∧
    ∃ q, Graph.advanceAlongPath witPathC6 (1 / 2) = .ok q ∧
      q.length = witPathC6.length - 1 / 2 ∧
      ((1 : ℝ) / 2 = 0 → q = witPathC6) ∧ ((1 : ℝ) / 2 = witPathC6.length → q.length = 0) := by
  have hv : Path.IsValid witPathC6 := by
    unfold Path.IsValid pathStartOffset pathEndOffset witPathC6 witEdgeLen1
    norm_num
    simp
  exact ⟨hv, C6_advanceAlongPath_length witPathC6 (1 / 2) hv (by norm_num)
    (by norm_num [witPathC6])⟩

/-! ### Claim C7: `Graph.create` error characterization -/

theorem pushEdgeId_ids (ns : List Node) (nid : NodeId) (eid : EdgeId) :
    (pushEdgeId ns nid eid).map (·.id) = ns.map (·.id) := by
  unfold pushEdgeId
  rw [List.map_map]
  apply List.map_congr_left
  intro n _
  by_cases h : n.id = nid <;> simp [h]

theorem find?_id_mem (ns : List Node) (i : NodeId) :
    (∃ n, ns.find? (fun n => n.id = i) = some n) ↔ i ∈ ns.map (·.id) := by
  induction ns with
  | nil => simp [List.find?]
  | cons n rest ih =>
    simp only [List.find?_cons, List.map_cons, List.mem_cons]
    by_cases h : n.id = i
    · simp [h]
    · simp [h, ih, Ne.symm h]

theorem any_id_mem (es : List Edge) (i : EdgeId) :
    (es.any (fun e => e.id = i)) = true ↔ i ∈ es.map (·.id) := by
  rw [List.any_eq_true]
  constructor
  · rintro ⟨e, he, hp⟩
    exact List.mem_map.mpr ⟨e, he, of_decide_eq_true hp⟩
  · rintro hm
    obtain ⟨e, he, hid⟩ := List.mem_map.mp hm
    exact ⟨e, he, decide_eq_true hid⟩

theorem anyNode_id_mem (ns : List Node) (i : NodeId) :
    (ns.any (fun n => n.id = i)) = true ↔ i ∈ ns.map (·.id) := by
  rw [List.any_eq_true]
  constructor
  · rintro ⟨n, hn, hp⟩
    exact List.mem_map.mpr ⟨n, hn, of_decide_eq_true hp⟩
  · rintro hm
    obtain ⟨n, hn, hid⟩ := List.mem_map.mp hm
    exact ⟨n, hn, decide_eq_true hid⟩

theorem buildNodes_ok_iff : ∀ (ns : List SimpleNode) (acc : List Node),
    (acc.map (·.id)).Nodup →
    ((∃ out, buildNodes ns acc = .ok out) ↔ (acc.map (·.id) ++ ns.map (·.id)).Nodup) := by
  intro ns
  induction ns with
  | nil =>
    intro acc hacc
    simp only [buildNodes, List.map_nil, List.append_nil]
    exact ⟨fun _ => hacc, fun _ => ⟨acc, rfl⟩⟩
  | cons n rest ih =>
    intro acc hacc
    unfold buildNodes
    by_cases hdup : (acc.any (fun x => x.id = n.id)) = true
    · rw [if_pos hdup]
      constructor
      · rintro ⟨out, hout⟩; cases hout
      · intro hnodup
        exfalso
        have hmem : n.id ∈ acc.map (·.id) := (anyNode_id_mem acc n.id).mp hdup
        obtain ⟨_, _, hdisj⟩ := List.nodup_append.mp hnodup
        exact hdisj hmem (by simp)
    · rw [if_neg hdup]
      have hnin : n.id ∉ acc.map (·.id) := fun hm => hdup ((anyNode_id_mem acc n.id).mpr hm)
      have hacc' : ((acc ++ [({ id := n.id, location := n.location, edgeIds := [] } : Node)]).map
          (·.id)).Nodup := by
        simp only [List.map_append, List.map_cons, List.map_nil]
        rw [List.nodup_append]
        exact ⟨hacc, List.nodup_singleton _, by simpa using hnin⟩
      rw [ih _ hacc']
      simp only [List.map_append, List.map_cons, List.map_nil, List.append_assoc,
        List.singleton_append]

theorem buildNodes_ids : ∀ (ns : List SimpleNode) (acc : List Node) (out : List Node),
    buildNodes ns acc = .ok out → out.map (·.id) = acc.map (·.id) ++ ns.map (·.id) := by
  intro ns
  induction ns with
  | nil =>
    intro acc out h
    cases h
    simp
  | cons n rest ih =>
    intro acc out h
    unfold buildNodes at h
    by_cases hdup : (acc.any (fun x => x.id = n.id)) = true
    · rw [if_pos hdup] at h; cases h
    · rw [if_neg hdup] at h
      have := ih _ _ h
      rw [this]
      simp

theorem buildNodes_err : ∀ (ns : List SimpleNode) (acc : List Node) (msg : String),
    buildNodes ns acc = .error msg →
    ∃ i, msg = "Multiple nodes with ID " ++ i.render ∧
      2 ≤ ((acc.map (·.id)) ++ ns.map (·.id)).count i := by
  intro ns
  induction ns with
  | nil => intro acc msg h; cases h
  | cons n rest ih =>
    intro acc msg h
    unfold buildNodes at h
    by_cases hdup : (acc.any (fun x => x.id = n.id)) = true
    · rw [if_pos hdup] at h
      cases h
      refine ⟨n.id, rfl, ?_⟩
      have hmem : n.id ∈ acc.map (·.id) := (anyNode_id_mem acc n.id).mp hdup
      have h1 : 0 < (acc.map (·.id)).count n.id := List.count_pos_iff.mpr hmem
      rw [List.count_append, List.map_cons, List.count_cons_self]
      omega
    · rw [if_neg hdup] at h
      obtain ⟨i, hmsg, hcount⟩ := ih _ _ h
      refine ⟨i, hmsg, ?_⟩
      have heq : (((acc ++ [({ id := n.id, location := n.location, edgeIds := [] } : Node)]).map
          (·.id)) ++ rest.map (·.id)) = acc.map (·.id) ++ ((n :: rest).map (fun s => s.id)) := by
        simp
      rw [heq] at hcount
      exact hcount

theorem mkDerivedEdge_id (e : SimpleEdge) (sn tn : Node) : (mkDerivedEdge e sn tn).id = e.id :=
  rfl

theorem foldlM_addEdge_ok_iff : ∀ (es : List SimpleEdge) (ns : List Node) (acc : List Edge),
    (acc.map (·.id)).Nodup →
    ((∃ out, es.foldlM addEdge (ns, acc) = .ok out) ↔
      ((acc.map (·.id)) ++ es.map (·.id)).Nodup ∧
        ∀ e ∈ es, e.startNodeId ∈ ns.map (·.id) ∧ e.endNodeId ∈ ns.map (·.id)) := by
  intro es
  induction es with
  | nil =>
    intro ns acc hacc
    simp only [List.foldlM_nil, List.map_nil, List.append_nil]
    constructor
    · intro _
      exact ⟨hacc, by simp⟩
    · intro _
      exact ⟨(ns, acc), rfl⟩
  | cons e rest ih =>
    intro ns acc hacc
    rw [List.foldlM_cons]
    by_cases hdup : (acc.any (fun e2 => e2.id = e.id)) = true
    · have haddE : addEdge (ns, acc) e = .error ("Multiple edges with ID " ++ e.id.render) := by
        unfold addEdge
        rw [if_pos hdup]
      rw [haddE]
      simp only [bind, Except.bind]
      constructor
      · rintro ⟨out, hout⟩
        cases hout
      · rintro ⟨hnd, -⟩
        exfalso
        obtain ⟨-, -, hdisj⟩ := List.nodup_append.mp hnd
        exact hdisj ((any_id_mem acc e.id).mp hdup) (by simp)
    · cases hfs : ns.find? (fun n => n.id = e.startNodeId) with
      | none =>
        have haddE : addEdge (ns, acc) e = .error ("Edge with ID " ++ e.id.render ++
            " referenced nonexistent start node ID " ++ e.startNodeId.render) := by
          unfold addEdge
          rw [if_neg hdup, hfs]
        rw [haddE]
        simp only [bind, Except.bind]
        constructor
        · rintro ⟨out, hout⟩
          cases hout
        · rintro ⟨-, hall⟩
          exfalso
          have := (hall e (by simp)).1
          obtain ⟨n, hn⟩ := (find?_id_mem ns e.startNodeId).mpr this
          rw [hfs] at hn
          cases hn
      | some sn =>
        cases hft : ns.find? (fun n => n.id = e.endNodeId) with
        | none =>
          have haddE : addEdge (ns, acc) e = .error ("Edge with ID " ++ e.id.render ++
              " referenced nonexistent end node ID " ++ e.endNodeId.render) := by
            unfold addEdge
            rw [if_neg hdup, hfs, hft]
          rw [haddE]
          simp only [bind, Except.bind]
          constructor
          · rintro ⟨out, hout⟩
            cases hout
          · rintro ⟨-, hall⟩
            exfalso
            have := (hall e (by simp)).2
            obtain ⟨n, hn⟩ := (find?_id_mem ns e.endNodeId).mpr this
            rw [hft] at hn
            cases hn
        | some tn =>
          have haddOk : addEdge (ns, acc) e =
              .ok (pushEdgeId (pushEdgeId ns e.startNodeId e.id) e.endNodeId e.id,
                acc ++ [mkDerivedEdge e sn tn]) := by
            unfold addEdge
            rw [if_neg hdup, hfs, hft]
          rw [haddOk]
          simp only [bind, Except.bind]
          have hnin : e.id ∉ acc.map (·.id) := fun hm => hdup ((any_id_mem acc e.id).mpr hm)
          have hacc' : ((acc ++ [mkDerivedEdge e sn tn]).map (·.id)).Nodup := by
            simp only [List.map_append, List.map_cons, List.map_nil, mkDerivedEdge_id]
            rw [List.nodup_append]
            exact ⟨hacc, List.nodup_singleton _, by simpa using hnin⟩
          rw [ih _ _ hacc']
          rw [pushEdgeId_ids, pushEdgeId_ids]
          have hlist : ((acc ++ [mkDerivedEdge e sn tn]).map (·.id)) ++ rest.map (·.id)
              = acc.map (·.id) ++ ((e :: rest).map (·.id)) := by
            simp [mkDerivedEdge_id]
          rw [hlist]
          have hsmem : e.startNodeId ∈ ns.map (·.id) := (find?_id_mem ns _).mp ⟨sn, hfs⟩
          have htmem : e.endNodeId ∈ ns.map (·.id) := (find?_id_mem ns _).mp ⟨tn, hft⟩
          constructor
          · rintro ⟨hnd, hall⟩
            refine ⟨hnd, fun x hx => ?_⟩
            rcases List.mem_cons.mp hx with hx | hx
            · rw [hx]
              exact ⟨hsmem, htmem⟩
            · exact hall x hx
          · rintro ⟨hnd, hall⟩
            exact ⟨hnd, fun x hx => hall x (List.mem_cons_of_mem _ hx)⟩

theorem foldlM_addEdge_err : ∀ (es : List SimpleEdge) (ns : List Node) (acc : List Edge)
    (msg : String),
    es.foldlM addEdge (ns, acc) = .error msg →
    ∃ i : Id, strContains msg i.render ∧
      (2 ≤ ((acc.map (·.id)) ++ es.map (·.id)).count i ∨
        ∃ e ∈ es, (e.startNodeId = i ∨ e.endNodeId = i) ∧ i ∉ ns.map (·.id)) := by
  intro es
  induction es with
  | nil =>
    intro ns acc msg h
    cases h
  | cons e rest ih =>
    intro ns acc msg h
    rw [List.foldlM_cons] at h
    by_cases hdup : (acc.any (fun e2 => e2.id = e.id)) = true
    · have haddE : addEdge (ns, acc) e = .error ("Multiple edges with ID " ++ e.id.render) := by
        unfold addEdge
        rw [if_pos hdup]
      rw [haddE] at h
      simp only [bind, Except.bind, Except.error.injEq] at h
      subst h
      refine ⟨e.id, ⟨"Multiple edges with ID ", "", by simp⟩, Or.inl ?_⟩
      have h1 : 0 < (acc.map (·.id)).count e.id :=
        List.count_pos_iff.mpr ((any_id_mem acc e.id).mp hdup)
      rw [List.count_append, List.map_cons, List.count_cons_self]
      omega
    · cases hfs : ns.find? (fun n => n.id = e.startNodeId) with
      | none =>
        have haddE : addEdge (ns, acc) e = .error ("Edge with ID " ++ e.id.render ++
            " referenced nonexistent start node ID " ++ e.startNodeId.render) := by
          unfold addEdge
          rw [if_neg hdup, hfs]
        rw [haddE] at h
        simp only [bind, Except.bind, Except.error.injEq] at h
        subst h
        refine ⟨e.startNodeId,
          ⟨"Edge with ID " ++ e.id.render ++ " referenced nonexistent start node ID ", "", by
            simp [String.append_assoc]⟩,
          Or.inr ⟨e, by simp, Or.inl rfl, ?_⟩⟩
        intro hm
        obtain ⟨n, hn⟩ := (find?_id_mem ns e.startNodeId).mpr hm
        rw [hfs] at hn
        cases hn
      | some sn =>
        cases hft : ns.find? (fun n => n.id = e.endNodeId) with
        | none =>
          have haddE : addEdge (ns, acc) e = .error ("Edge with ID " ++ e.id.render ++
              " referenced nonexistent end node ID " ++ e.endNodeId.render) := by
            unfold addEdge
            rw [if_neg hdup, hfs, hft]
          rw [haddE] at h
          simp only [bind, Except.bind, Except.error.injEq] at h
          subst h
          refine ⟨e.endNodeId,
            ⟨"Edge with ID " ++ e.id.render ++ " referenced nonexistent end node ID ", "", by
              simp [String.append_assoc]⟩,
            Or.inr ⟨e, by simp, Or.inr rfl, ?_⟩⟩
          intro hm
          obtain ⟨n, hn⟩ := (find?_id_mem ns e.endNodeId).mpr hm
          rw [hft] at hn
          cases hn
        | some tn =>
          have haddOk : addEdge (ns, acc) e =
              .ok (pushEdgeId (pushEdgeId ns e.startNodeId e.id) e.endNodeId e.id,
                acc ++ [mkDerivedEdge e sn tn]) := by
            unfold addEdge
            rw [if_neg hdup, hfs, hft]
          rw [haddOk] at h
          simp only [bind, Except.bind] at h
          obtain ⟨i, hcont, hcase⟩ := ih _ _ _ h
          refine ⟨i, hcont, ?_⟩
          rcases hcase with hcnt | hmiss
          · left
            have hlist : ((acc ++ [mkDerivedEdge e sn tn]).map (·.id)) ++ rest.map (·.id)
                = acc.map (·.id) ++ ((e :: rest).map (·.id)) := by
              simp [mkDerivedEdge_id]
            rw [hlist] at hcnt
            exact hcnt
          · right
            obtain ⟨x, hx, hxi, hxnin⟩ := hmiss
            rw [pushEdgeId_ids, pushEdgeId_ids] at hxnin
            exact ⟨x, List.mem_cons_of_mem _ hx, hxi, hxnin⟩

/-- C7: `Graph.create(nodes, edges)` throws exactly when some node id occurs
more than once, or some edge id occurs more than once, or some edge
references a start or end node id that no node carries; whenever it throws,
the message mentions an offending id (the repeated node id, the repeated
edge id, or the missing node id); on any other input it returns a graph. -/
theorem C7_create_error_iff (ns : List SimpleNode) (es : List SimpleEdge) :
    ((∃ msg, Graph.create ns es = .error msg) ↔
      (¬ (ns.map (·.id)).Nodup ∨ ¬ (es.map (·.id)).Nodup ∨
        ∃ e ∈ es, e.startNodeId ∉ ns.map (·.id) ∨ e.endNodeId ∉ ns.map (·.id))) ∧
    (∀ msg, Graph.create ns es = .error msg →
      ∃ i : Id, strContains msg i.render ∧
        (2 ≤ (ns.map (·.id)).count i ∨ 2 ≤ (es.map (·.id)).count i ∨
          ∃ e ∈ es, (e.startNodeId = i ∨ e.endNodeId = i) ∧ i ∉ ns.map (·.id))) := by
  have hok : (∃ g, Graph.create ns es = .ok g) ↔
      ((ns.map (·.id)).Nodup ∧ (es.map (·.id)).Nodup ∧
        ∀ e ∈ es, e.startNodeId ∈ ns.map (·.id) ∧ e.endNodeId ∈ ns.map (·.id)) := by
    constructor
    · rintro ⟨g, hg⟩
      obtain ⟨nsb, out, hb, hf, -, -, -⟩ := create_ok hg
      have h1 : (ns.map (·.id)).Nodup := by
        have := (buildNodes_ok_iff ns [] (by simp)).mp ⟨nsb, hb⟩
        simpa using this
      have h2 := (foldlM_addEdge_ok_iff es nsb [] (by simp)).mp ⟨_, hf⟩
      refine ⟨h1, by simpa using h2.1, fun e he => ?_⟩
      have := h2.2 e he
      rw [buildNodes_ids ns [] nsb hb] at this
      simpa using this
    · rintro ⟨h1, h2, h3⟩
      obtain ⟨nsb, hb⟩ := (buildNodes_ok_iff ns [] (by simp)).mpr (by simpa using h1)
      obtain ⟨out, hf⟩ := (foldlM_addEdge_ok_iff es nsb [] (by simp)).mpr
        ⟨by simpa using h2, fun e he => by
          rw [buildNodes_ids ns [] nsb hb]
          simpa using h3 e he⟩
      obtain ⟨ns', es'⟩ := out
      refine ⟨{ nodes := ns', edges := es', mesh := none }, ?_⟩
      unfold Graph.create
      rw [hb]
      simp only [bind, Except.bind]
      rw [hf]
      rfl
  have hdich : (∃ msg, Graph.create ns es = .error msg) ↔
      ¬ (∃ g, Graph.create ns es = .ok g) := by
    cases hc : Graph.create ns es with
    | error m => simp
    | ok g => simp
  constructor
  · rw [hdich, hok]
    constructor
    · intro hno
      by_cases h1 : (ns.map (·.id)).Nodup
      · by_cases h2 : (es.map (·.id)).Nodup
        · right; right
          by_contra hcon
          push_neg at hcon
          exact hno ⟨h1, h2, fun e he => hcon e he⟩
        · right; left; exact h2
      · left; exact h1
    · rintro (h | h | ⟨e, he, h⟩) ⟨c1, c2, c3⟩
      · exact h c1
      · exact h c2
      · rcases h with h | h
        · exact h (c3 e he).1
        · exact h (c3 e he).2
  · intro msg hmsg
    unfold Graph.create at hmsg
    cases hb : buildNodes ns [] with
    | error m =>
      rw [hb] at hmsg
      simp only [bind, Except.bind, Except.error.injEq] at hmsg
      subst hmsg
      obtain ⟨i, hmi, hcnt⟩ := buildNodes_err ns [] _ hb
      refine ⟨i, ⟨"Multiple nodes with ID ", "", by rw [hmi]; simp⟩, Or.inl (by simpa using hcnt)⟩
    | ok nsb =>
      rw [hb] at hmsg
      simp only [bind, Except.bind] at hmsg
      cases hf : es.foldlM addEdge (nsb, []) with
      | error m =>
        rw [hf] at hmsg
        simp only [Except.error.injEq] at hmsg
        subst hmsg
        obtain ⟨i, hcont, hcase⟩ := foldlM_addEdge_err es nsb [] _ hf
        refine ⟨i, hcont, ?_⟩
        rcases hcase with hcnt | ⟨e, he, hei, hnin⟩
        · right; left
          simpa using hcnt
        · right; right
          rw [buildNodes_ids ns [] nsb hb] at hnin
          exact ⟨e, he, hei, by simpa using hnin⟩
      | ok out =>
        obtain ⟨ns', es'⟩ := out
        rw [hf] at hmsg
        simp only [pure, Except.pure] at hmsg
        cases hmsg

/-- C7 (witness): spec scenario S1 — two nodes with id `0` make `create`
fail, and the message mentions `0`. -/
theorem C7_witness :
    ∃ msg, Graph.create
      [{ id := .int 0, location := { x := 0, y := 0 } },
       { id := .int 0, location := { x := 0, y := 1 } }] [] = .error msg := by
  rw [(C7_create_error_iff
    [{ id := .int 0, location := { x := 0, y := 0 } },
     { id := .int 0, location := { x := 0, y := 1 } }] []).1]
  left
  simp

/-! ### Claim C9: closest-point results stay on their edge -/

theorem distanceBetween_nonneg (a b : Location) : 0 ≤ Utils.distanceBetween a b :=
  Real.sqrt_nonneg _

theorem getLastD_mem_of_ne_nil : ∀ (l : List α) (d : α), l ≠ [] → l.getLastD d ∈ l := by
  intro l
  induction l with
  | nil => intro d h; exact absurd rfl h
  | cons a t ih =>
    intro d h
    rw [List.getLastD_cons]
    cases ht : t with
    | nil => simp [List.getLastD]
    | cons b tt =>
      rw [← ht]
      exact List.mem_cons_of_mem _ (ih a (by rw [ht]; simp))

theorem getLastD_default_irrel : ∀ (l : List α) (d1 d2 : α), l ≠ [] → l.getLastD d1 = l.getLastD d2 := by
  intro l
  induction l with
  | nil => intro d1 d2 h; exact absurd rfl h
  | cons a t ih =>
    intro d1 d2 h
    rw [List.getLastD_cons, List.getLastD_cons]

theorem cumulFrom_ne_nil (s : ℝ) (p : Location) {ls : List Location} (h : ls ≠ []) :
    Utils.cumulFrom s p ls ≠ [] := by
  cases ls with
  | nil => exact absurd rfl h
  | cons l rest => simp [Utils.cumulFrom]

theorem cumulFrom_mem_ge : ∀ (ls : List Location) (s : ℝ) (p : Location),
    ∀ x ∈ Utils.cumulFrom s p ls, s ≤ x := by
  intro ls
  induction ls with
  | nil =>
    intro s p x hx
    simp [Utils.cumulFrom] at hx
  | cons l rest ih =>
    intro s p x hx
    simp only [Utils.cumulFrom, List.mem_cons] at hx
    have hd : 0 ≤ Utils.distanceBetween p l := distanceBetween_nonneg p l
    rcases hx with rfl | hx
    · linarith
    · have h1 := ih (s + Utils.distanceBetween p l) l x hx
      linarith

theorem cumulFrom_getLastD_ge (s : ℝ) (p : Location) {ls : List Location} (h : ls ≠ []) :
    s ≤ (Utils.cumulFrom s p ls).getLastD 0 :=
  cumulFrom_mem_ge ls s p _ (getLastD_mem_of_ne_nil _ 0 (cumulFrom_ne_nil s p h))

theorem cumulFrom_le_getLastD : ∀ (ls : List Location) (s : ℝ) (p : Location),
    ∀ x ∈ Utils.cumulFrom s p ls, x ≤ (Utils.cumulFrom s p ls).getLastD 0 := by
  intro ls
  induction ls with
  | nil =>
    intro s p x hx
    simp [Utils.cumulFrom] at hx
  | cons l rest ih =>
    intro s p x hx
    simp only [Utils.cumulFrom, List.mem_cons] at hx
    rw [Utils.cumulFrom, List.getLastD_cons]
    cases hrest : rest with
    | nil =>
      rcases hx with rfl | hx
      · simp [hrest, Utils.cumulFrom, List.getLastD]
      · rw [hrest] at hx
        simp [Utils.cumulFrom] at hx
    | cons r rr =>
      have hne : rest ≠ [] := by rw [hrest]; simp
      have hirrel : (Utils.cumulFrom (s + Utils.distanceBetween p l) l rest).getLastD
          (s + Utils.distanceBetween p l) =
          (Utils.cumulFrom (s + Utils.distanceBetween p l) l rest).getLastD 0 :=
        getLastD_default_irrel _ _ _ (cumulFrom_ne_nil _ _ hne)
      rw [← hrest, hirrel]
      rcases hx with rfl | hx
      · exact cumulFrom_getLastD_ge _ _ hne
      · exact ih (s + Utils.distanceBetween p l) l x hx

theorem cumul_getLastD_nonneg (locs : List Location) :
    0 ≤ (Utils.getCumulativeDistances locs).getLastD 0 := by
  cases locs with
  | nil => simp [Utils.getCumulativeDistances, List.getLastD]
  | cons p rest =>
    rw [Utils.getCumulativeDistances, List.getLastD_cons]
    cases hrest : rest with
    | nil => simp [Utils.cumulFrom, List.getLastD]
    | cons r rr =>
      have hne : rest ≠ [] := by rw [hrest]; simp
      rw [← hrest]
      rw [getLastD_default_irrel _ _ 0 (cumulFrom_ne_nil _ _ hne)]
      have := cumulFrom_getLastD_ge 0 p hne
      linarith

theorem cumul_getD_nonneg (locs : List Location) (k : ℕ) :
    0 ≤ (Utils.getCumulativeDistances locs).getD k 0 := by
  by_cases hk : k < (Utils.getCumulativeDistances locs).length
  · have hmem : (Utils.getCumulativeDistances locs).getD k 0 ∈
        Utils.getCumulativeDistances locs := by
      rw [List.getD_eq_getElem _ _ hk]
      exact List.getElem_mem hk
    cases locs with
    | nil => simp [Utils.getCumulativeDistances] at hk
    | cons p rest =>
      rw [show Utils.getCumulativeDistances (p :: rest) =
        ((0 : ℝ) :: Utils.cumulFrom 0 p rest) from rfl] at hmem ⊢
      rcases List.mem_cons.mp hmem with heq | hmem
      · rw [heq]
      · exact cumulFrom_mem_ge rest 0 p _ hmem
  · rw [List.getD_eq_default _ _ (le_of_not_lt hk)]

theorem cumul_getD_le_getLastD (locs : List Location) (k : ℕ) :
    (Utils.getCumulativeDistances locs).getD k 0 ≤
      (Utils.getCumulativeDistances locs).getLastD 0 := by
  by_cases hk : k < (Utils.getCumulativeDistances locs).length
  · have hmem : (Utils.getCumulativeDistances locs).getD k 0 ∈
        Utils.getCumulativeDistances locs := by
      rw [List.getD_eq_getElem _ _ hk]
      exact List.getElem_mem hk
    cases locs with
    | nil => simp [Utils.getCumulativeDistances] at hk
    | cons p rest =>
      rw [show Utils.getCumulativeDistances (p :: rest) =
        ((0 : ℝ) :: Utils.cumulFrom 0 p rest) from rfl] at hmem ⊢
      rcases List.mem_cons.mp hmem with heq | hmem
      · rw [heq]
        have := cumul_getLastD_nonneg (p :: rest)
        rw [show Utils.getCumulativeDistances (p :: rest) =
          ((0 : ℝ) :: Utils.cumulFrom 0 p rest) from rfl] at this
        exact this
      · rw [List.getLastD_cons]
        cases hrest : rest with
        | nil =>
          rw [hrest] at hmem
          simp [Utils.cumulFrom] at hmem
        | cons r rr =>
          have hne : rest ≠ [] := by rw [hrest]; simp
          rw [← hrest, getLastD_default_irrel _ _ 0 (cumulFrom_ne_nil _ _ hne)]
          exact cumulFrom_le_getLastD rest 0 p _ hmem
  · rw [List.getD_eq_default _ _ (le_of_not_lt hk)]
    exact cumul_getLastD_nonneg locs

theorem cumulFrom_getD_succ : ∀ (ls : List Location) (s : ℝ) (p : Location) (k : ℕ),
    k + 1 < ls.length →
    (Utils.cumulFrom s p ls).getD (k + 1) 0 =
      (Utils.cumulFrom s p ls).getD k 0 +
        Utils.distanceBetween (ls.getD k dummyLocation) (ls.getD (k + 1) dummyLocation) := by
  intro ls
  induction ls with
  | nil =>
    intro s p k h
    simp at h
  | cons l rest ih =>
    intro s p k h
    cases k with
    | zero =>
      cases hrest : rest with
      | nil =>
        rw [hrest] at h
        simp at h
      | cons r rr =>
        subst hrest
        simp [Utils.cumulFrom, List.getD_cons_zero, List.getD_cons_succ]
    | succ k' =>
      have hih := ih (s + Utils.distanceBetween p l) l k' (by simpa using h)
      simp only [Utils.cumulFrom, List.getD_cons_succ]
      exact hih

theorem cumul_getD_succ (locs : List Location) (k : ℕ) (h : k + 1 < locs.length) :
    (Utils.getCumulativeDistances locs).getD (k + 1) 0 =
      (Utils.getCumulativeDistances locs).getD k 0 +
        Utils.distanceBetween (locs.getD k dummyLocation) (locs.getD (k + 1) dummyLocation) := by
  cases locs with
  | nil => simp at h
  | cons p rest =>
    cases k with
    | zero =>
      cases hrest : rest with
      | nil =>
        rw [hrest] at h
        simp at h
      | cons r rr =>
        subst hrest
        simp [Utils.getCumulativeDistances, Utils.cumulFrom, List.getD_cons_zero,
          List.getD_cons_succ]
    | succ k' =>
      have := cumulFrom_getD_succ rest 0 p k' (by simpa using h)
      simp only [Utils.getCumulativeDistances, List.getD_cons_succ]
      exact this

theorem findFloorGo_weak {xs : List ℝ} {x : ℝ} : ∀ (fuel : ℕ) (minI maxI : ℤ),
    -1 ≤ minI → minI < maxI →
    (minI = -1 ∨ xs.getD minI.toNat 0 ≤ x) →
    (-1 ≤ Utils.findFloorGo xs x fuel minI maxI ∧
      Utils.findFloorGo xs x fuel minI maxI < maxI ∧
      (Utils.findFloorGo xs x fuel minI maxI = -1 ∨
        xs.getD (Utils.findFloorGo xs x fuel minI maxI).toNat 0 ≤ x)) := by
  intro fuel
  induction fuel with
  | zero =>
    intro minI maxI h0 h1 h2
    rw [Utils.findFloorGo]
    exact ⟨h0, h1, h2⟩
  | succ fuel ih =>
    intro minI maxI h0 h1 h2
    rw [Utils.findFloorGo]
    by_cases hguard : minI < maxI - 1
    · rw [if_pos hguard]
      by_cases hlt : xs.getD ((minI + maxI) / 2).toNat 0 < x
      · simp only [if_pos hlt]
        exact ih ((minI + maxI) / 2) maxI (by omega) (by omega) (Or.inr (le_of_lt hlt))
      · simp only [if_neg hlt]
        by_cases heq : xs.getD ((minI + maxI) / 2).toNat 0 = x
        · simp only [if_pos heq]
          exact ⟨by omega, by omega, Or.inr (le_of_eq heq)⟩
        · simp only [if_neg heq]
          have := ih minI ((minI + maxI) / 2) h0 (by omega) h2
          exact ⟨this.1, by omega, this.2.2⟩
    · rw [if_neg hguard]
      exact ⟨h0, h1, h2⟩

theorem findFloorIndex_weak (xs : List ℝ) (x : ℝ) :
    -1 ≤ Utils.findFloorIndex xs x ∧ Utils.findFloorIndex xs x < xs.length ∧
      (Utils.findFloorIndex xs x = -1 ∨
        xs.getD (Utils.findFloorIndex xs x).toNat 0 ≤ x) :=
  findFloorGo_weak (xs.length + 2) (-1) xs.length (by omega) (by omega) (Or.inl rfl)

theorem getLastD_eq_getD : ∀ (l : List ℝ) , l ≠ [] → l.getLastD 0 = l.getD (l.length - 1) 0 := by
  intro l
  induction l with
  | nil => intro h; exact absurd rfl h
  | cons a t ih =>
    intro h
    rw [List.getLastD_cons]
    cases ht : t with
    | nil => simp [List.getLastD]
    | cons b tt =>
      rw [← ht]
      have hne : t ≠ [] := by rw [ht]; simp
      rw [getLastD_default_irrel t a 0 hne, ih hne]
      have : (a :: t).length - 1 = (t.length - 1) + 1 := by
        rw [ht]; simp
      rw [this, List.getD_cons_succ]

theorem distanceBetween_eq (a b : Location) :
    Utils.distanceBetween a b =
      Real.sqrt ((b.x - a.x) * (b.x - a.x) + (b.y - a.y) * (b.y - a.y)) := rfl

theorem distanceBetween_self (a : Location) : Utils.distanceBetween a a = 0 := by
  rw [distanceBetween_eq]
  simp

theorem closestPointOnSegment_down_eq (p a b : Location) :
    (Utils.closestPointOnSegment p a b).distanceDownSegment =
      Real.sqrt ((b.x - a.x) * (b.x - a.x) + (b.y - a.y) * (b.y - a.y)) *
        Utils.clamp (((p.x - a.x) * (b.x - a.x) + (p.y - a.y) * (b.y - a.y)) /
          ((b.x - a.x) * (b.x - a.x) + (b.y - a.y) * (b.y - a.y))) 0 1 := rfl

theorem closestPointOnSegment_down_bounds (p a b : Location) :
    0 ≤ (Utils.closestPointOnSegment p a b).distanceDownSegment ∧
    (Utils.closestPointOnSegment p a b).distanceDownSegment ≤ Utils.distanceBetween a b := by
  rw [closestPointOnSegment_down_eq, distanceBetween_eq]
  have hs : 0 ≤ Real.sqrt ((b.x - a.x) * (b.x - a.x) + (b.y - a.y) * (b.y - a.y)) :=
    Real.sqrt_nonneg _
  have ht0 : 0 ≤ Utils.clamp (((p.x - a.x) * (b.x - a.x) + (p.y - a.y) * (b.y - a.y)) /
      ((b.x - a.x) * (b.x - a.x) + (b.y - a.y) * (b.y - a.y))) 0 1 := le_max_left _ _
  have ht1 : Utils.clamp (((p.x - a.x) * (b.x - a.x) + (p.y - a.y) * (b.y - a.y)) /
      ((b.x - a.x) * (b.x - a.x) + (b.y - a.y) * (b.y - a.y))) 0 1 ≤ 1 :=
    max_le (by norm_num) (min_le_left _ _)
  exact ⟨mul_nonneg hs ht0, mul_le_of_le_one_right hs ht1⟩

theorem createdEdge_segment_bound {g : Graph} {e : Edge} (hce : CreatedEdge g e) (k : ℕ)
    (hk : k + 1 < e.locations.length) :
    0 ≤ e.locationDistances.getD k 0 ∧
    e.locationDistances.getD k 0 +
      Utils.distanceBetween (e.locations.getD k dummyLocation)
        (e.locations.getD (k + 1) dummyLocation) ≤ e.length := by
  obtain ⟨-, hdist, hlen, -⟩ := hce
  constructor
  · rw [hdist]
    exact cumul_getD_nonneg _ _
  · rw [hlen, hdist, ← cumul_getD_succ _ _ hk]
    exact cumul_getD_le_getLastD _ _

theorem refine_in_range {g : Graph} (location : Location) {mp : MeshPoint}
    (hmp : MeshPointInv g mp) :
    ∃ pt, g.refineClosestMeshPoint location mp = .ok pt ∧ pt.edgeId = mp.edgeId ∧
      EdgePointInRange g pt := by
  obtain ⟨e, he, h0, h1⟩ := hmp
  have hrun : g.refineClosestMeshPoint location mp = .ok
      { edgeId := mp.edgeId,
        distance := e.locationDistances.getD mp.locationIndex.toNat 0 +
          (Utils.closestPointOnSegment location
            (e.locations.getD mp.locationIndex.toNat dummyLocation)
            (e.locations.getD (mp.locationIndex + 1).toNat dummyLocation)).distanceDownSegment } := by
    unfold Graph.refineClosestMeshPoint
    simp only [Graph.getEdgeOrThrow, he, bind, Except.bind, pure, Except.pure]
  obtain ⟨hd0, hd1⟩ := closestPointOnSegment_down_bounds location
    (e.locations.getD mp.locationIndex.toNat dummyLocation)
    (e.locations.getD (mp.locationIndex + 1).toNat dummyLocation)
  exact ⟨_, hrun, rfl, e, he, add_nonneg h0 hd0, le_trans (add_le_add_left hd1 _) h1⟩

theorem meshPointInv_of_segment {g : Graph} {e : Edge} (hce : CreatedEdge g e) (x y : ℝ)
    (li : ℤ) (h0 : 0 ≤ li) (h1 : li.toNat + 1 < e.locations.length) :
    MeshPointInv g { x := x, y := y, edgeId := e.id, locationIndex := li } := by
  obtain hb := createdEdge_segment_bound hce li.toNat h1
  refine ⟨e, hce.1, hb.1, ?_⟩
  show e.locationDistances.getD li.toNat 0 +
      Utils.distanceBetween (e.locations.getD li.toNat dummyLocation)
        (e.locations.getD (li + 1).toNat dummyLocation) ≤ e.length
  rw [show (li + 1).toNat = li.toNat + 1 by omega]
  exact hb.2

theorem meshPointInv_neg_one {g : Graph} {e : Edge} (hce : CreatedEdge g e) (x y : ℝ) :
    MeshPointInv g { x := x, y := y, edgeId := e.id, locationIndex := -1 } := by
  refine ⟨e, hce.1, ?_, ?_⟩
  · show 0 ≤ e.locationDistances.getD (-1 : ℤ).toNat 0
    rw [hce.2.1]
    exact cumul_getD_nonneg _ _
  · show e.locationDistances.getD (-1 : ℤ).toNat 0 +
      Utils.distanceBetween (e.locations.getD (-1 : ℤ).toNat dummyLocation)
        (e.locations.getD ((-1 : ℤ) + 1).toNat dummyLocation) ≤ e.length
    rw [show ((-1 : ℤ)).toNat = 0 from rfl, show ((-1 : ℤ) + 1).toNat = 0 by decide,
      distanceBetween_self, add_zero, hce.2.2.1, hce.2.1]
    exact cumul_getD_le_getLastD _ _

theorem meshPointInv_findFloor {g : Graph} {e : Edge} (hce : CreatedEdge g e) (x y : ℝ)
    (d : ℝ) (hd : d < e.length) :
    MeshPointInv g
      { x := x, y := y, edgeId := e.id,
        locationIndex := Utils.findFloorIndex e.locationDistances d } := by
  obtain ⟨hw0, hw1, hw2⟩ := findFloorIndex_weak e.locationDistances d
  by_cases hsign : Utils.findFloorIndex e.locationDistances d = -1
  · rw [hsign]
    exact meshPointInv_neg_one hce x y
  · have h0 : 0 ≤ Utils.findFloorIndex e.locationDistances d := by omega
    rcases hw2 with hneg | hle
    · exact absurd hneg hsign
    · have hlen2 := hce.2.2.2
      have hlenD : e.locationDistances.length = e.locations.length := by
        rw [hce.2.1]
        exact getCumulativeDistances_length _
      have hne : e.locationDistances ≠ [] := by
        intro hc
        have := congrArg List.length hc
        simp only [List.length_nil] at this
        rw [hlenD] at this
        omega
      have hlast : e.locationDistances.getD (e.locationDistances.length - 1) 0 = e.length := by
        rw [← getLastD_eq_getD _ hne, hce.2.2.1]
      have hlim : (Utils.findFloorIndex e.locationDistances d).toNat ≠
          e.locationDistances.length - 1 := by
        intro hcon
        rw [hcon, hlast] at hle
        linarith
      have hcomb : (Utils.findFloorIndex e.locationDistances d).toNat + 1 <
          e.locations.length := by
        rw [← hlenD]
        omega
      exact meshPointInv_of_segment hce x y _ h0 hcomb

theorem meshNodeFold_inv {g : Graph} (hall : ∀ e ∈ g.edges, CreatedEdge g e) :
    ∀ (nds : List Node) (acc out : List MeshPoint),
      nds.foldlM (meshNodeStep g) acc = .ok out →
      (∀ mp ∈ acc, MeshPointInv g mp) → ∀ mp ∈ out, MeshPointInv g mp := by
  intro nds
  induction nds with
  | nil =>
    intro acc out h hacc
    simp only [List.foldlM_nil, pure, Except.pure, Except.ok.injEq] at h
    subst h
    exact hacc
  | cons n rest ih =>
    intro acc out h hacc
    rw [List.foldlM_cons] at h
    cases hstep : meshNodeStep g acc n with
    | error m =>
      rw [hstep] at h
      simp only [bind, Except.bind] at h
      cases h
    | ok acc' =>
      rw [hstep] at h
      simp only [bind, Except.bind] at h
      refine ih _ _ h ?_
      unfold meshNodeStep at hstep
      by_cases hn : n.edgeIds.length > 0
      · rw [if_pos hn] at hstep
        cases hfind : g.getEdgeOrThrow (n.edgeIds.getD 0 (.int 0)) with
        | error m =>
          rw [hfind] at hstep
          simp only [bind, Except.bind] at hstep
          cases hstep
        | ok e =>
          rw [hfind] at hstep
          simp only [bind, Except.bind, pure, Except.pure, Except.ok.injEq] at hstep
          subst hstep
          intro mp hmp
          rcases List.mem_append.mp hmp with hmp | hmp
          · exact hacc mp hmp
          · have hmp' : mp =
                { x := n.location.x, y := n.location.y, edgeId := e.id,
                  locationIndex := if e.startNodeId = n.id then 0
                    else (e.locations.length : ℤ) - 2 } := by
              simpa using hmp
            subst hmp'
            have hee : e ∈ g.edges := by
              unfold Graph.getEdgeOrThrow Graph.getEdge at hfind
              cases hf2 : g.edges.find? (fun x => x.id = n.edgeIds.getD 0 (.int 0)) with
              | none =>
                rw [hf2] at hfind
                cases hfind
              | some e2 =>
                rw [hf2] at hfind
                simp only [Except.ok.injEq] at hfind
                rw [← hfind]
                exact List.mem_of_find?_eq_some hf2
            have hce := hall e hee
            have hlen2 := hce.2.2.2
            by_cases hse : e.startNodeId = n.id
            · rw [if_pos hse]
              exact meshPointInv_of_segment hce _ _ 0 (by omega) (by omega)
            · rw [if_neg hse]
              exact meshPointInv_of_segment hce _ _ _ (by omega) (by omega)
      · rw [if_neg hn] at hstep
        simp only [pure, Except.pure, Except.ok.injEq] at hstep
        subst hstep
        exact hacc

theorem meshSampleFold_inv {g : Graph} {edge : Edge} (hce : CreatedEdge g edge)
    (stepDistance : ℝ) :
    ∀ (idxs : List ℕ) (acc out : List MeshPoint),
      (∀ i ∈ idxs, (i : ℝ) * stepDistance < edge.length) →
      idxs.foldlM (meshSampleStep g edge stepDistance) acc = .ok out →
      (∀ mp ∈ acc, MeshPointInv g mp) → ∀ mp ∈ out, MeshPointInv g mp := by
  intro idxs
  induction idxs with
  | nil =>
    intro acc out hb h hacc
    simp only [List.foldlM_nil, pure, Except.pure, Except.ok.injEq] at h
    subst h
    exact hacc
  | cons i rest ih =>
    intro acc out hb h hacc
    rw [List.foldlM_cons] at h
    cases hstep : meshSampleStep g edge stepDistance acc i with
    | error m =>
      rw [hstep] at h
      simp only [bind, Except.bind] at h
      cases h
    | ok acc' =>
      rw [hstep] at h
      simp only [bind, Except.bind] at h
      refine ih _ _ (fun j hj => hb j (List.mem_cons_of_mem _ hj)) h ?_
      unfold meshSampleStep at hstep
      simp only [bind, Except.bind] at hstep
      cases hloc : g.getLocation { edgeId := edge.id, distance := (i : ℝ) * stepDistance } with
      | error m =>
        rw [hloc] at hstep
        cases hstep
      | ok l =>
        rw [hloc] at hstep
        simp only [pure, Except.pure, Except.ok.injEq] at hstep
        subst hstep
        intro mp hmp
        rcases List.mem_append.mp hmp with hmp | hmp
        · exact hacc mp hmp
        · have hmp' : mp =
              { x := l.x, y := l.y, edgeId := edge.id,
                locationIndex := Utils.findFloorIndex edge.locationDistances
                  ((i : ℝ) * stepDistance) } := by
            simpa using hmp
          subst hmp'
          exact meshPointInv_findFloor hce _ _ _ (hb i (List.mem_cons_self _ _))

theorem edge_length_nonneg {g : Graph} {e : Edge} (hce : CreatedEdge g e) : 0 ≤ e.length := by
  rw [hce.2.2.1, hce.2.1]
  exact cumul_getLastD_nonneg _

theorem meshEdgeFold_inv {g : Graph} (hall : ∀ e ∈ g.edges, CreatedEdge g e) (precision : ℝ) :
    ∀ (eds : List Edge) (acc out : List MeshPoint),
      (∀ e ∈ eds, e ∈ g.edges) →
      eds.foldlM (meshEdgeStep g precision) acc = .ok out →
      (∀ mp ∈ acc, MeshPointInv g mp) → ∀ mp ∈ out, MeshPointInv g mp := by
  intro eds
  induction eds with
  | nil =>
    intro acc out hsub h hacc
    simp only [List.foldlM_nil, pure, Except.pure, Except.ok.injEq] at h
    subst h
    exact hacc
  | cons edge rest ih =>
    intro acc out hsub h hacc
    rw [List.foldlM_cons] at h
    cases hstep : meshEdgeStep g precision acc edge with
    | error m =>
      rw [hstep] at h
      simp only [bind, Except.bind] at h
      cases h
    | ok acc' =>
      rw [hstep] at h
      simp only [bind, Except.bind] at h
      refine ih _ _ (fun e he => hsub e (List.mem_cons_of_mem _ he)) h ?_
      have hce := hall edge (hsub edge (List.mem_cons_self _ _))
      unfold meshEdgeStep at hstep
      refine meshSampleFold_inv hce _ _ _ _ ?_ hstep hacc
      intro i hi
      obtain ⟨j, hj, hij⟩ := List.mem_map.mp hi
      rw [List.mem_range] at hj
      have hn2 : 2 ≤ ⌈edge.length / precision⌉ := by omega
      have hq : (1 : ℝ) < edge.length / precision := by
        have h1 : (1 : ℤ) < ⌈edge.length / precision⌉ := by omega
        exact_mod_cast Int.lt_ceil.mp h1
      have hL0 : 0 ≤ edge.length := edge_length_nonneg hce
      have hLpos : 0 < edge.length := by
        rcases eq_or_lt_of_le hL0 with heq | h
        · rw [← heq, zero_div] at hq
          linarith
        · exact h
      have hnR : (0 : ℝ) < ((⌈edge.length / precision⌉ : ℤ) : ℝ) := by
        have : (0 : ℤ) < ⌈edge.length / precision⌉ := by omega
        exact_mod_cast this
      have hiLe : (i : ℝ) ≤ ((⌈edge.length / precision⌉ : ℤ) : ℝ) - 1 := by
        have h1 : (i : ℤ) ≤ ⌈edge.length / precision⌉ - 1 := by omega
        have h2 : ((i : ℤ) : ℝ) ≤ ((⌈edge.length / precision⌉ - 1 : ℤ) : ℝ) := by
          exact_mod_cast h1
        push_cast at h2 ⊢
        linarith
      have hdiv : 0 < edge.length / ((⌈edge.length / precision⌉ : ℤ) : ℝ) :=
        div_pos hLpos hnR
      calc (i : ℝ) * (edge.length / ((⌈edge.length / precision⌉ : ℤ) : ℝ))
          ≤ (((⌈edge.length / precision⌉ : ℤ) : ℝ) - 1) *
            (edge.length / ((⌈edge.length / precision⌉ : ℤ) : ℝ)) :=
            mul_le_mul_of_nonneg_right hiLe (le_of_lt hdiv)
        _ = edge.length - edge.length / ((⌈edge.length / precision⌉ : ℤ) : ℝ) := by
            field_simp
            ring
        _ < edge.length := by linarith

theorem foldlM_addEdge_edge_ids :
    ∀ (es : List SimpleEdge) (ns : List Node) (acc : List Edge)
      (out : List Node × List Edge),
      es.foldlM addEdge (ns, acc) = .ok out →
      out.2.map (·.id) = acc.map (·.id) ++ es.map (·.id) := by
  intro es
  induction es with
  | nil =>
    intro ns acc out h
    simp only [List.foldlM_nil, pure, Except.pure, Except.ok.injEq] at h
    subst h
    simp
  | cons e rest ih =>
    intro ns acc out h
    rw [List.foldlM_cons] at h
    cases ha : addEdge (ns, acc) e with
    | error m => rw [ha] at h; cases h
    | ok st' =>
      rw [ha] at h
      simp only [bind, Except.bind] at h
      obtain ⟨sn, tn, hfs, hft, hout⟩ := addEdge_ok ha
      subst hout
      rw [ih _ _ _ h]
      simp [mkDerivedEdge_id]

theorem find?_self_of_nodup : ∀ (es : List Edge), (es.map (·.id)).Nodup →
    ∀ e ∈ es, es.find? (fun x => x.id = e.id) = some e := by
  intro es
  induction es with
  | nil => intro _ e he; cases he
  | cons a rest ih =>
    intro hnd e he
    simp only [List.map_cons, List.nodup_cons] at hnd
    rcases List.mem_cons.mp he with heq | hmem
    · subst heq
      exact List.find?_cons_of_pos _ (by simp)
    · have hne : a.id ≠ e.id := by
        intro hc
        exact hnd.1 (by rw [hc]; exact List.mem_map.mpr ⟨e, hmem, rfl⟩)
      rw [List.find?_cons_of_neg _ (by simpa using hne)]
      exact ih hnd.2 e hmem

theorem createdEdge_of_create {ns : List SimpleNode} {es : List SimpleEdge} {g : Graph}
    (h : Graph.create ns es = .ok g) : ∀ e ∈ g.edges, CreatedEdge g e := by
  obtain ⟨nsb, out, hb, hf, hn, he, hm⟩ := create_ok h
  have hnodup : (out.2.map (·.id)).Nodup := by
    rw [foldlM_addEdge_edge_ids es nsb [] out hf]
    simpa using ((foldlM_addEdge_ok_iff es nsb [] (by simp)).mp ⟨out, hf⟩).1
  obtain ⟨hpres, hinv⟩ := foldlM_addEdge_inv es nsb [] out hf
  intro e hmem
  have hEI : EdgeInv (nodeLocation out.1) e := by
    rcases hinv e (he ▸ hmem) with h0 | hEI
    · cases h0
    · exact hEI
  obtain ⟨h1, h2, ls, le, hls, hle, hshape⟩ := hEI
  refine ⟨?_, h1, h2, ?_⟩
  · show g.edges.find? (fun x => x.id = e.id) = some e
    rw [he]
    exact find?_self_of_nodup out.2 hnodup e (he ▸ hmem)
  · rw [hshape]
    simp only [List.length_cons, List.length_append, List.length_singleton]
    omega

theorem meshPoints_inv {g : Graph} (hall : ∀ e ∈ g.edges, CreatedEdge g e) (precision : ℝ)
    {mps : List MeshPoint} (h : g.meshPoints precision = .ok mps) :
    ∀ mp ∈ mps, MeshPointInv g mp := by
  unfold Graph.meshPoints at h
  cases hn : g.getAllNodes.foldlM (meshNodeStep g) ([] : List MeshPoint) with
  | error m =>
    rw [hn] at h
    simp only [bind, Except.bind] at h
    cases h
  | ok nodeSamples =>
    rw [hn] at h
    simp only [bind, Except.bind] at h
    have hns := meshNodeFold_inv hall g.getAllNodes [] nodeSamples hn
      (by intro mp hmp; cases hmp)
    exact meshEdgeFold_inv hall precision g.getAllEdges nodeSamples mps
      (fun e he => he) h hns

theorem scanSegmentStep_isSome (location : Location) (edge : Edge)
    (b : Option (EdgePoint × ℝ)) (i : ℕ) :
    ∃ pr, scanSegmentStep location edge b i = some pr := by
  cases b with
  | none => exact ⟨_, rfl⟩
  | some pair =>
    simp only [scanSegmentStep]
    split
    · exact ⟨_, rfl⟩
    · exact ⟨_, rfl⟩

theorem scanSegmentStep_inv {g : Graph} (location : Location) {edge : Edge}
    (hce : CreatedEdge g edge) (b : Option (EdgePoint × ℝ)) (i : ℕ)
    (hi : i + 1 < edge.locations.length)
    (hb : ∀ pr, b = some pr → EdgePointInRange g pr.1) :
    ∀ pr, scanSegmentStep location edge b i = some pr → EdgePointInRange g pr.1 := by
  obtain ⟨hb0, hb1⟩ := createdEdge_segment_bound hce i hi
  obtain ⟨hd0, hd1⟩ := closestPointOnSegment_down_bounds location
    (edge.locations.getD i dummyLocation) (edge.locations.getD (i + 1) dummyLocation)
  have hcand : EdgePointInRange g
      { edgeId := edge.id,
        distance := edge.locationDistances.getD i 0 +
          (Utils.closestPointOnSegment location (edge.locations.getD i dummyLocation)
            (edge.locations.getD (i + 1) dummyLocation)).distanceDownSegment } :=
    ⟨edge, hce.1, add_nonneg hb0 hd0, le_trans (add_le_add_left hd1 _) hb1⟩
  intro pr hpr
  cases b with
  | none =>
    unfold scanSegmentStep at hpr
    simp only [Option.some.injEq] at hpr
    rw [← hpr]
    exact hcand
  | some pair =>
    unfold scanSegmentStep at hpr
    simp only [] at hpr
    split at hpr
    · simp only [Option.some.injEq] at hpr
      rw [← hpr]
      exact hcand
    · simp only [Option.some.injEq] at hpr
      rw [← hpr]
      exact hb pair rfl

theorem scanFold_inv {g : Graph} (location : Location) {edge : Edge}
    (hce : CreatedEdge g edge) :
    ∀ (idxs : List ℕ), (∀ i ∈ idxs, i + 1 < edge.locations.length) →
      ∀ (b : Option (EdgePoint × ℝ)), (∀ pr, b = some pr → EdgePointInRange g pr.1) →
      ∀ pr, idxs.foldl (scanSegmentStep location edge) b = some pr →
        EdgePointInRange g pr.1 := by
  intro idxs
  induction idxs with
  | nil =>
    intro _ b hb pr hpr
    rw [List.foldl_nil] at hpr
    exact hb pr hpr
  | cons i rest ih =>
    intro hrange b hb
    intro pr
    rw [List.foldl_cons]
    exact ih (fun j hj => hrange j (List.mem_cons_of_mem _ hj)) _
      (scanSegmentStep_inv location hce b i (hrange i (List.mem_cons_self _ _)) hb) pr

theorem scanFold_some (location : Location) (edge : Edge) :
    ∀ (idxs : List ℕ) (b : Option (EdgePoint × ℝ)),
      (idxs ≠ [] ∨ ∃ pr, b = some pr) →
      ∃ pr, idxs.foldl (scanSegmentStep location edge) b = some pr := by
  intro idxs
  induction idxs with
  | nil =>
    intro b hb
    rcases hb with hne | hsome
    · exact absurd rfl hne
    · simpa using hsome
  | cons i rest ih =>
    intro b _
    rw [List.foldl_cons]
    exact ih _ (Or.inr (scanSegmentStep_isSome location edge b i))

theorem scanSegments_inv {g : Graph} (location : Location) {edge : Edge}
    (hce : CreatedEdge g edge) (b : Option (EdgePoint × ℝ))
    (hb : ∀ pr, b = some pr → EdgePointInRange g pr.1) :
    ∀ pr, scanSegments location edge b = some pr → EdgePointInRange g pr.1 := by
  unfold scanSegments
  refine scanFold_inv location hce _ ?_ b hb
  intro i hi
  rw [List.mem_range] at hi
  omega

theorem scanSegments_some {g : Graph} (location : Location) {edge : Edge}
    (hce : CreatedEdge g edge) (b : Option (EdgePoint × ℝ)) :
    ∃ pr, scanSegments location edge b = some pr := by
  unfold scanSegments
  refine scanFold_some location edge _ b (Or.inl ?_)
  have h2 := hce.2.2.2
  simp only [ne_eq, List.range_eq_nil]
  omega

theorem closestFold_inv {g : Graph} (location : Location)
    (hall : ∀ e ∈ g.edges, CreatedEdge g e) :
    ∀ (eds : List Edge), (∀ e ∈ eds, e ∈ g.edges) →
      ∀ (b : Option (EdgePoint × ℝ)), (∀ pr, b = some pr → EdgePointInRange g pr.1) →
      ∀ pr, eds.foldl (fun best edge => scanSegments location edge best) b = some pr →
        EdgePointInRange g pr.1 := by
  intro eds
  induction eds with
  | nil =>
    intro _ b hb pr hpr
    rw [List.foldl_nil] at hpr
    exact hb pr hpr
  | cons e rest ih =>
    intro hsub b hb
    intro pr
    rw [List.foldl_cons]
    exact ih (fun x hx => hsub x (List.mem_cons_of_mem _ hx)) _
      (scanSegments_inv location (hall e (hsub e (List.mem_cons_self _ _))) b hb) pr

theorem closestFold_some {g : Graph} (location : Location)
    (hall : ∀ e ∈ g.edges, CreatedEdge g e) :
    ∀ (eds : List Edge), (∀ e ∈ eds, e ∈ g.edges) →
      ∀ (b : Option (EdgePoint × ℝ)), (eds ≠ [] ∨ ∃ pr, b = some pr) →
      ∃ pr, eds.foldl (fun best edge => scanSegments location edge best) b = some pr := by
  intro eds
  induction eds with
  | nil =>
    intro _ b hb
    rcases hb with hne | hsome
    · exact absurd rfl hne
    · simpa using hsome
  | cons e rest ih =>
    intro hsub b _
    rw [List.foldl_cons]
    exact ih (fun x hx => hsub x (List.mem_cons_of_mem _ hx)) _
      (Or.inr (scanSegments_some location (hall e (hsub e (List.mem_cons_self _ _))) b))

theorem withoutMesh_in_range {g : Graph} (hall : ∀ e ∈ g.edges, CreatedEdge g e)
    (hne : g.edges ≠ []) (location : Location) :
    ∃ pt, g.getClosestPointWithoutMesh location = .ok pt ∧ EdgePointInRange g pt := by
  obtain ⟨pr, hpr⟩ := closestFold_some location hall g.edges (fun _ hx => hx) none
    (Or.inl hne)
  have hin := closestFold_inv location hall g.edges (fun _ hx => hx) none
    (by intro pr0 h0; cases h0) pr hpr
  refine ⟨pr.1, ?_, hin⟩
  unfold Graph.getClosestPointWithoutMesh
  rw [hpr]

/-- C9: for every successfully created graph and every query location, the
closest-point machinery only produces edge points that reference an edge of
the graph and carry a distance within `[0, length]` of that edge, because the
segment projection parameter is clamped to `[0, 1]` before being scaled by
the segment length and added to the segment's cumulative start distance.
With a mesh, every mesh point loaded by `withClosestPointMesh` refines
through `refineClosestMeshPoint` to such a point; without a mesh, on a graph
with at least one edge, the linear scan `getClosestPointWithoutMesh`
succeeds and returns such a point. -/
theorem C9_closest_point_in_range (ns : List SimpleNode) (es : List SimpleEdge) (g : Graph)
    (h : Graph.create ns es = .ok g) (location : Location) :
    (∀ (precision : ℝ) (g' : Graph), g.withClosestPointMesh precision = .ok g' →
      ∀ mps, g'.mesh = some mps → ∀ mp ∈ mps,
        ∃ pt, g'.refineClosestMeshPoint location mp = .ok pt ∧ pt.edgeId = mp.edgeId ∧
          EdgePointInRange g' pt) ∧
    (g.edges ≠ [] →
      ∃ pt, g.getClosestPointWithoutMesh location = .ok pt ∧ EdgePointInRange g pt) := by
  have hall := createdEdge_of_create h
  constructor
  · intro precision g' hg' mps hmesh mp hmp
    unfold Graph.withClosestPointMesh at hg'
    cases hpts : g.meshPoints precision with
    | error m =>
      rw [hpts] at hg'
      simp only [bind, Except.bind] at hg'
      cases hg'
    | ok pts =>
      rw [hpts] at hg'
      simp only [bind, Except.bind, pure, Except.pure, Except.ok.injEq] at hg'
      subst hg'
      have hpm : pts = mps := by simpa using hmesh
      subst hpm
      have hinv := meshPoints_inv hall precision hpts mp hmp
      have hinv' : MeshPointInv { g with mesh := some pts } mp := by
        obtain ⟨e, he, h1, h2⟩ := hinv
        exact ⟨e, he, h1, h2⟩
      obtain ⟨pt, hrun, heid, hrange⟩ := refine_in_range location hinv'
      exact ⟨pt, hrun, heid, hrange⟩
  · intro hne
    exact withoutMesh_in_range hall hne location

/-- C9 (witness): the claim theorem applied to a concrete created two-node
graph and the origin as query location, instantiating the without-mesh
conclusion. -/
theorem C9_witness :
    Graph.create witNodesC8 witEdgesC8 = .ok witGraphC8 ∧
    ∃ pt, witGraphC8.getClosestPointWithoutMesh { x := 0, y := 0 } = .ok pt ∧
      EdgePointInRange witGraphC8 pt := by
  have hc : Graph.create witNodesC8 witEdgesC8 = .ok witGraphC8 := by
    simp [Graph.create, buildNodes, addEdge, mkDerivedEdge, pushEdgeId,
      witNodesC8, witEdgesC8, witGraphC8, witNodeRec0, witNodeRec1, witEdgeRec,
      Utils.getCumulativeDistances, Utils.cumulFrom, Utils.distanceBetween,
      bind, Except.bind, pure, Except.pure, List.find?]
  exact ⟨hc, (C9_closest_point_in_range witNodesC8 witEdgesC8 witGraphC8 hc
    { x := 0, y := 0 }).2 (by simp [witGraphC8])⟩

theorem foldlM_addEdge_node_ids :
    ∀ (es : List SimpleEdge) (ns : List Node) (acc : List Edge)
      (out : List Node × List Edge),
      es.foldlM addEdge (ns, acc) = .ok out → out.1.map (·.id) = ns.map (·.id) := by
  intro es
  induction es with
  | nil =>
    intro ns acc out h
    simp only [List.foldlM_nil, pure, Except.pure, Except.ok.injEq] at h
    subst h
    rfl
  | cons e rest ih =>
    intro ns acc out h
    rw [List.foldlM_cons] at h
    cases ha : addEdge (ns, acc) e with
    | error m => rw [ha] at h; cases h
    | ok st' =>
      rw [ha] at h
      simp only [bind, Except.bind] at h
      obtain ⟨sn, tn, hfs, hft, hout⟩ := addEdge_ok ha
      subst hout
      rw [ih _ _ _ h, pushEdgeId_ids, pushEdgeId_ids]

theorem buildNodes_edgeIds_nil : ∀ (ns : List SimpleNode) (acc out : List Node),
    buildNodes ns acc = .ok out → (∀ n ∈ acc, n.edgeIds = []) → ∀ n ∈ out, n.edgeIds = [] := by
  intro ns
  induction ns with
  | nil =>
    intro acc out h hacc
    cases h
    exact hacc
  | cons n rest ih =>
    intro acc out h hacc
    unfold buildNodes at h
    by_cases hdup : (acc.any (fun x => x.id = n.id)) = true
    · rw [if_pos hdup] at h; cases h
    · rw [if_neg hdup] at h
      refine ih _ _ h ?_
      intro x hx
      rcases List.mem_append.mp hx with hx | hx
      · exact hacc x hx
      · have hxe : x = { id := n.id, location := n.location, edgeIds := [] } := by
          simpa using hx
        rw [hxe]

theorem incidence_pushEdgeId (ns : List Node) (es2 : List Edge) (nid : NodeId) (eid : EdgeId)
    (hinc : ∀ n ∈ ns, ∀ i ∈ n.edgeIds,
      ∃ e ∈ es2, e.id = i ∧ (e.startNodeId = n.id ∨ e.endNodeId = n.id))
    (hnew : ∃ e ∈ es2, e.id = eid ∧ (e.startNodeId = nid ∨ e.endNodeId = nid)) :
    ∀ n ∈ pushEdgeId ns nid eid, ∀ i ∈ n.edgeIds,
      ∃ e ∈ es2, e.id = i ∧ (e.startNodeId = n.id ∨ e.endNodeId = n.id) := by
  intro n' hn' i hi
  unfold pushEdgeId at hn'
  obtain ⟨n, hn, heq⟩ := List.mem_map.mp hn'
  by_cases hid : n.id = nid
  · rw [if_pos hid] at heq
    subst heq
    rcases List.mem_append.mp hi with hi | hi
    · exact hinc n hn i hi
    · have hie : i = eid := by simpa using hi
      subst hie
      obtain ⟨e, he, h1, h2⟩ := hnew
      refine ⟨e, he, h1, ?_⟩
      show e.startNodeId = n.id ∨ e.endNodeId = n.id
      rw [hid]
      exact h2
  · rw [if_neg hid] at heq
    subst heq
    exact hinc n hn i hi

theorem foldlM_addEdge_incidence :
    ∀ (es : List SimpleEdge) (ns : List Node) (acc : List Edge)
      (out : List Node × List Edge),
      es.foldlM addEdge (ns, acc) = .ok out →
      (∀ n ∈ ns, ∀ i ∈ n.edgeIds,
        ∃ e ∈ acc, e.id = i ∧ (e.startNodeId = n.id ∨ e.endNodeId = n.id)) →
      ∀ n ∈ out.1, ∀ i ∈ n.edgeIds,
        ∃ e ∈ out.2, e.id = i ∧ (e.startNodeId = n.id ∨ e.endNodeId = n.id) := by
  intro es
  induction es with
  | nil =>
    intro ns acc out h hacc
    simp only [List.foldlM_nil, pure, Except.pure, Except.ok.injEq] at h
    subst h
    exact hacc
  | cons e rest ih =>
    intro ns acc out h hacc
    rw [List.foldlM_cons] at h
    cases ha : addEdge (ns, acc) e with
    | error m => rw [ha] at h; cases h
    | ok st' =>
      rw [ha] at h
      simp only [bind, Except.bind] at h
      obtain ⟨sn, tn, hfs, hft, hout⟩ := addEdge_ok ha
      subst hout
      refine ih _ _ _ h ?_
      have hbase : ∀ n ∈ ns, ∀ i ∈ n.edgeIds,
          ∃ e2 ∈ acc ++ [mkDerivedEdge e sn tn], e2.id = i ∧
            (e2.startNodeId = n.id ∨ e2.endNodeId = n.id) := by
        intro n hn i hi
        obtain ⟨e2, he2, h1, h2⟩ := hacc n hn i hi
        exact ⟨e2, List.mem_append_left _ he2, h1, h2⟩
      have hnew1 : ∃ e2 ∈ acc ++ [mkDerivedEdge e sn tn], e2.id = e.id ∧
          (e2.startNodeId = e.startNodeId ∨ e2.endNodeId = e.startNodeId) :=
        ⟨mkDerivedEdge e sn tn, List.mem_append_right _ (List.mem_cons_self _ _),
          rfl, Or.inl rfl⟩
      have hstep1 := incidence_pushEdgeId ns (acc ++ [mkDerivedEdge e sn tn])
        e.startNodeId e.id hbase hnew1
      have hnew2 : ∃ e2 ∈ acc ++ [mkDerivedEdge e sn tn], e2.id = e.id ∧
          (e2.startNodeId = e.endNodeId ∨ e2.endNodeId = e.endNodeId) :=
        ⟨mkDerivedEdge e sn tn, List.mem_append_right _ (List.mem_cons_self _ _),
          rfl, Or.inr rfl⟩
      exact incidence_pushEdgeId _ _ e.endNodeId e.id hstep1 hnew2

theorem node_find?_self_of_nodup : ∀ (l : List Node), (l.map (·.id)).Nodup →
    ∀ n ∈ l, l.find? (fun x => x.id = n.id) = some n := by
  intro l
  induction l with
  | nil => intro _ n hn; cases hn
  | cons a rest ih =>
    intro hnd n hn
    simp only [List.map_cons, List.nodup_cons] at hnd
    rcases List.mem_cons.mp hn with heq | hmem
    · subst heq
      exact List.find?_cons_of_pos _ (by simp)
    · have hne : a.id ≠ n.id := by
        intro hc
        exact hnd.1 (by rw [hc]; exact List.mem_map.mpr ⟨n, hmem, rfl⟩)
      rw [List.find?_cons_of_neg _ (by simpa using hne)]
      exact ih hnd.2 n hmem

theorem wellformed_of_create {ns : List SimpleNode} {es : List SimpleEdge} {g : Graph}
    (h : Graph.create ns es = .ok g) : Wellformed g := by
  obtain ⟨nsb, out, hb, hf, hn, he, hm⟩ := create_ok h
  have hnsbIds : nsb.map (·.id) = ns.map (·.id) := by
    simpa using buildNodes_ids ns [] nsb hb
  have hnsNodup : (nsb.map (·.id)).Nodup := by
    rw [hnsbIds]
    simpa using (buildNodes_ok_iff ns [] (by simp)).mp ⟨nsb, hb⟩
  refine ⟨?_, ?_, ?_, ?_⟩
  · rw [hn, foldlM_addEdge_node_ids es nsb [] out hf]
    exact hnsNodup
  · rw [he, foldlM_addEdge_edge_ids es nsb [] out hf]
    simpa using ((foldlM_addEdge_ok_iff es nsb [] (by simp)).mp ⟨out, hf⟩).1
  · intro e hee
    rw [he] at hee
    obtain ⟨hpres, hinv⟩ := foldlM_addEdge_inv es nsb [] out hf
    rcases hinv e hee with h0 | hEI
    · cases h0
    · obtain ⟨-, -, ls, le, hls, hle, -⟩ := hEI
      constructor
      · rw [hn]
        obtain ⟨n0, hfind, -⟩ := Option.map_eq_some'.mp hls
        exact (find?_id_mem out.1 e.startNodeId).mp ⟨n0, hfind⟩
      · rw [hn]
        obtain ⟨n0, hfind, -⟩ := Option.map_eq_some'.mp hle
        exact (find?_id_mem out.1 e.endNodeId).mp ⟨n0, hfind⟩
  · intro n hnn i hi
    rw [hn] at hnn
    have hbase : ∀ x ∈ nsb, ∀ i2 ∈ x.edgeIds,
        ∃ e2 ∈ ([] : List Edge), e2.id = i2 ∧
          (e2.startNodeId = x.id ∨ e2.endNodeId = x.id) := by
      intro x hx i2 hi2
      rw [buildNodes_edgeIds_nil ns [] nsb hb
        (fun y hy => absurd hy (List.not_mem_nil y)) x hx] at hi2
      cases hi2
    obtain ⟨e2, he2, h1, h2⟩ := foldlM_addEdge_incidence es nsb [] out hf hbase n hnn i hi
    exact ⟨e2, by rw [he]; exact he2, h1, h2⟩

theorem getNodeOrThrow_ok {g : Graph} {i : NodeId} (h : i ∈ g.nodes.map (·.id)) :
    ∃ n, g.getNodeOrThrow i = .ok n ∧ n ∈ g.nodes ∧ n.id = i := by
  obtain ⟨n, hfind⟩ := (find?_id_mem g.nodes i).mpr h
  have hp := List.find?_some hfind
  have hni : n.id = i := by simpa using hp
  refine ⟨n, ?_, List.mem_of_find?_eq_some hfind, hni⟩
  unfold Graph.getNodeOrThrow Graph.getNode
  rw [hfind]

theorem getNodeOrThrow_self {g : Graph} (hwf : Wellformed g) {n : Node} (hn : n ∈ g.nodes) :
    g.getNodeOrThrow n.id = .ok n := by
  have hfind : g.nodes.find? (fun x => x.id = n.id) = some n :=
    node_find?_self_of_nodup g.nodes hwf.1 n hn
  unfold Graph.getNodeOrThrow Graph.getNode
  rw [hfind]

theorem getOtherEndpoint_ok {g : Graph} (hwf : Wellformed g) {nid : NodeId} {eid : EdgeId}
    {e : Edge} (he : e ∈ g.edges) (heid : e.id = eid)
    (hinc : e.startNodeId = nid ∨ e.endNodeId = nid) :
    ∃ m, g.getOtherEndpoint eid nid = .ok m ∧ m ∈ g.nodes ∧
      (e.startNodeId = nid ∨ e.startNodeId = m.id) ∧
      (e.endNodeId = nid ∨ e.endNodeId = m.id) := by
  subst heid
  have hge : g.getEdge e.id = some e := find?_self_of_nodup g.edges hwf.2.1 e he
  unfold Graph.getOtherEndpoint Graph.getEdgeOrThrow
  simp only [hge, bind, Except.bind]
  by_cases hs : e.startNodeId = nid
  · rw [if_pos hs]
    obtain ⟨m, hth, hmemN, hmid⟩ := getNodeOrThrow_ok (hwf.2.2.1 e he).2
    exact ⟨m, hth, hmemN, Or.inl hs, Or.inr hmid.symm⟩
  · rw [if_neg hs]
    rcases hinc with hcontr | ht
    · exact absurd hcontr hs
    · rw [if_pos ht]
      obtain ⟨m, hth, hmemN, hmid⟩ := getNodeOrThrow_ok (hwf.2.2.1 e he).1
      exact ⟨m, hth, hmemN, Or.inr hmid.symm, Or.inl ht⟩

theorem mapM_neighbors_ok {g : Graph} (hwf : Wellformed g) (nid : NodeId) :
    ∀ (l : List EdgeId),
      (∀ eid ∈ l, ∃ e ∈ g.edges, e.id = eid ∧ (e.startNodeId = nid ∨ e.endNodeId = nid)) →
      ∃ ms, l.mapM (fun edgeId => g.getOtherEndpoint edgeId nid) = .ok ms ∧
        (∀ m ∈ ms, m ∈ g.nodes) ∧
        ∀ eid ∈ l, ∀ e, g.getEdge eid = some e →
          (e.startNodeId = nid ∨ e.startNodeId ∈ ms.map (·.id)) ∧
          (e.endNodeId = nid ∨ e.endNodeId ∈ ms.map (·.id)) := by
  intro l
  induction l with
  | nil =>
    intro _
    refine ⟨[], ?_, ?_, ?_⟩
    · simp only [List.mapM_nil, pure, Except.pure]
    · intro m hmm; cases hmm
    · intro eid hmm; cases hmm
  | cons eid rest ih =>
    intro himg
    obtain ⟨e, he, heid, hinc⟩ := himg eid (List.mem_cons_self _ _)
    obtain ⟨m, hrun1, hmN, hms, hme⟩ := getOtherEndpoint_ok hwf he heid hinc
    obtain ⟨ms, hmsrun, hmsN, hmsE⟩ := ih (fun i hi => himg i (List.mem_cons_of_mem _ hi))
    have hgeE : g.getEdge eid = some e := by
      rw [← heid]
      exact find?_self_of_nodup g.edges hwf.2.1 e he
    refine ⟨m :: ms, ?_, ?_, ?_⟩
    · rw [List.mapM_cons]
      simp only [hrun1, hmsrun, bind, Except.bind, pure, Except.pure]
    · intro x hx
      rcases List.mem_cons.mp hx with heqx | hx
      · rw [heqx]; exact hmN
      · exact hmsN x hx
    · intro eid' hm' e' hge'
      rcases List.mem_cons.mp hm' with heq | hm'
      · subst heq
        have he'e : e' = e := Option.some.inj (hge'.symm.trans hgeE)
        subst he'e
        constructor
        · rcases hms with hcase | hcase
          · exact Or.inl hcase
          · refine Or.inr ?_
            rw [hcase]
            exact List.mem_map.mpr ⟨m, List.mem_cons_self _ _, rfl⟩
        · rcases hme with hcase | hcase
          · exact Or.inl hcase
          · refine Or.inr ?_
            rw [hcase]
            exact List.mem_map.mpr ⟨m, List.mem_cons_self _ _, rfl⟩
      · obtain ⟨h1, h2⟩ := hmsE eid' hm' e' hge'
        constructor
        · rcases h1 with hcase | hcase
          · exact Or.inl hcase
          · obtain ⟨x, hx, hxid⟩ := List.mem_map.mp hcase
            exact Or.inr (List.mem_map.mpr ⟨x, List.mem_cons_of_mem _ hx, hxid⟩)
        · rcases h2 with hcase | hcase
          · exact Or.inl hcase
          · obtain ⟨x, hx, hxid⟩ := List.mem_map.mp hcase
            exact Or.inr (List.mem_map.mpr ⟨x, List.mem_cons_of_mem _ hx, hxid⟩)

theorem getNeighbors_ok {g : Graph} (hwf : Wellformed g) {n : Node} (hn : n ∈ g.nodes) :
    ∃ ms, g.getNeighbors n.id = .ok ms ∧ (∀ m ∈ ms, m ∈ g.nodes) ∧
      ∀ eid ∈ n.edgeIds, ∀ e, g.getEdge eid = some e →
        (e.startNodeId = n.id ∨ e.startNodeId ∈ ms.map (·.id)) ∧
        (e.endNodeId = n.id ∨ e.endNodeId ∈ ms.map (·.id)) := by
  obtain ⟨ms, hrun, hN, hE⟩ := mapM_neighbors_ok hwf n.id n.edgeIds
    (fun eid hi => hwf.2.2.2 n hn eid hi)
  refine ⟨ms, ?_, hN, hE⟩
  unfold Graph.getNeighbors
  simp only [getNodeOrThrow_self hwf hn, bind, Except.bind]
  exact hrun

theorem addUnique_fold_inv : ∀ (l s : List EdgeId),
    (∀ i ∈ s, i ∈ l.foldl addUnique s) ∧
    (∀ i ∈ l.foldl addUnique s, i ∈ s ∨ i ∈ l) := by
  intro l
  induction l with
  | nil =>
    intro s
    exact ⟨fun i hi => hi, fun i hi => Or.inl hi⟩
  | cons a rest ih =>
    intro s
    rw [List.foldl_cons]
    obtain ⟨h1, h2⟩ := ih (addUnique s a)
    constructor
    · intro i hi
      refine h1 i ?_
      unfold addUnique
      by_cases hmem : a ∈ s
      · rw [if_pos hmem]; exact hi
      · rw [if_neg hmem]; exact List.mem_append_left _ hi
    · intro i hi
      rcases h2 i hi with hin | hin
      · unfold addUnique at hin
        by_cases hmem : a ∈ s
        · rw [if_pos hmem] at hin
          exact Or.inl hin
        · rw [if_neg hmem] at hin
          rcases List.mem_append.mp hin with hcase | hcase
          · exact Or.inl hcase
          · have : i = a := by simpa using hcase
            rw [this]
            exact Or.inr (List.mem_cons_self _ _)
      · exact Or.inr (List.mem_cons_of_mem _ hin)

theorem bfsMark_seen_mono (st : List NodeId × List Node) (a : Node) :
    ∀ i ∈ st.1, i ∈ (bfsMark st a).1 := by
  intro i hi
  unfold bfsMark
  by_cases h : a.id ∈ st.1
  · rw [if_pos h]; exact hi
  · rw [if_neg h]; exact List.mem_append_left _ hi

theorem bfsMark_seen_self (st : List NodeId × List Node) (a : Node) :
    a.id ∈ (bfsMark st a).1 := by
  unfold bfsMark
  by_cases h : a.id ∈ st.1
  · rw [if_pos h]; exact h
  · rw [if_neg h]; exact List.mem_append_right _ (List.mem_cons_self _ _)

theorem bfsMark_pending_src (st : List NodeId × List Node) (a : Node) :
    ∀ x ∈ (bfsMark st a).2, x ∈ st.2 ∨ x = a := by
  intro x hx
  unfold bfsMark at hx
  by_cases h : a.id ∈ st.1
  · rw [if_pos h] at hx
    exact Or.inl hx
  · rw [if_neg h] at hx
    rcases List.mem_append.mp hx with h1 | h1
    · exact Or.inl h1
    · exact Or.inr (by simpa using h1)

theorem bfsMark_pending_seen (st : List NodeId × List Node) (a : Node)
    (hbase : ∀ x ∈ st.2, x.id ∈ st.1) :
    ∀ x ∈ (bfsMark st a).2, x.id ∈ (bfsMark st a).1 := by
  intro x hx
  rcases bfsMark_pending_src st a x hx with h1 | h1
  · exact bfsMark_seen_mono st a _ (hbase x h1)
  · rw [h1]
    exact bfsMark_seen_self st a

theorem bfsMark_fold_inv : ∀ (ms : List Node) (st : List NodeId × List Node),
    (∀ i ∈ st.1, i ∈ (ms.foldl bfsMark st).1) ∧
    (∀ m ∈ ms, m.id ∈ (ms.foldl bfsMark st).1) ∧
    (∀ x ∈ (ms.foldl bfsMark st).2, x ∈ st.2 ∨ x ∈ ms) ∧
    ((∀ x ∈ st.2, x.id ∈ st.1) →
      ∀ x ∈ (ms.foldl bfsMark st).2, x.id ∈ (ms.foldl bfsMark st).1) := by
  intro ms
  induction ms with
  | nil =>
    intro st
    exact ⟨fun i hi => hi, fun m hm => absurd hm (List.not_mem_nil m),
      fun x hx => Or.inl hx, fun h x hx => h x hx⟩
  | cons a rest ih =>
    intro st
    rw [List.foldl_cons]
    obtain ⟨h1, h2, h3, h4⟩ := ih (bfsMark st a)
    refine ⟨?_, ?_, ?_, ?_⟩
    · intro i hi
      exact h1 i (bfsMark_seen_mono st a i hi)
    · intro m hm
      rcases List.mem_cons.mp hm with heq | hm
      · rw [heq]
        exact h1 _ (bfsMark_seen_self st a)
      · exact h2 m hm
    · intro x hx
      rcases h3 x hx with hcase | hcase
      · rcases bfsMark_pending_src st a x hcase with hc | hc
        · exact Or.inl hc
        · rw [hc]
          exact Or.inr (List.mem_cons_self _ _)
      · exact Or.inr (List.mem_cons_of_mem _ hcase)
    · intro hbase
      exact h4 (bfsMark_pending_seen st a hbase)

theorem bfsGo_ok {g : Graph} (hwf : Wellformed g) :
    ∀ (fuel : ℕ) (pending : List Node) (seen : List NodeId) (edgeIds : List EdgeId),
      (∀ n ∈ pending, n ∈ g.nodes) →
      (∀ n ∈ pending, n.id ∈ seen) →
      (∀ eid ∈ edgeIds, ∀ e, g.getEdge eid = some e →
        e.startNodeId ∈ seen ∧ e.endNodeId ∈ seen) →
      ∃ out, bfsGo g fuel pending seen edgeIds = .ok out ∧
        ∀ eid ∈ out.2, ∀ e, g.getEdge eid = some e →
          e.startNodeId ∈ out.1 ∧ e.endNodeId ∈ out.1 := by
  intro fuel
  induction fuel with
  | zero =>
    intro pending seen edgeIds _ _ hE
    exact ⟨(seen, edgeIds), rfl, hE⟩
  | succ fuel ih =>
    intro pending seen edgeIds hP hS hE
    by_cases hemp : pending.isEmpty = true
    · refine ⟨(seen, edgeIds), ?_, hE⟩
      simp only [bfsGo]
      rw [if_pos hemp]
    · have hpne : pending ≠ [] := by
        intro hc
        rw [hc] at hemp
        exact hemp rfl
      have hcn : pending.getLastD dummyNode ∈ g.nodes :=
        hP _ (getLastD_mem_of_ne_nil pending dummyNode hpne)
      obtain ⟨ms, hms, hmsN, hmsE⟩ := getNeighbors_ok hwf hcn
      obtain ⟨hm1, hm2, hm3, hm4⟩ :=
        bfsMark_fold_inv ms (seen, pending.take (pending.length - 1))
      obtain ⟨ha1, ha2⟩ := addUnique_fold_inv (pending.getLastD dummyNode).edgeIds edgeIds
      have hP2 : ∀ n ∈ (ms.foldl bfsMark (seen, pending.take (pending.length - 1))).2,
          n ∈ g.nodes := by
        intro x hx
        rcases hm3 x hx with hc | hc
        · exact hP x (List.take_subset _ _ hc)
        · exact hmsN x hc
      have hS2 : ∀ n ∈ (ms.foldl bfsMark (seen, pending.take (pending.length - 1))).2,
          n.id ∈ (ms.foldl bfsMark (seen, pending.take (pending.length - 1))).1 :=
        hm4 (fun x hx => hS x (List.take_subset _ _ hx))
      have hE2 : ∀ eid ∈ (pending.getLastD dummyNode).edgeIds.foldl addUnique edgeIds,
          ∀ e, g.getEdge eid = some e →
            e.startNodeId ∈ (ms.foldl bfsMark (seen, pending.take (pending.length - 1))).1 ∧
            e.endNodeId ∈ (ms.foldl bfsMark (seen, pending.take (pending.length - 1))).1 := by
        intro eid hmem e hee
        rcases ha2 eid hmem with hold | hnewm
        · obtain ⟨hs1, hs2⟩ := hE eid hold e hee
          exact ⟨hm1 _ hs1, hm1 _ hs2⟩
        · obtain ⟨hstart, hend⟩ := hmsE eid hnewm e hee
          constructor
          · rcases hstart with hcur | hin
            · rw [hcur]
              exact hm1 _ (hS _ (getLastD_mem_of_ne_nil pending dummyNode hpne))
            · obtain ⟨x, hxm, hxid⟩ := List.mem_map.mp hin
              rw [← hxid]
              exact hm2 x hxm
          · rcases hend with hcur | hin
            · rw [hcur]
              exact hm1 _ (hS _ (getLastD_mem_of_ne_nil pending dummyNode hpne))
            · obtain ⟨x, hxm, hxid⟩ := List.mem_map.mp hin
              rw [← hxid]
              exact hm2 x hxm
      obtain ⟨outp, houtp, houtE⟩ := ih
        ((ms.foldl bfsMark (seen, pending.take (pending.length - 1))).2)
        ((ms.foldl bfsMark (seen, pending.take (pending.length - 1))).1)
        ((pending.getLastD dummyNode).edgeIds.foldl addUnique edgeIds)
        hP2 hS2 hE2
      refine ⟨outp, ?_, houtE⟩
      simp only [bfsGo]
      rw [if_neg hemp]
      simp only [hms, bind, Except.bind]
      exact houtp

theorem mem_filtered_simple_ids {g : Graph} (sids : List NodeId) {i : NodeId}
    (hmem : i ∈ g.nodes.map (·.id)) (hin : i ∈ sids) :
    i ∈ ((g.getAllNodes.filter (fun n => n.id ∈ sids)).map
      (fun n => ({ id := n.id, location := n.location } : SimpleNode))).map (·.id) := by
  obtain ⟨m, hm, hmid⟩ := List.mem_map.mp hmem
  refine List.mem_map.mpr ⟨{ id := m.id, location := m.location }, ?_, hmid⟩
  refine List.mem_map.mpr ⟨m, ?_, rfl⟩
  refine List.mem_filter.mpr ⟨hm, ?_⟩
  rw [hmid]
  exact decide_eq_true hin

theorem getConnectedComponent_ok {g : Graph} (hwf : Wellformed g) {nodeId : NodeId}
    (hmem : nodeId ∈ g.nodes.map (·.id)) :
    ∃ g', g.getConnectedComponentOfNode nodeId = .ok g' := by
  obtain ⟨n, hthrow, hnmem, hnid⟩ := getNodeOrThrow_ok hmem
  obtain ⟨vis, hbfs, houtE⟩ := bfsGo_ok hwf (g.nodes.length + 1) [n] [n.id] []
    (by
      intro x hx
      rw [List.mem_singleton] at hx
      rw [hx]
      exact hnmem)
    (by
      intro x hx
      rw [List.mem_singleton] at hx
      rw [hx]
      exact List.mem_singleton.mpr rfl)
    (fun eid hx => absurd hx (List.not_mem_nil eid))
  have hnodupN : (((g.getAllNodes.filter (fun x => x.id ∈ vis.1)).map
      (fun x => ({ id := x.id, location := x.location } : SimpleNode))).map (·.id)).Nodup := by
    have hsub : ((g.getAllNodes.filter (fun x => x.id ∈ vis.1)).map (·.id)).Sublist
        (g.nodes.map (·.id)) := List.Sublist.map _ (List.filter_sublist _)
    have hnd := List.Nodup.sublist hsub hwf.1
    simpa [List.map_map, Function.comp] using hnd
  have hnodupE : (((g.getAllEdges.filter (fun x => x.id ∈ vis.2)).map
      Edge.toSimple).map (·.id)).Nodup := by
    have hsub : ((g.getAllEdges.filter (fun x => x.id ∈ vis.2)).map (·.id)).Sublist
        (g.edges.map (·.id)) := List.Sublist.map _ (List.filter_sublist _)
    have hnd := List.Nodup.sublist hsub hwf.2.1
    simpa [List.map_map, Function.comp, Edge.toSimple] using hnd
  obtain ⟨nsb2, hnsb2⟩ := (buildNodes_ok_iff ((g.getAllNodes.filter
      (fun x => x.id ∈ vis.1)).map
      (fun x => ({ id := x.id, location := x.location } : SimpleNode))) [] (by simp)).mpr
    (by simpa using hnodupN)
  have hnsb2Ids : nsb2.map (·.id) = ((g.getAllNodes.filter (fun x => x.id ∈ vis.1)).map
      (fun x => ({ id := x.id, location := x.location } : SimpleNode))).map (·.id) := by
    simpa using buildNodes_ids _ [] nsb2 hnsb2
  have hend : ∀ se ∈ (g.getAllEdges.filter (fun x => x.id ∈ vis.2)).map Edge.toSimple,
      se.startNodeId ∈ nsb2.map (·.id) ∧ se.endNodeId ∈ nsb2.map (·.id) := by
    intro se hse
    obtain ⟨e, hef, hes⟩ := List.mem_map.mp hse
    have hmf := List.mem_filter.mp hef
    have hein : e ∈ g.edges := hmf.1
    have heid : e.id ∈ vis.2 := of_decide_eq_true hmf.2
    have hge : g.getEdge e.id = some e := find?_self_of_nodup g.edges hwf.2.1 e hein
    obtain ⟨hstart, hstop⟩ := houtE e.id heid e hge
    rw [← hes, hnsb2Ids]
    exact ⟨mem_filtered_simple_ids vis.1 (hwf.2.2.1 e hein).1 hstart,
      mem_filtered_simple_ids vis.1 (hwf.2.2.1 e hein).2 hstop⟩
  obtain ⟨⟨ns2, es2⟩, hout2⟩ := (foldlM_addEdge_ok_iff
    ((g.getAllEdges.filter (fun x => x.id ∈ vis.2)).map Edge.toSimple) nsb2 []
    (by simp)).mpr ⟨by simpa using hnodupE, hend⟩
  refine ⟨{ nodes := ns2, edges := es2, mesh := none }, ?_⟩
  unfold Graph.getConnectedComponentOfNode
  simp only [hthrow, bind, Except.bind, hbfs]
  unfold Graph.create
  simp only [hnsb2, bind, Except.bind, hout2, pure, Except.pure]

/-- C10: for every graph built by a successful `Graph.create` and every node
ID present in it, `getConnectedComponentOfNode` cannot hit the construction
errors of the `Graph.create` call it makes internally: the traversal only
collects edges whose two endpoints end up in the collected node-id set, and
the node and edge lists obtained by filtering `getAllNodes`/`getAllEdges`
inherit duplicate-freeness, so the internal `Graph.create` succeeds and the
whole call returns a graph. -/
theorem C10_component_create_safe (ns : List SimpleNode) (es : List SimpleEdge) (g : Graph)
    (h : Graph.create ns es = .ok g) (nodeId : NodeId)
    (hmem : nodeId ∈ g.nodes.map (·.id)) :
    ∃ g', g.getConnectedComponentOfNode nodeId = .ok g' :=
  getConnectedComponent_ok (wellformed_of_create h) hmem

/-- C10 (witness): the safety theorem applied to a concrete created two-node
graph at its first node id. -/
theorem C10_witness :
    Graph.create witNodesC8 witEdgesC8 = .ok witGraphC8 ∧
    (Id.int 0) ∈ witGraphC8.nodes.map (·.id) ∧
    ∃ g', witGraphC8.getConnectedComponentOfNode (.int 0) = .ok g' := by
  have hc : Graph.create witNodesC8 witEdgesC8 = .ok witGraphC8 := by
    simp [Graph.create, buildNodes, addEdge, mkDerivedEdge, pushEdgeId,
      witNodesC8, witEdgesC8, witGraphC8, witNodeRec0, witNodeRec1, witEdgeRec,
      Utils.getCumulativeDistances, Utils.cumulFrom, Utils.distanceBetween,
      bind, Except.bind, pure, Except.pure, List.find?]
  refine ⟨hc, by simp [witGraphC8, witNodeRec0, witNodeRec1], ?_⟩
  exact C10_component_create_safe witNodesC8 witEdgesC8 witGraphC8 hc (.int 0)
    (by simp [witGraphC8, witNodeRec0, witNodeRec1])

theorem contribS_cons (nid : NodeId) (e : SimpleEdge) (rest : List SimpleEdge) :
    contribS nid (e :: rest) =
      ((if e.startNodeId = nid then [e.id] else []) ++
        (if e.endNodeId = nid then [e.id] else [])) ++ contribS nid rest := rfl

theorem pushEdgeId_pushEdgeId (ns : List Node) (s t : NodeId) (eid : EdgeId) :
    pushEdgeId (pushEdgeId ns s eid) t eid =
      ns.map (fun n =>
        { n with edgeIds := n.edgeIds ++
            ((if s = n.id then [eid] else []) ++ (if t = n.id then [eid] else [])) }) := by
  unfold pushEdgeId
  rw [List.map_map]
  apply List.map_congr_left
  intro n _
  simp only [Function.comp]
  by_cases hs : n.id = s
  · rw [if_pos hs]
    by_cases ht : n.id = t
    · rw [if_pos (show ({ n with edgeIds := n.edgeIds ++ [eid] } : Node).id = t from ht),
        if_pos (show s = n.id from hs.symm), if_pos (show t = n.id from ht.symm)]
      simp
    · rw [if_neg (show ¬ ({ n with edgeIds := n.edgeIds ++ [eid] } : Node).id = t from ht),
        if_pos (show s = n.id from hs.symm), if_neg (fun hc => ht hc.symm)]
      simp
  · rw [if_neg hs]
    by_cases ht : n.id = t
    · rw [if_pos ht, if_neg (fun hc => hs hc.symm), if_pos (show t = n.id from ht.symm)]
      simp
    · rw [if_neg ht, if_neg (fun hc => hs hc.symm), if_neg (fun hc => ht hc.symm)]
      simp

theorem foldlM_addEdge_edgeIds :
    ∀ (es : List SimpleEdge) (ns : List Node) (acc : List Edge)
      (out : List Node × List Edge),
      es.foldlM addEdge (ns, acc) = .ok out →
      out.1 = ns.map (fun n => { n with edgeIds := n.edgeIds ++ contribS n.id es }) := by
  intro es
  induction es with
  | nil =>
    intro ns acc out h
    simp only [List.foldlM_nil, pure, Except.pure, Except.ok.injEq] at h
    subst h
    have hpt : ∀ n ∈ ns,
        ({ n with edgeIds := n.edgeIds ++ contribS n.id [] } : Node) = id n := by
      intro n _
      simp [contribS]
    rw [List.map_congr_left hpt, List.map_id]
  | cons e rest ih =>
    intro ns acc out h
    rw [List.foldlM_cons] at h
    cases ha : addEdge (ns, acc) e with
    | error m => rw [ha] at h; cases h
    | ok st' =>
      rw [ha] at h
      simp only [bind, Except.bind] at h
      obtain ⟨sn, tn, hfs, hft, hout⟩ := addEdge_ok ha
      subst hout
      rw [ih _ _ _ h, pushEdgeId_pushEdgeId, List.map_map]
      apply List.map_congr_left
      intro n _
      simp only [Function.comp]
      rw [contribS_cons]
      simp [List.append_assoc]

theorem created_edgeIds {ns : List SimpleNode} {es : List SimpleEdge} {g : Graph}
    (h : Graph.create ns es = .ok g) :
    ∀ n ∈ g.nodes, n.edgeIds = contribS n.id es := by
  obtain ⟨nsb, out, hb, hf, hn, he, hm⟩ := create_ok h
  have hmap := foldlM_addEdge_edgeIds es nsb [] out hf
  intro n hnn
  rw [hn, hmap] at hnn
  obtain ⟨n0, hn0, heq⟩ := List.mem_map.mp hnn
  have h0 : n0.edgeIds = [] :=
    buildNodes_edgeIds_nil ns [] nsb hb (fun y hy => absurd hy (List.not_mem_nil y)) n0 hn0
  rw [← heq]
  show n0.edgeIds ++ contribS n0.id es = contribS n0.id es
  rw [h0]
  simp

theorem mkDerivedEdge_startNodeId (e : SimpleEdge) (sn tn : Node) :
    (mkDerivedEdge e sn tn).startNodeId = e.startNodeId := rfl

theorem mkDerivedEdge_endNodeId (e : SimpleEdge) (sn tn : Node) :
    (mkDerivedEdge e sn tn).endNodeId = e.endNodeId := rfl

theorem foldlM_addEdge_triples :
    ∀ (es : List SimpleEdge) (ns : List Node) (acc : List Edge)
      (out : List Node × List Edge),
      es.foldlM addEdge (ns, acc) = .ok out →
      out.2.map (fun e => (e.id, e.startNodeId, e.endNodeId)) =
        acc.map (fun e => (e.id, e.startNodeId, e.endNodeId)) ++
          es.map (fun e => (e.id, e.startNodeId, e.endNodeId)) := by
  intro es
  induction es with
  | nil =>
    intro ns acc out h
    simp only [List.foldlM_nil, pure, Except.pure, Except.ok.injEq] at h
    subst h
    simp
  | cons e rest ih =>
    intro ns acc out h
    rw [List.foldlM_cons] at h
    cases ha : addEdge (ns, acc) e with
    | error m => rw [ha] at h; cases h
    | ok st' =>
      rw [ha] at h
      simp only [bind, Except.bind] at h
      obtain ⟨sn, tn, hfs, hft, hout⟩ := addEdge_ok ha
      subst hout
      rw [ih _ _ _ h]
      simp [mkDerivedEdge_id, mkDerivedEdge_startNodeId, mkDerivedEdge_endNodeId]

theorem contribE_eq_contribS (nid : NodeId) :
    ∀ (l : List Edge) (es : List SimpleEdge),
      l.map (fun e => (e.id, e.startNodeId, e.endNodeId)) =
        es.map (fun e => (e.id, e.startNodeId, e.endNodeId)) →
      contribE nid l = contribS nid es := by
  intro l
  induction l with
  | nil =>
    intro es h
    cases es with
    | nil => rfl
    | cons e es2 => cases h
  | cons a l2 ih =>
    intro es h
    cases es with
    | nil => cases h
    | cons e es2 =>
      simp only [List.map_cons, List.cons.injEq, Prod.mk.injEq] at h
      obtain ⟨⟨h1, h2, h3⟩, h4⟩ := h
      unfold contribE contribS
      rw [h1, h2, h3, ih es2 h4]

theorem created_edgeIds_contribE {ns : List SimpleNode} {es : List SimpleEdge} {g : Graph}
    (h : Graph.create ns es = .ok g) :
    ∀ n ∈ g.nodes, n.edgeIds = contribE n.id g.edges := by
  obtain ⟨nsb, out, hb, hf, hn, he, hm⟩ := create_ok h
  have htr := foldlM_addEdge_triples es nsb [] out hf
  intro n hnn
  rw [created_edgeIds h n hnn]
  refine (contribE_eq_contribS n.id g.edges es ?_).symm
  rw [he, htr]
  simp

theorem contribS_mem (nid : NodeId) (se : SimpleEdge) :
    ∀ (es : List SimpleEdge), se ∈ es →
      (se.startNodeId = nid ∨ se.endNodeId = nid) → se.id ∈ contribS nid es := by
  intro es
  induction es with
  | nil => intro hse _; cases hse
  | cons a rest ih =>
    intro hse hinc
    unfold contribS
    rcases List.mem_cons.mp hse with heq | hmem
    · subst heq
      rcases hinc with hca | hca
      · refine List.mem_append_left _ (List.mem_append_left _ ?_)
        rw [if_pos hca]
        exact List.mem_singleton.mpr rfl
      · refine List.mem_append_left _ (List.mem_append_right _ ?_)
        rw [if_pos hca]
        exact List.mem_singleton.mpr rfl
    · exact List.mem_append_right _ (ih hmem hinc)

theorem created_incident {ns : List SimpleNode} {es : List SimpleEdge} {g : Graph}
    (h : Graph.create ns es = .ok g) :
    ∀ e ∈ g.edges, ∀ n ∈ g.nodes, n.id = e.startNodeId ∨ n.id = e.endNodeId →
      e.id ∈ n.edgeIds := by
  obtain ⟨nsb, out, hb, hf, hn, he, hm⟩ := create_ok h
  have htr := foldlM_addEdge_triples es nsb [] out hf
  intro e hee n hnn hinc
  rw [created_edgeIds h n hnn]
  have hmemtr : (e.id, e.startNodeId, e.endNodeId) ∈
      es.map (fun x => (x.id, x.startNodeId, x.endNodeId)) := by
    have hmm : (e.id, e.startNodeId, e.endNodeId) ∈
        out.2.map (fun x => (x.id, x.startNodeId, x.endNodeId)) :=
      List.mem_map.mpr ⟨e, he ▸ hee, rfl⟩
    rw [htr] at hmm
    simpa using hmm
  obtain ⟨se, hsem, hseq⟩ := List.mem_map.mp hmemtr
  simp only [Prod.mk.injEq] at hseq
  obtain ⟨hq1, hq2, hq3⟩ := hseq
  rw [← hq1]
  apply contribS_mem n.id se es hsem
  rcases hinc with hc | hc
  · exact Or.inl (by rw [hq2, ← hc])
  · exact Or.inr (by rw [hq3, ← hc])

theorem contribE_count_not_mem (nid : NodeId) (i : EdgeId) :
    ∀ (l : List Edge), i ∉ l.map (·.id) → (contribE nid l).count i = 0 := by
  intro l
  induction l with
  | nil => intro _; rfl
  | cons a rest ih =>
    intro hmem
    have hane : a.id ≠ i := by
      intro hc
      exact hmem (by rw [← hc]; exact List.mem_map.mpr ⟨a, List.mem_cons_self _ _, rfl⟩)
    have hrest : i ∉ rest.map (·.id) := by
      intro hc
      exact hmem (by rw [List.map_cons]; exact List.mem_cons_of_mem _ hc)
    unfold contribE
    rw [List.count_append, List.count_append, ih hrest]
    have h1 : (if a.startNodeId = nid then [a.id] else []).count i = 0 := by
      by_cases hc : a.startNodeId = nid
      · rw [if_pos hc]
        simp [List.count_cons, hane, Ne.symm hane]
      · rw [if_neg hc]
        rfl
    have h2 : (if a.endNodeId = nid then [a.id] else []).count i = 0 := by
      by_cases hc : a.endNodeId = nid
      · rw [if_pos hc]
        simp [List.count_cons, hane, Ne.symm hane]
      · rw [if_neg hc]
        rfl
    rw [h1, h2]

theorem contribE_count (nid : NodeId) (e : Edge) :
    ∀ (l : List Edge), (l.map (·.id)).Nodup → e ∈ l →
      (contribE nid l).count e.id =
        (if e.startNodeId = nid then 1 else 0) + (if e.endNodeId = nid then 1 else 0) := by
  intro l
  induction l with
  | nil => intro _ hmem; cases hmem
  | cons a rest ih =>
    intro hnd hmem
    simp only [List.map_cons, List.nodup_cons] at hnd
    unfold contribE
    rw [List.count_append, List.count_append]
    rcases List.mem_cons.mp hmem with heq | hmem2
    · subst heq
      have hnored : e.id ∉ rest.map (·.id) := hnd.1
      rw [contribE_count_not_mem nid e.id rest hnored]
      have h1 : (if e.startNodeId = nid then [e.id] else []).count e.id =
          (if e.startNodeId = nid then 1 else 0) := by
        by_cases hc : e.startNodeId = nid
        · rw [if_pos hc, if_pos hc]
          simp
        · rw [if_neg hc, if_neg hc]
          rfl
      have h2 : (if e.endNodeId = nid then [e.id] else []).count e.id =
          (if e.endNodeId = nid then 1 else 0) := by
        by_cases hc : e.endNodeId = nid
        · rw [if_pos hc, if_pos hc]
          simp
        · rw [if_neg hc, if_neg hc]
          rfl
      rw [h1, h2]
      omega
    · have hane : a.id ≠ e.id := by
        intro hc
        exact hnd.1 (by rw [hc]; exact List.mem_map.mpr ⟨e, hmem2, rfl⟩)
      have h1 : (if a.startNodeId = nid then [a.id] else []).count e.id = 0 := by
        by_cases hc : a.startNodeId = nid
        · rw [if_pos hc]
          simp [List.count_cons, hane, Ne.symm hane]
        · rw [if_neg hc]
          rfl
      have h2 : (if a.endNodeId = nid then [a.id] else []).count e.id = 0 := by
        by_cases hc : a.endNodeId = nid
        · rw [if_pos hc]
          simp [List.count_cons, hane, Ne.symm hane]
        · rw [if_neg hc]
          rfl
      rw [h1, h2, ih hnd.2 hmem2]
      omega

theorem created_slot_count {ns : List SimpleNode} {es : List SimpleEdge} {g : Graph}
    (h : Graph.create ns es = .ok g) :
    ∀ n ∈ g.nodes, ∀ e ∈ g.edges,
      n.edgeIds.count e.id =
        (if e.startNodeId = n.id then 1 else 0) + (if e.endNodeId = n.id then 1 else 0) := by
  intro n hn e he
  rw [created_edgeIds_contribE h n hn]
  exact contribE_count n.id e g.edges (wellformed_of_create h).2.1 he

theorem getNode_mem {g : Graph} {i : NodeId} {n : Node} (h : g.getNode i = some n) :
    n ∈ g.nodes ∧ n.id = i := by
  unfold Graph.getNode at h
  refine ⟨List.mem_of_find?_eq_some h, ?_⟩
  have hp := List.find?_some h
  simpa using hp

theorem getNode_self {g : Graph} (hnd : (g.nodes.map (·.id)).Nodup) {n : Node}
    (hn : n ∈ g.nodes) : g.getNode n.id = some n :=
  node_find?_self_of_nodup g.nodes hnd n hn

theorem source_rev (o : OrientedEdge) :
    OrientedEdge.source { edge := o.edge, isForward := !o.isForward } =
      OrientedEdge.target o := by
  cases o with
  | mk e f => cases f <;> rfl

theorem target_rev (o : OrientedEdge) :
    OrientedEdge.target { edge := o.edge, isForward := !o.isForward } =
      OrientedEdge.source o := by
  cases o with
  | mk e f => cases f <;> rfl

theorem target_mem_endpoints (o : OrientedEdge) :
    OrientedEdge.target o = o.edge.startNodeId ∨
      OrientedEdge.target o = o.edge.endNodeId := by
  unfold OrientedEdge.target
  by_cases hf : o.isForward
  · rw [if_pos hf]
    exact Or.inr rfl
  · rw [if_neg hf]
    exact Or.inl rfl

theorem source_mem_endpoints (o : OrientedEdge) :
    OrientedEdge.source o = o.edge.startNodeId ∨
      OrientedEdge.source o = o.edge.endNodeId := by
  unfold OrientedEdge.source
  by_cases hf : o.isForward
  · rw [if_pos hf]
    exact Or.inl rfl
  · rw [if_neg hf]
    exact Or.inr rfl

theorem self_loop_source_target {o : OrientedEdge}
    (h : o.edge.startNodeId = o.edge.endNodeId) :
    OrientedEdge.source o = OrientedEdge.target o := by
  unfold OrientedEdge.source OrientedEdge.target
  by_cases hf : o.isForward
  · rw [if_pos hf, if_pos hf, h]
  · rw [if_neg hf, if_neg hf, h]

theorem linkedAt_rev {g : Graph} {o o' : OrientedEdge} (h : LinkedAt g o o') :
    LinkedAt g { edge := o'.edge, isForward := !o'.isForward }
      { edge := o.edge, isForward := !o.isForward } := by
  obtain ⟨htgt, n, hn, hlen, hmo, hmo', hne⟩ := h
  refine ⟨?_, n, ?_, hlen, hmo', hmo, fun hc => hne hc.symm⟩
  · rw [target_rev, source_rev, htgt]
  · rw [target_rev, ← htgt]
    exact hn

theorem edge_eq_of_id {g : Graph} (hwf : Wellformed g) {a b : Edge}
    (ha : a ∈ g.edges) (hb : b ∈ g.edges) (hid : a.id = b.id) : a = b :=
  List.inj_on_of_nodup_map hwf.2.1 ha hb hid

theorem node_eq_of_id {g : Graph} (hwf : Wellformed g) {a b : Node}
    (ha : a ∈ g.nodes) (hb : b ∈ g.nodes) (hid : a.id = b.id) : a = b :=
  List.inj_on_of_nodup_map hwf.1 ha hb hid

theorem sel_mem_slots {l : List EdgeId} (hlen : l.length = 2) (i : EdgeId) :
    (if i = l.getD 0 (.int 0) then l.getD 1 (.int 0) else l.getD 0 (.int 0)) ∈ l := by
  by_cases hc : i = l.getD 0 (.int 0)
  · rw [if_pos hc, List.getD_eq_getElem _ _ (by omega : 1 < l.length)]
    exact List.getElem_mem _
  · rw [if_neg hc, List.getD_eq_getElem _ _ (by omega : 0 < l.length)]
    exact List.getElem_mem _

theorem arrival_slot {g : Graph}
    (hW6 : ∀ e ∈ g.edges, ∀ n ∈ g.nodes,
      n.id = e.startNodeId ∨ n.id = e.endNodeId → e.id ∈ n.edgeIds)
    {o : OrientedEdge} (ho : o.edge ∈ g.edges) {n : Node}
    (hn : g.getNode (OrientedEdge.target o) = some n) : o.edge.id ∈ n.edgeIds := by
  obtain ⟨hmem, hid⟩ := getNode_mem hn
  refine hW6 o.edge ho n hmem ?_
  rcases target_mem_endpoints o with hc | hc
  · exact Or.inl (by rw [hid, hc])
  · exact Or.inr (by rw [hid, hc])

theorem walkStep_next_mem {g : Graph} {o o' : OrientedEdge} (h : WalkStep g o o') :
    ∀ {n : Node}, g.getNode (OrientedEdge.target o) = some n → o'.edge.id ∈ n.edgeIds := by
  intro n hn
  obtain ⟨n2, hn2, hlen, hmem, hsel, hfwd⟩ := h
  rw [hn] at hn2
  have hn2' : n = n2 := Option.some.inj hn2
  subst hn2'
  rw [hsel]
  exact sel_mem_slots hlen o.edge.id

theorem walkStep_source {g : Graph} (hwf : Wellformed g)
    {o o' : OrientedEdge} (h : WalkStep g o o') :
    OrientedEdge.source o' = OrientedEdge.target o := by
  obtain ⟨n, hn, hlen, hmem', hsel, hfwd⟩ := h
  have hslot : o'.edge.id ∈ n.edgeIds := by
    rw [hsel]
    exact sel_mem_slots hlen o.edge.id
  obtain ⟨nmem, hnid⟩ := getNode_mem hn
  obtain ⟨x, hx, hxid, hxend⟩ := hwf.2.2.2 n nmem o'.edge.id hslot
  have hxe : x = o'.edge := edge_eq_of_id hwf hx hmem' hxid
  subst hxe
  unfold OrientedEdge.source
  cases hdec : decide (o'.edge.startNodeId = OrientedEdge.target o) with
  | true =>
    rw [hdec] at hfwd
    rw [if_pos hfwd]
    exact of_decide_eq_true hdec
  | false =>
    rw [hdec] at hfwd
    rw [if_neg (by rw [hfwd]; exact Bool.false_ne_true)]
    have hne : ¬ o'.edge.startNodeId = OrientedEdge.target o := of_decide_eq_false hdec
    rcases hxend with hc | hc
    · exact absurd (by rw [hc, hnid]) hne
    · rw [hc, hnid]

theorem walkStep_linked {g : Graph} (hwf : Wellformed g)
    (hW6 : ∀ e ∈ g.edges, ∀ n ∈ g.nodes,
      n.id = e.startNodeId ∨ n.id = e.endNodeId → e.id ∈ n.edgeIds)
    {o o' : OrientedEdge} (ho : o.edge ∈ g.edges)
    (h : WalkStep g o o') (hne : o.edge.id ≠ o'.edge.id) : LinkedAt g o o' := by
  refine ⟨(walkStep_source hwf h).symm, ?_⟩
  obtain ⟨n, hn, hlen, hmem', hsel, hfwd⟩ := h
  exact ⟨n, hn, hlen, arrival_slot hW6 ho hn,
    walkStep_next_mem ⟨n, hn, hlen, hmem', hsel, hfwd⟩ hn, hne⟩

theorem nodup_middle_ne {u v : List OrientedEdge} {x y : OrientedEdge}
    (h : ((u ++ x :: y :: v).map (·.edge.id)).Nodup) : x.edge.id ≠ y.edge.id := by
  intro hc
  rw [List.map_append, List.map_cons, List.map_cons] at h
  obtain ⟨-, h2, -⟩ := List.nodup_append.mp h
  rw [List.nodup_cons] at h2
  exact h2.1 (by rw [hc]; exact List.mem_cons_self _ _)

theorem chain'_pair {α : Type} {R : α → α → Prop} {u v : List α} {x y : α}
    (h : List.Chain' R (u ++ x :: y :: v)) : R x y := by
  have hinf : [x, y] <:+: (u ++ x :: y :: v) := ⟨u, v, by simp⟩
  have h2 := h.infix hinf
  exact (List.chain'_cons.mp h2).1

theorem chain'_wchain {g : Graph} (hwf : Wellformed g)
    (hW6 : ∀ e ∈ g.edges, ∀ n ∈ g.nodes,
      n.id = e.startNodeId ∨ n.id = e.endNodeId → e.id ∈ n.edgeIds) :
    ∀ (l : List OrientedEdge), List.Chain' (WalkStep g) l →
      (∀ o ∈ l, o.edge ∈ g.edges) → ((l.map (·.edge.id)).Nodup) →
      List.Chain' (LinkedAt g) l := by
  intro l
  induction l with
  | nil => intro _ _ _; exact List.chain'_nil
  | cons a rest ih =>
    intro hc hmem hnd
    cases rest with
    | nil => simp
    | cons b r2 =>
      rw [List.chain'_cons] at hc ⊢
      refine ⟨?_, ih hc.2 (fun o ho => hmem o (List.mem_cons_of_mem _ ho)) ?_⟩
      · refine walkStep_linked hwf hW6 (hmem a (List.mem_cons_self _ _)) hc.1 ?_
        exact nodup_middle_ne (u := []) (v := r2) hnd
      · rw [List.map_cons] at hnd
        exact (List.nodup_cons.mp hnd).2

theorem nodup_concat_ne {l : List OrientedEdge} {x y : OrientedEdge}
    (h : ((l ++ [y]).map (·.edge.id)).Nodup) (hx : x ∈ l) : x.edge.id ≠ y.edge.id := by
  intro hc
  rw [List.map_append] at h
  obtain ⟨-, -, hdisj⟩ := List.nodup_append.mp h
  exact hdisj (List.mem_map.mpr ⟨x, hx, rfl⟩) (by simp [hc])

theorem headD_append_left {l l' : List OrientedEdge} (h : l ≠ []) (d : OrientedEdge) :
    (l ++ l').headD d = l.headD d := by
  cases l with
  | nil => exact absurd rfl h
  | cons a t => rfl

theorem endpoints_eq_source_target (o : OrientedEdge) :
    (o.edge.startNodeId = OrientedEdge.source o ∧
      o.edge.endNodeId = OrientedEdge.target o) ∨
    (o.edge.startNodeId = OrientedEdge.target o ∧
      o.edge.endNodeId = OrientedEdge.source o) := by
  unfold OrientedEdge.source OrientedEdge.target
  by_cases hf : o.isForward = true
  · rw [if_pos hf, if_pos hf]
    exact Or.inl ⟨rfl, rfl⟩
  · rw [if_neg hf, if_neg hf]
    exact Or.inr ⟨rfl, rfl⟩

theorem self_loop_of_source_eq_target {o : OrientedEdge}
    (h : OrientedEdge.source o = OrientedEdge.target o) :
    o.edge.startNodeId = o.edge.endNodeId := by
  unfold OrientedEdge.source OrientedEdge.target at h
  by_cases hf : o.isForward = true
  · rw [if_pos hf, if_pos hf] at h
    exact h
  · rw [if_neg hf, if_neg hf] at h
    exact h.symm

theorem slots_self_loop {g : Graph}
    (hSlots : ∀ n ∈ g.nodes, ∀ e ∈ g.edges,
      n.edgeIds.count e.id =
        (if e.startNodeId = n.id then 1 else 0) + (if e.endNodeId = n.id then 1 else 0))
    {n : Node} (hn : n ∈ g.nodes) {e : Edge} (he : e ∈ g.edges)
    (hcount : 2 ≤ n.edgeIds.count e.id) :
    e.startNodeId = n.id ∧ e.endNodeId = n.id := by
  have hc := hSlots n hn e he
  rw [hc] at hcount
  by_cases h1 : e.startNodeId = n.id
  · by_cases h2 : e.endNodeId = n.id
    · exact ⟨h1, h2⟩
    · rw [if_pos h1, if_neg h2] at hcount
      omega
  · rw [if_neg h1] at hcount
    by_cases h2 : e.endNodeId = n.id
    · rw [if_pos h2] at hcount
      omega
    · rw [if_neg h2] at hcount
      omega

theorem self_loop_slots_pair {g : Graph}
    (hSlots : ∀ n ∈ g.nodes, ∀ e ∈ g.edges,
      n.edgeIds.count e.id =
        (if e.startNodeId = n.id then 1 else 0) + (if e.endNodeId = n.id then 1 else 0))
    {n : Node} (hn : n ∈ g.nodes) {e : Edge} (he : e ∈ g.edges)
    (hstart : e.startNodeId = n.id) (hend : e.endNodeId = n.id)
    {a b : EdgeId} (hab : n.edgeIds = [a, b]) : a = e.id ∧ b = e.id := by
  have hc := hSlots n hn e he
  rw [hab, if_pos hstart, if_pos hend] at hc
  by_cases ha : a = e.id
  · by_cases hb2 : b = e.id
    · exact ⟨ha, hb2⟩
    · exfalso
      simp [List.count_cons, ha, hb2] at hc
  · exfalso
    by_cases hb2 : b = e.id
    · simp [List.count_cons, ha, hb2] at hc
    · simp [List.count_cons, ha, hb2] at hc

theorem length_le_of_nodup_ids {g : Graph} :
    ∀ (l : List OrientedEdge), ((l.map (·.edge.id)).Nodup) →
      (∀ o ∈ l, o.edge ∈ g.edges) → l.length ≤ g.edges.length := by
  intro l hnd hmem
  have hsub : (l.map (·.edge.id)) ⊆ g.edges.map (·.id) := by
    intro i hi
    obtain ⟨o, ho, hoi⟩ := List.mem_map.mp hi
    exact List.mem_map.mpr ⟨o.edge, hmem o ho, hoi⟩
  have hsp := List.subperm_of_subset hnd hsub
  have hle := hsp.length_le
  rw [List.length_map, List.length_map] at hle
  exact hle

theorem walk_fresh {g : Graph} (hwf : Wellformed g)
    (hW6 : ∀ e ∈ g.edges, ∀ n ∈ g.nodes,
      n.id = e.startNodeId ∨ n.id = e.endNodeId → e.id ∈ n.edgeIds)
    (hSlots : ∀ n ∈ g.nodes, ∀ e ∈ g.edges,
      n.edgeIds.count e.id =
        (if e.startNodeId = n.id then 1 else 0) + (if e.endNodeId = n.id then 1 else 0))
    {se cur next : OrientedEdge} {path : List OrientedEdge}
    (hA3 : ∀ o ∈ path ++ [cur], o.edge ∈ g.edges)
    (hA4 : List.Chain' (WalkStep g) (path ++ [cur]))
    (hA5 : (path ++ [cur]).headD dummyOrientedEdge = se)
    (hA6 : ((path ++ [cur]).map (·.edge.id)).Nodup)
    (hstep : WalkStep g cur next)
    (hne : next.edge.id ≠ se.edge.id) :
    next.edge.id ∉ (path ++ [cur]).map (·.edge.id) := by
  intro hmem
  obtain ⟨n, hgn, hdeg, hxmem, hsel, hfwd⟩ := hstep
  have hstep' : WalkStep g cur next := ⟨n, hgn, hdeg, hxmem, hsel, hfwd⟩
  have hcurmem : cur.edge ∈ g.edges := hA3 cur (by simp)
  have hcurslot : cur.edge.id ∈ n.edgeIds := arrival_slot hW6 hcurmem hgn
  have hnextslot : next.edge.id ∈ n.edgeIds := walkStep_next_mem hstep' hgn
  obtain ⟨nmem, hnid⟩ := getNode_mem hgn
  obtain ⟨a, b, hab⟩ := List.length_eq_two.mp hdeg
  by_cases hAB : next.edge.id = cur.edge.id
  · rw [hab] at hsel
    simp only [List.getD_cons_zero, List.getD_cons_succ] at hsel
    have hab2 : n.edgeIds = [cur.edge.id, cur.edge.id] := by
      by_cases hca : cur.edge.id = a
      · rw [if_pos hca] at hsel
        rw [hab, ← hca, ← hsel, hAB]
      · rw [if_neg hca] at hsel
        exact absurd (by rw [← hAB, hsel]) hca
    rcases List.eq_nil_or_concat path with hnil | ⟨p', prev, hp⟩
    · subst hnil
      have hcse : cur = se := by simpa using hA5
      rw [← hcse] at hne
      exact hne hAB
    · rw [List.concat_eq_append] at hp
      subst hp
      have hpstep : WalkStep g prev cur := by
        refine chain'_pair (u := p') (v := []) ?_
        rw [show p' ++ prev :: cur :: [] = (p' ++ [prev]) ++ [cur] by simp]
        exact hA4
      have hsrcn : OrientedEdge.source cur = n.id := by
        have hself : cur.edge.startNodeId = n.id ∧ cur.edge.endNodeId = n.id := by
          refine slots_self_loop hSlots nmem hcurmem ?_
          rw [hab2]
          simp
        rcases source_mem_endpoints cur with hc | hc
        · rw [hc, hself.1]
        · rw [hc, hself.2]
      have htp : OrientedEdge.target prev = n.id := by
        rw [← walkStep_source hwf hpstep, hsrcn]
      have hprevmem : prev.edge ∈ g.edges := hA3 prev (by simp)
      have hparr : prev.edge.id ∈ n.edgeIds := by
        refine arrival_slot hW6 hprevmem ?_
        rw [htp]
        exact getNode_self hwf.1 nmem
      rw [hab2] at hparr
      have hpc : prev.edge.id = cur.edge.id := by simpa using hparr
      exact (nodup_concat_ne hA6 (by simp : prev ∈ p' ++ [prev])) hpc
  · have hmem2 : next.edge.id ∈ path.map (·.edge.id) := by
      rw [List.map_append] at hmem
      rcases List.mem_append.mp hmem with hc | hc
      · exact hc
      · exact absurd (by simpa using hc) hAB
    obtain ⟨ok, hok, hokid⟩ := List.mem_map.mp hmem2
    have hcur_ab : cur.edge.id = a ∨ cur.edge.id = b := by
      rw [hab] at hcurslot
      simpa using hcurslot
    have hnext_ab : next.edge.id = a ∨ next.edge.id = b := by
      rw [hab] at hnextslot
      simpa using hnextslot
    have hslotchar : ∀ i, i ∈ n.edgeIds → i = cur.edge.id ∨ i = next.edge.id := by
      intro i hi
      rw [hab] at hi
      have hi2 : i = a ∨ i = b := by simpa using hi
      rcases hcur_ab with hca | hca <;> rcases hnext_ab with hna | hna
      · exact absurd (hna.trans hca.symm) hAB
      · rcases hi2 with hc | hc
        · exact Or.inl (by rw [hc, hca])
        · exact Or.inr (by rw [hc, hna])
      · rcases hi2 with hc | hc
        · exact Or.inr (by rw [hc, hna])
        · exact Or.inl (by rw [hc, hca])
      · exact absurd (hna.trans hca.symm) hAB
    obtain ⟨x, hx, hxid, hxend⟩ := hwf.2.2.2 n nmem next.edge.id hnextslot
    have hxok : x = ok.edge := by
      refine edge_eq_of_id hwf hx (hA3 ok (List.mem_append_left _ hok)) ?_
      rw [hxid, hokid]
    rw [hxok] at hxend
    have hst : n.id = OrientedEdge.source ok ∨ n.id = OrientedEdge.target ok := by
      rcases endpoints_eq_source_target ok with ⟨h1, h2⟩ | ⟨h1, h2⟩
      · rcases hxend with hc | hc
        · exact Or.inl (by rw [← hc, h1])
        · exact Or.inr (by rw [← hc, h2])
      · rcases hxend with hc | hc
        · exact Or.inr (by rw [← hc, h1])
        · exact Or.inl (by rw [← hc, h2])
    obtain ⟨p1, p2, hpd⟩ := List.append_of_mem hok
    rcases hst with hsrc | htgt
    · rcases List.eq_nil_or_concat p1 with h1nil | ⟨p1', w, hw⟩
      · subst h1nil
        have hhead : (path ++ [cur]).headD dummyOrientedEdge = ok := by
          rw [hpd]
          simp
        have hose : ok = se := by rw [← hhead, hA5]
        exact hne (by rw [← hokid, hose])
      · rw [List.concat_eq_append] at hw
        subst hw
        have hwstep : WalkStep g w ok := by
          refine chain'_pair (u := p1') (v := p2 ++ [cur]) ?_
          rw [show p1' ++ w :: ok :: (p2 ++ [cur]) = ((p1' ++ [w]) ++ ok :: p2) ++ [cur] by
            simp]
          rw [← hpd]
          exact hA4
        have htw : OrientedEdge.target w = n.id := by
          rw [← walkStep_source hwf hwstep, ← hsrc]
        have hwmem : w.edge ∈ g.edges := hA3 w (by rw [hpd]; simp)
        have hwarr : w.edge.id ∈ n.edgeIds := by
          refine arrival_slot hW6 hwmem ?_
          rw [htw]
          exact getNode_self hwf.1 nmem
        rcases hslotchar w.edge.id hwarr with hc | hc
        · exact (nodup_concat_ne hA6 (by rw [hpd]; simp : w ∈ path)) hc
        · have hsplit : path ++ [cur] = p1' ++ w :: ok :: (p2 ++ [cur]) := by
            rw [hpd]
            simp
          have hA6b := hA6
          rw [hsplit] at hA6b
          exact (nodup_middle_ne hA6b) (by rw [hokid, ← hc])
    · cases hp2c : p2 with
      | nil =>
        have hostep : WalkStep g ok cur := by
          refine chain'_pair (u := p1) (v := []) ?_
          rw [show p1 ++ ok :: cur :: [] = (p1 ++ ok :: p2) ++ [cur] by rw [hp2c]; simp]
          rw [← hpd]
          exact hA4
        have hself2 : cur.edge.startNodeId = cur.edge.endNodeId := by
          refine self_loop_of_source_eq_target ?_
          rw [walkStep_source hwf hostep, ← htgt, hnid]
        have hboth : cur.edge.startNodeId = n.id ∧ cur.edge.endNodeId = n.id := by
          rcases target_mem_endpoints cur with hc | hc
          · constructor
            · rw [← hc, ← hnid]
            · rw [← hself2, ← hc, ← hnid]
          · constructor
            · rw [hself2, ← hc, ← hnid]
            · rw [← hc, ← hnid]
        obtain ⟨hq1, hq2⟩ := self_loop_slots_pair hSlots nmem hcurmem hboth.1 hboth.2 hab
        rcases hnext_ab with hc | hc
        · exact hAB (by rw [hc, hq1])
        · exact hAB (by rw [hc, hq2])
      | cons y p2' =>
        subst hp2c
        have hostep : WalkStep g ok y := by
          refine chain'_pair (u := p1) (v := p2' ++ [cur]) ?_
          rw [show p1 ++ ok :: y :: (p2' ++ [cur]) = (p1 ++ ok :: y :: p2') ++ [cur] by simp]
          rw [← hpd]
          exact hA4
        have hyslot : y.edge.id ∈ n.edgeIds := by
          refine walkStep_next_mem hostep ?_
          rw [← htgt]
          exact getNode_self hwf.1 nmem
        rcases hslotchar y.edge.id hyslot with hc | hc
        · exact (nodup_concat_ne hA6 (by rw [hpd]; simp : y ∈ path)) hc
        · have hsplit : path ++ [cur] = p1 ++ ok :: y :: (p2' ++ [cur]) := by
            rw [hpd]
            simp
          have hA6b := hA6
          rw [hsplit] at hA6b
          exact (nodup_middle_ne hA6b) (by rw [hokid, ← hc])

theorem target_def (o : OrientedEdge) :
    (if o.isForward = true then o.edge.endNodeId else o.edge.startNodeId) =
      OrientedEdge.target o := rfl

theorem getNodeOrThrow_of_getNode {g : Graph} {i : NodeId} {n : Node}
    (h : g.getNode i = some n) : g.getNodeOrThrow i = .ok n := by
  unfold Graph.getNodeOrThrow
  rw [h]

theorem getEdgeOrThrow_of_getEdge {g : Graph} {i : EdgeId} {e : Edge}
    (h : g.getEdge i = some e) : g.getEdgeOrThrow i = .ok e := by
  unfold Graph.getEdgeOrThrow
  rw [h]

theorem getEdge_of_mem {g : Graph} (hwf : Wellformed g) {e : Edge} (he : e ∈ g.edges)
    {i : EdgeId} (hi : e.id = i) : g.getEdge i = some e := by
  rw [← hi]
  show g.edges.find? (fun x => x.id = e.id) = some e
  exact find?_self_of_nodup g.edges hwf.2.1 e he

theorem getNode_of_id_mem {g : Graph} {i : NodeId} (h : i ∈ g.nodes.map (·.id)) :
    ∃ n, g.getNode i = some n ∧ n ∈ g.nodes ∧ n.id = i := by
  obtain ⟨n, hfind⟩ := (find?_id_mem g.nodes i).mpr h
  have hp := List.find?_some hfind
  exact ⟨n, hfind, List.mem_of_find?_eq_some hfind, by simpa using hp⟩

theorem onlyPathGo_spec {g : Graph} (hwf : Wellformed g)
    (hW6 : ∀ e ∈ g.edges, ∀ n ∈ g.nodes,
      n.id = e.startNodeId ∨ n.id = e.endNodeId → e.id ∈ n.edgeIds)
    (hSlots : ∀ n ∈ g.nodes, ∀ e ∈ g.edges,
      n.edgeIds.count e.id =
        (if e.startNodeId = n.id then 1 else 0) + (if e.endNodeId = n.id then 1 else 0))
    (se : OrientedEdge) (hse : se.edge ∈ g.edges)
    (avoid : List EdgeId)
    (hAv : ∀ n ∈ g.nodes, n.edgeIds.length = 2 → ∀ i ∈ n.edgeIds, i ∈ avoid →
      i ≠ se.edge.id → ∀ j ∈ n.edgeIds, j ∈ avoid ∨ j = se.edge.id)
    (hAvStart : ∀ n, g.getNode (OrientedEdge.target se) = some n → n.edgeIds.length = 2 →
      ∀ i ∈ n.edgeIds, i ∈ avoid → i = se.edge.id) :
    ∀ (fuel : ℕ) (cur : OrientedEdge) (path : List OrientedEdge),
      g.edges.length + 1 ≤ fuel + path.length →
      cur.edge ∈ g.edges →
      (∀ o ∈ path, o.edge ∈ g.edges) →
      List.Chain' (WalkStep g) (path ++ [cur]) →
      (path ++ [cur]).headD dummyOrientedEdge = se →
      ((path ++ [cur]).map (·.edge.id)).Nodup →
      (∀ o ∈ path ++ [cur], o.edge.id ∉ avoid) →
      ∃ out, onlyPathGo g se fuel cur path = .ok out ∧
        (∀ o ∈ out, o.edge ∈ g.edges) ∧
        out.headD dummyOrientedEdge = se ∧
        ((List.Chain' (WalkStep g) out ∧ ((out.map (·.edge.id)).Nodup) ∧
            (∀ o ∈ out, o.edge.id ∉ avoid) ∧ out ≠ [] ∧
            ∃ n, g.getNode (OrientedEdge.target (out.getLastD dummyOrientedEdge)) = some n ∧
              n.edgeIds.length ≠ 2) ∨
          (∃ q n, out = q ++ [se] ∧ q ≠ [] ∧
            List.Chain' (WalkStep g) q ∧ ((q.map (·.edge.id)).Nodup) ∧
            (∀ o ∈ q, o.edge.id ∉ avoid) ∧
            q.headD dummyOrientedEdge = se ∧
            g.getNode (OrientedEdge.target (q.getLastD dummyOrientedEdge)) = some n ∧
            n.edgeIds.length = 2 ∧ se.edge.id ∈ n.edgeIds ∧
            (q.getLastD dummyOrientedEdge).edge.id ∈ n.edgeIds ∧
            (if (q.getLastD dummyOrientedEdge).edge.id = n.edgeIds.getD 0 (.int 0) then
                n.edgeIds.getD 1 (.int 0) else n.edgeIds.getD 0 (.int 0)) =
              se.edge.id)) := by
  intro fuel
  induction fuel with
  | zero =>
    intro cur path hA1 hA2 hA3 hA4 hA5 hA6 hA7
    exfalso
    have hb := length_le_of_nodup_ids (g := g) (path ++ [cur]) hA6 (by
      intro o ho
      rcases List.mem_append.mp ho with h | h
      · exact hA3 o h
      · have ho2 : o = cur := by simpa using h
        rw [ho2]
        exact hA2)
    rw [List.length_append, List.length_singleton] at hb
    omega
  | succ fuel ih =>
    intro cur path hA1 hA2 hA3 hA4 hA5 hA6 hA7
    have hA3c : ∀ o ∈ path ++ [cur], o.edge ∈ g.edges := by
      intro o ho
      rcases List.mem_append.mp ho with h | h
      · exact hA3 o h
      · have ho2 : o = cur := by simpa using h
        rw [ho2]
        exact hA2
    obtain ⟨n, hgetn, nmem, hnid⟩ := getNode_of_id_mem (g := g)
      (i := OrientedEdge.target cur) (by
        rcases target_mem_endpoints cur with hc | hc
        · rw [hc]
          exact (hwf.2.2.1 cur.edge hA2).1
        · rw [hc]
          exact (hwf.2.2.1 cur.edge hA2).2)
    have hcurslot : cur.edge.id ∈ n.edgeIds := arrival_slot hW6 hA2 hgetn
    by_cases hdeg : n.edgeIds.length = 2
    · by_cases hclose : (if cur.edge.id = n.edgeIds.getD 0 (.int 0) then
          n.edgeIds.getD 1 (.int 0) else n.edgeIds.getD 0 (.int 0)) = se.edge.id
      · refine ⟨(path ++ [cur]) ++ [se], ?_, ?_, ?_,
          Or.inr ⟨path ++ [cur], n, rfl, by simp, hA4, hA6, hA7, hA5, ?_, hdeg, ?_, ?_, ?_⟩⟩
        · simp only [onlyPathGo, bind, Except.bind, target_def,
            getNodeOrThrow_of_getNode hgetn]
          rw [if_pos hdeg, if_pos hclose]
        · intro o ho
          rcases List.mem_append.mp ho with h | h
          · exact hA3c o h
          · have ho2 : o = se := by simpa using h
            rw [ho2]
            exact hse
        · rw [headD_append_left (by simp) _]
          exact hA5
        · rw [List.getLastD_concat]
          exact hgetn
        · rw [← hclose]
          exact sel_mem_slots hdeg cur.edge.id
        · rw [List.getLastD_concat]
          exact hcurslot
        · rw [List.getLastD_concat]
          exact hclose
      · have hselmem : (if cur.edge.id = n.edgeIds.getD 0 (.int 0) then
            n.edgeIds.getD 1 (.int 0) else n.edgeIds.getD 0 (.int 0)) ∈ n.edgeIds :=
          sel_mem_slots hdeg cur.edge.id
        obtain ⟨x, hx, hxid, hxend⟩ := hwf.2.2.2 n nmem _ hselmem
        have hgete : g.getEdge (if cur.edge.id = n.edgeIds.getD 0 (.int 0) then
            n.edgeIds.getD 1 (.int 0) else n.edgeIds.getD 0 (.int 0)) = some x :=
          getEdge_of_mem hwf hx hxid
        have hstep : WalkStep g cur
            ⟨x, decide (x.startNodeId = OrientedEdge.target cur)⟩ :=
          ⟨n, hgetn, hdeg, hx, hxid, rfl⟩
        have hnese : x.id ≠ se.edge.id := by
          rw [hxid]
          exact hclose
        have hfresh := walk_fresh hwf hW6 hSlots hA3c hA4 hA5 hA6 hstep hnese
        have hav : x.id ∉ avoid := by
          intro hbad
          have hxin : x.id ∈ n.edgeIds := by
            rw [hxid]
            exact hselmem
          have hall := hAv n nmem hdeg x.id hxin hbad hnese
          rcases hall cur.edge.id hcurslot with hc | hc
          · exact hA7 cur (by simp) hc
          · cases hpath : path with
            | nil =>
              subst hpath
              have hcse : cur = se := by simpa using hA5
              have hgetse : g.getNode (OrientedEdge.target se) = some n := by
                rw [← hcse]
                exact hgetn
              exact hnese (hAvStart n hgetse hdeg x.id hxin hbad)
            | cons o0 path' =>
              subst hpath
              have ho0 : o0 = se := by simpa using hA5
              have hne0 := nodup_concat_ne hA6 (List.mem_cons_self o0 path')
              exact hne0 (by rw [ho0, ← hc])
        obtain ⟨out, hrun, hP1, hP2, hP4⟩ := ih
          ⟨x, decide (x.startNodeId = OrientedEdge.target cur)⟩ (path ++ [cur])
          (by rw [List.length_append, List.length_singleton]; omega)
          hx
          hA3c
          (by
            refine List.chain'_append.mpr ⟨hA4, List.chain'_singleton _, ?_⟩
            intro o ho y hy
            rw [List.getLast?_concat] at ho
            have ho2 : cur = o := by simpa using ho
            have hy2 : ⟨x, decide (x.startNodeId = OrientedEdge.target cur)⟩ = y := by
              simpa using hy
            rw [← ho2, ← hy2]
            exact hstep)
          (by rw [headD_append_left (by simp) _]; exact hA5)
          (by
            rw [List.map_append, List.nodup_append]
            refine ⟨hA6, List.nodup_singleton _, ?_⟩
            intro i hi hc
            have hix : i = x.id := by simpa using hc
            rw [hix] at hi
            exact hfresh hi)
          (by
            intro o ho
            rcases List.mem_append.mp ho with h | h
            · exact hA7 o h
            · have ho2 : o = ⟨x, decide (x.startNodeId = OrientedEdge.target cur)⟩ := by
                simpa using h
              rw [ho2]
              exact hav)
        refine ⟨out, ?_, hP1, hP2, hP4⟩
        simp only [onlyPathGo, bind, Except.bind, target_def,
          getNodeOrThrow_of_getNode hgetn]
        rw [if_pos hdeg, if_neg hclose]
        simp only [getEdgeOrThrow_of_getEdge hgete, bind, Except.bind]
        exact hrun
    · refine ⟨path ++ [cur], ?_, hA3c, hA5, Or.inl ⟨hA4, hA6, hA7, by simp, n, ?_, hdeg⟩⟩
      · simp only [onlyPathGo, bind, Except.bind, target_def,
          getNodeOrThrow_of_getNode hgetn]
        rw [if_neg hdeg]
      · rw [List.getLastD_concat]
        exact hgetn

theorem slots_pair_char {n : Node} (hdeg : n.edgeIds.length = 2)
    {i1 i2 : EdgeId} (h1 : i1 ∈ n.edgeIds) (h2 : i2 ∈ n.edgeIds) (hne : i1 ≠ i2) :
    ∀ j ∈ n.edgeIds, j = i1 ∨ j = i2 := by
  obtain ⟨a, b, hab⟩ := List.length_eq_two.mp hdeg
  rw [hab] at h1 h2 ⊢
  intro j hj
  have hj2 : j = a ∨ j = b := by simpa using hj
  have h1p : i1 = a ∨ i1 = b := by simpa using h1
  have h2p : i2 = a ∨ i2 = b := by simpa using h2
  rcases h1p with e1 | e1 <;> rcases h2p with e2 | e2
  · exact absurd (e1.trans e2.symm) hne
  · rcases hj2 with ej | ej
    · exact Or.inl (by rw [ej, e1])
    · exact Or.inr (by rw [ej, e2])
  · rcases hj2 with ej | ej
    · exact Or.inr (by rw [ej, e2])
    · exact Or.inl (by rw [ej, e1])
  · exact absurd (e1.trans e2.symm) hne

theorem reversePath_map_ids (l : List OrientedEdge) :
    (Utils.reversePath l).map (·.edge.id) = (l.map (·.edge.id)).reverse := by
  unfold Utils.reversePath
  rw [List.map_reverse, List.map_map]
  rfl

theorem reversePath_mem {l : List OrientedEdge} {o : OrientedEdge} :
    o ∈ Utils.reversePath l ↔
      ∃ o2 ∈ l, o = { edge := o2.edge, isForward := !o2.isForward } := by
  unfold Utils.reversePath
  rw [List.mem_reverse, List.mem_map]
  constructor
  · rintro ⟨o2, h2, heq⟩
    exact ⟨o2, h2, heq.symm⟩
  · rintro ⟨o2, h2, heq⟩
    exact ⟨o2, h2, heq.symm⟩

theorem reversePath_chain {g : Graph} {l : List OrientedEdge}
    (h : List.Chain' (LinkedAt g) l) :
    List.Chain' (LinkedAt g) (Utils.reversePath l) := by
  unfold Utils.reversePath
  rw [List.chain'_reverse, List.chain'_map]
  refine h.imp ?_
  intro a b hab
  exact linkedAt_rev hab

theorem getLastD_append_right {l2 : List OrientedEdge} (h : l2 ≠ []) :
    ∀ (l1 : List OrientedEdge) (d : OrientedEdge), (l1 ++ l2).getLastD d = l2.getLastD d := by
  intro l1
  induction l1 with
  | nil => intro d; rfl
  | cons a t ih =>
    intro d
    rw [List.cons_append, List.getLastD_cons, ih, getLastD_default_irrel l2 _ _ h]

theorem fw_almost_closed {g : Graph} (hwf : Wellformed g)
    (hW6 : ∀ e ∈ g.edges, ∀ n ∈ g.nodes,
      n.id = e.startNodeId ∨ n.id = e.endNodeId → e.id ∈ n.edgeIds)
    {e : Edge} (he : e ∈ g.edges) {rest : List OrientedEdge}
    (hch : List.Chain' (WalkStep g) (⟨e, true⟩ :: rest))
    (hnd : (((⟨e, true⟩ :: rest) : List OrientedEdge).map (·.edge.id)).Nodup)
    (hmemall : ∀ o ∈ ((⟨e, true⟩ :: rest) : List OrientedEdge), o.edge ∈ g.edges)
    (hstopn : ∃ n, g.getNode (OrientedEdge.target
        (((⟨e, true⟩ :: rest) : List OrientedEdge).getLastD dummyOrientedEdge)) = some n ∧
      n.edgeIds.length ≠ 2) :
    ∀ n ∈ g.nodes, n.edgeIds.length = 2 → ∀ i ∈ n.edgeIds,
      i ∈ rest.map (·.edge.id) → i ≠ e.id →
      ∀ j ∈ n.edgeIds, j ∈ rest.map (·.edge.id) ∨ j = e.id := by
  intro n nmem hdeg i hslot hiav hie
  obtain ⟨ok, hok, hokid⟩ := List.mem_map.mp hiav
  obtain ⟨x, hx, hxid, hxend⟩ := hwf.2.2.2 n nmem i hslot
  have hokmem : ok.edge ∈ g.edges := hmemall ok (List.mem_cons_of_mem _ hok)
  have hxok : x = ok.edge := edge_eq_of_id hwf hx hokmem (by rw [hxid, hokid])
  rw [hxok] at hxend
  have hst : n.id = OrientedEdge.source ok ∨ n.id = OrientedEdge.target ok := by
    rcases endpoints_eq_source_target ok with ⟨h1, h2⟩ | ⟨h1, h2⟩
    · rcases hxend with hc | hc
      · exact Or.inl (by rw [← hc, h1])
      · exact Or.inr (by rw [← hc, h2])
    · rcases hxend with hc | hc
      · exact Or.inr (by rw [← hc, h1])
      · exact Or.inl (by rw [← hc, h2])
  obtain ⟨r1, r2, hr⟩ := List.append_of_mem hok
  rcases hst with hsrc | htgt
  · -- n is the source-side node of ok: look at the predecessor in the walk
    rcases List.eq_nil_or_concat r1 with h1nil | ⟨r1', w, hw⟩
    · subst h1nil
      have hpair : WalkStep g ⟨e, true⟩ ok := by
        refine chain'_pair (u := []) (v := r2) ?_
        rw [show ([] : List OrientedEdge) ++ (⟨e, true⟩ : OrientedEdge) :: ok :: r2 =
          (⟨e, true⟩ : OrientedEdge) :: ([] ++ ok :: r2) by simp, ← hr]
        exact hch
      have htn : OrientedEdge.target (⟨e, true⟩ : OrientedEdge) = n.id := by
        rw [← walkStep_source hwf hpair, ← hsrc]
      have hearr : e.id ∈ n.edgeIds := by
        have := arrival_slot hW6 (o := ⟨e, true⟩) he (by rw [htn]; exact getNode_self hwf.1 nmem)
        exact this
      have hchar := slots_pair_char hdeg hslot hearr hie
      intro j hj
      rcases hchar j hj with hc | hc
      · exact Or.inl (by rw [hc, ← hokid]; exact List.mem_map.mpr ⟨ok, hok, rfl⟩)
      · exact Or.inr hc
    · rw [List.concat_eq_append] at hw
      subst hw
      have hpair : WalkStep g w ok := by
        refine chain'_pair (u := (⟨e, true⟩ : OrientedEdge) :: r1') (v := r2) ?_
        rw [show ((⟨e, true⟩ : OrientedEdge) :: r1') ++ w :: ok :: r2 =
          (⟨e, true⟩ : OrientedEdge) :: ((r1' ++ [w]) ++ ok :: r2) by simp, ← hr]
        exact hch
      have htn : OrientedEdge.target w = n.id := by
        rw [← walkStep_source hwf hpair, ← hsrc]
      have hwmem : w.edge ∈ g.edges := by
        refine hmemall w (List.mem_cons_of_mem _ ?_)
        rw [hr]
        simp
      have hwarr : w.edge.id ∈ n.edgeIds :=
        arrival_slot hW6 hwmem (by rw [htn]; exact getNode_self hwf.1 nmem)
      have hwne : w.edge.id ≠ i := by
        have hnd2 : ((((⟨e, true⟩ : OrientedEdge) :: r1') ++ w :: ok :: r2).map
            (·.edge.id)).Nodup := by
          rw [show ((⟨e, true⟩ : OrientedEdge) :: r1') ++ w :: ok :: r2 =
            (⟨e, true⟩ : OrientedEdge) :: ((r1' ++ [w]) ++ ok :: r2) by simp, ← hr]
          exact hnd
        have := nodup_middle_ne hnd2
        rw [hokid] at this
        exact this
      have hchar := slots_pair_char hdeg hslot hwarr (fun hc => hwne hc.symm)
      intro j hj
      rcases hchar j hj with hc | hc
      · exact Or.inl (by rw [hc, ← hokid]; exact List.mem_map.mpr ⟨ok, hok, rfl⟩)
      · refine Or.inl ?_
        rw [hc]
        refine List.mem_map.mpr ⟨w, ?_, rfl⟩
        rw [hr]
        simp
  · -- n is the target-side node of ok: look at the successor
    cases hr2 : r2 with
    | nil =>
      exfalso
      subst hr2
      obtain ⟨ns, hns, hlen⟩ := hstopn
      have hlast : (((⟨e, true⟩ :: rest) : List OrientedEdge).getLastD dummyOrientedEdge) =
          ok := by
        rw [hr, show (⟨e, true⟩ : OrientedEdge) :: (r1 ++ ok :: []) =
          ((⟨e, true⟩ : OrientedEdge) :: r1) ++ [ok] by simp, List.getLastD_concat]
      rw [hlast] at hns
      have hns2 : g.getNode (OrientedEdge.target ok) = some n := by
        rw [← htgt]
        exact getNode_self hwf.1 nmem
      rw [hns2] at hns
      have : ns = n := (Option.some.inj hns).symm
      rw [this] at hlen
      exact hlen hdeg
    | cons y r2' =>
      subst hr2
      have hpair : WalkStep g ok y := by
        refine chain'_pair (u := (⟨e, true⟩ : OrientedEdge) :: r1) (v := r2') ?_
        rw [show ((⟨e, true⟩ : OrientedEdge) :: r1) ++ ok :: y :: r2' =
          (⟨e, true⟩ : OrientedEdge) :: (r1 ++ ok :: y :: r2') by simp, ← hr]
        exact hch
      have hyarr : y.edge.id ∈ n.edgeIds := by
        refine walkStep_next_mem hpair ?_
        rw [← htgt]
        exact getNode_self hwf.1 nmem
      have hyne : i ≠ y.edge.id := by
        have hnd2 : ((((⟨e, true⟩ : OrientedEdge) :: r1) ++ ok :: y :: r2').map
            (·.edge.id)).Nodup := by
          rw [show ((⟨e, true⟩ : OrientedEdge) :: r1) ++ ok :: y :: r2' =
            (⟨e, true⟩ : OrientedEdge) :: (r1 ++ ok :: y :: r2') by simp, ← hr]
          exact hnd
        have := nodup_middle_ne hnd2
        rw [hokid] at this
        exact this
      have hchar := slots_pair_char hdeg hslot hyarr hyne
      intro j hj
      rcases hchar j hj with hc | hc
      · exact Or.inl (by rw [hc, ← hokid]; exact List.mem_map.mpr ⟨ok, hok, rfl⟩)
      · refine Or.inl ?_
        rw [hc]
        refine List.mem_map.mpr ⟨y, ?_, rfl⟩
        rw [hr]
        simp

theorem fw_avoid_start {g : Graph} (hwf : Wellformed g)
    (hW6 : ∀ e ∈ g.edges, ∀ n ∈ g.nodes,
      n.id = e.startNodeId ∨ n.id = e.endNodeId → e.id ∈ n.edgeIds)
    (hSlots : ∀ n ∈ g.nodes, ∀ e ∈ g.edges,
      n.edgeIds.count e.id =
        (if e.startNodeId = n.id then 1 else 0) + (if e.endNodeId = n.id then 1 else 0))
    {e : Edge} (he : e ∈ g.edges) {rest : List OrientedEdge}
    (hch : List.Chain' (WalkStep g) (⟨e, true⟩ :: rest))
    (hnd : (((⟨e, true⟩ :: rest) : List OrientedEdge).map (·.edge.id)).Nodup)
    (hmemall : ∀ o ∈ ((⟨e, true⟩ :: rest) : List OrientedEdge), o.edge ∈ g.edges)
    (hstopn : ∃ n, g.getNode (OrientedEdge.target
        (((⟨e, true⟩ :: rest) : List OrientedEdge).getLastD dummyOrientedEdge)) = some n ∧
      n.edgeIds.length ≠ 2) :
    ∀ n, g.getNode (OrientedEdge.target (⟨e, false⟩ : OrientedEdge)) = some n →
      n.edgeIds.length = 2 → ∀ i ∈ n.edgeIds, i ∈ rest.map (·.edge.id) → i = e.id := by
  intro n hgn hdeg i hslot hiav
  by_cases hie : i = e.id
  · exact hie
  exfalso
  obtain ⟨nmem, hnid⟩ := getNode_mem hgn
  have hns : n.id = e.startNodeId := hnid
  have hearr : e.id ∈ n.edgeIds := hW6 e he n nmem (Or.inl hns)
  have hchar := slots_pair_char hdeg hslot hearr hie
  obtain ⟨ok, hok, hokid⟩ := List.mem_map.mp hiav
  have hokmem : ok.edge ∈ g.edges := hmemall ok (List.mem_cons_of_mem _ hok)
  obtain ⟨x, hx, hxid, hxend⟩ := hwf.2.2.2 n nmem i hslot
  have hxok : x = ok.edge := edge_eq_of_id hwf hx hokmem (by rw [hxid, hokid])
  rw [hxok] at hxend
  have hst : n.id = OrientedEdge.source ok ∨ n.id = OrientedEdge.target ok := by
    rcases endpoints_eq_source_target ok with ⟨h1, h2⟩ | ⟨h1, h2⟩
    · rcases hxend with hc | hc
      · exact Or.inl (by rw [← hc, h1])
      · exact Or.inr (by rw [← hc, h2])
    · rcases hxend with hc | hc
      · exact Or.inr (by rw [← hc, h1])
      · exact Or.inl (by rw [← hc, h2])
  obtain ⟨r1, r2, hr⟩ := List.append_of_mem hok
  have hrestdup : ∀ y ∈ rest, y.edge.id ≠ e.id := by
    intro y hy hc
    rw [List.map_cons] at hnd
    exact (List.nodup_cons.mp hnd).1 (by rw [← hc]; exact List.mem_map.mpr ⟨y, hy, rfl⟩)
  rcases hst with hsrc | htgt
  · rcases List.eq_nil_or_concat r1 with h1nil | ⟨r1', w, hw⟩
    · subst h1nil
      have hpair : WalkStep g ⟨e, true⟩ ok := by
        refine chain'_pair (u := []) (v := r2) ?_
        rw [show ([] : List OrientedEdge) ++ (⟨e, true⟩ : OrientedEdge) :: ok :: r2 =
          (⟨e, true⟩ : OrientedEdge) :: ([] ++ ok :: r2) by simp, ← hr]
        exact hch
      have hsrcval : OrientedEdge.source ok = e.endNodeId := walkStep_source hwf hpair
      have hend : e.endNodeId = n.id := by rw [← hsrcval, ← hsrc]
      obtain ⟨a, b, hab⟩ := List.length_eq_two.mp hdeg
      obtain ⟨ha, hb⟩ := self_loop_slots_pair hSlots nmem he hns.symm hend hab
      rw [hab] at hslot
      rcases (by simpa using hslot : i = a ∨ i = b) with hc | hc
      · exact hie (by rw [hc, ha])
      · exact hie (by rw [hc, hb])
    · rw [List.concat_eq_append] at hw
      subst hw
      have hpair : WalkStep g w ok := by
        refine chain'_pair (u := (⟨e, true⟩ : OrientedEdge) :: r1') (v := r2) ?_
        rw [show ((⟨e, true⟩ : OrientedEdge) :: r1') ++ w :: ok :: r2 =
          (⟨e, true⟩ : OrientedEdge) :: ((r1' ++ [w]) ++ ok :: r2) by simp, ← hr]
        exact hch
      have htn : OrientedEdge.target w = n.id := by
        rw [← walkStep_source hwf hpair, ← hsrc]
      have hwmem : w.edge ∈ g.edges := by
        refine hmemall w (List.mem_cons_of_mem _ ?_)
        rw [hr]
        simp
      have hwarr : w.edge.id ∈ n.edgeIds :=
        arrival_slot hW6 hwmem (by rw [htn]; exact getNode_self hwf.1 nmem)
      have hwne : w.edge.id ≠ i := by
        have hnd2 : ((((⟨e, true⟩ : OrientedEdge) :: r1') ++ w :: ok :: r2).map
            (·.edge.id)).Nodup := by
          rw [show ((⟨e, true⟩ : OrientedEdge) :: r1') ++ w :: ok :: r2 =
            (⟨e, true⟩ : OrientedEdge) :: ((r1' ++ [w]) ++ ok :: r2) by simp, ← hr]
          exact hnd
        have := nodup_middle_ne hnd2
        rw [hokid] at this
        exact this
      rcases hchar w.edge.id hwarr with hc | hc
      · exact hwne hc
      · refine hrestdup w ?_ hc
        rw [hr]
        simp
  · cases hr2 : r2 with
    | nil =>
      subst hr2
      obtain ⟨ns, hnsn, hlen⟩ := hstopn
      have hlast : (((⟨e, true⟩ :: rest) : List OrientedEdge).getLastD dummyOrientedEdge) =
          ok := by
        rw [hr, show (⟨e, true⟩ : OrientedEdge) :: (r1 ++ ok :: []) =
          ((⟨e, true⟩ : OrientedEdge) :: r1) ++ [ok] by simp, List.getLastD_concat]
      rw [hlast] at hnsn
      have hns2 : g.getNode (OrientedEdge.target ok) = some n := by
        rw [← htgt]
        exact getNode_self hwf.1 nmem
      rw [hns2] at hnsn
      have : ns = n := (Option.some.inj hnsn).symm
      rw [this] at hlen
      exact hlen hdeg
    | cons y r2' =>
      subst hr2
      have hpair : WalkStep g ok y := by
        refine chain'_pair (u := (⟨e, true⟩ : OrientedEdge) :: r1) (v := r2') ?_
        rw [show ((⟨e, true⟩ : OrientedEdge) :: r1) ++ ok :: y :: r2' =
          (⟨e, true⟩ : OrientedEdge) :: (r1 ++ ok :: y :: r2') by simp, ← hr]
        exact hch
      have hyarr : y.edge.id ∈ n.edgeIds := by
        refine walkStep_next_mem hpair ?_
        rw [← htgt]
        exact getNode_self hwf.1 nmem
      have hyne : i ≠ y.edge.id := by
        have hnd2 : ((((⟨e, true⟩ : OrientedEdge) :: r1) ++ ok :: y :: r2').map
            (·.edge.id)).Nodup := by
          rw [show ((⟨e, true⟩ : OrientedEdge) :: r1) ++ ok :: y :: r2' =
            (⟨e, true⟩ : OrientedEdge) :: (r1 ++ ok :: y :: r2') by simp, ← hr]
          exact hnd
        have := nodup_middle_ne hnd2
        rw [hokid] at this
        exact this
      rcases hchar y.edge.id hyarr with hc | hc
      · exact hyne hc.symm
      · refine hrestdup y ?_ hc
        rw [hr]
        simp

theorem sel_pair_eq {n : Node} (hdeg : n.edgeIds.length = 2) {x : EdgeId}
    (hsel : (if x = n.edgeIds.getD 0 (.int 0) then n.edgeIds.getD 1 (.int 0)
      else n.edgeIds.getD 0 (.int 0)) = x) :
    n.edgeIds = [x, x] := by
  obtain ⟨a, b, hab⟩ := List.length_eq_two.mp hdeg
  rw [hab] at hsel ⊢
  simp only [List.getD_cons_zero, List.getD_cons_succ] at hsel
  by_cases hc : x = a
  · rw [if_pos hc] at hsel
    rw [show a = x from hc.symm, show b = x from hsel]
  · rw [if_neg hc] at hsel
    exact absurd hsel.symm hc

theorem closure_at_first_node {g : Graph} (hwf : Wellformed g)
    (hW6 : ∀ e ∈ g.edges, ∀ n ∈ g.nodes,
      n.id = e.startNodeId ∨ n.id = e.endNodeId → e.id ∈ n.edgeIds)
    (hSlots : ∀ n ∈ g.nodes, ∀ e ∈ g.edges,
      n.edgeIds.count e.id =
        (if e.startNodeId = n.id then 1 else 0) + (if e.endNodeId = n.id then 1 else 0))
    {se q1 : OrientedEdge} {q2 : List OrientedEdge} {nc : Node}
    (hmem : ∀ o ∈ se :: q1 :: q2, o.edge ∈ g.edges)
    (hch : List.Chain' (WalkStep g) (se :: q1 :: q2))
    (hnd : (((se :: q1 :: q2) : List OrientedEdge).map (·.edge.id)).Nodup)
    (hfirst : g.getNode (OrientedEdge.target se) = some nc)
    (hdeg : nc.edgeIds.length = 2)
    (hlastn : g.getNode (OrientedEdge.target
      (((se :: q1 :: q2) : List OrientedEdge).getLastD dummyOrientedEdge)) = some nc) :
    False := by
  have hncmem : nc ∈ g.nodes := (getNode_mem hfirst).1
  have hpair : WalkStep g se q1 := chain'_pair (u := []) (v := q2) (by simpa using hch)
  have hq1arr : q1.edge.id ∈ nc.edgeIds := walkStep_next_mem hpair hfirst
  have hsearr : se.edge.id ∈ nc.edgeIds :=
    arrival_slot hW6 (hmem se (List.mem_cons_self _ _)) hfirst
  have hne1 : se.edge.id ≠ q1.edge.id :=
    nodup_middle_ne (u := []) (v := q2) (by simpa using hnd)
  have hchar := slots_pair_char hdeg hsearr hq1arr hne1
  have hlastmem : ((se :: q1 :: q2).getLastD dummyOrientedEdge) ∈ q1 :: q2 := by
    rw [List.getLastD_cons]
    exact getLastD_mem_of_ne_nil _ _ (List.cons_ne_nil _ _)
  have hlastarr : ((se :: q1 :: q2).getLastD dummyOrientedEdge).edge.id ∈ nc.edgeIds :=
    arrival_slot hW6 (hmem _ (List.mem_cons_of_mem _ hlastmem)) hlastn
  have hlast_ne_se : ((se :: q1 :: q2).getLastD dummyOrientedEdge).edge.id ≠ se.edge.id := by
    intro hcontra
    rw [List.map_cons] at hnd
    refine (List.nodup_cons.mp hnd).1 ?_
    rw [← hcontra]
    exact List.mem_map.mpr ⟨_, hlastmem, rfl⟩
  have hlastq1 : ((se :: q1 :: q2).getLastD dummyOrientedEdge).edge.id = q1.edge.id :=
    (hchar _ hlastarr).resolve_left hlast_ne_se
  cases hq2 : q2 with
  | nil =>
    subst hq2
    have hlastval : ((se :: q1 :: ([] : List OrientedEdge)).getLastD dummyOrientedEdge) = q1 := by
      rw [List.getLastD_cons]
      rfl
    rw [hlastval] at hlastn
    have hncid1 : nc.id = OrientedEdge.target se := (getNode_mem hfirst).2
    have hncid2 : nc.id = OrientedEdge.target q1 := (getNode_mem hlastn).2
    have hsrc : OrientedEdge.source q1 = OrientedEdge.target se := walkStep_source hwf hpair
    have hself : OrientedEdge.source q1 = OrientedEdge.target q1 := by
      rw [hsrc, ← hncid1, hncid2]
    have hq1mem : q1.edge ∈ g.edges := hmem q1 (List.mem_cons_of_mem _ (List.mem_cons_self _ _))
    have hstend : q1.edge.startNodeId = nc.id ∧ q1.edge.endNodeId = nc.id := by
      rcases endpoints_eq_source_target q1 with ⟨h1, h2⟩ | ⟨h1, h2⟩
      · exact ⟨by rw [h1, hself, ← hncid2], by rw [h2, ← hncid2]⟩
      · exact ⟨by rw [h1, ← hncid2], by rw [h2, hself, ← hncid2]⟩
    have hcnt := hSlots nc hncmem q1.edge hq1mem
    rw [if_pos hstend.1, if_pos hstend.2] at hcnt
    obtain ⟨a, b, hab⟩ := List.length_eq_two.mp hdeg
    rw [hab] at hcnt hsearr
    by_cases ha : a = q1.edge.id
    · by_cases hb : b = q1.edge.id
      · have : se.edge.id = a ∨ se.edge.id = b := by simpa using hsearr
        rcases this with hc | hc
        · exact hne1 (hc.trans ha)
        · exact hne1 (hc.trans hb)
      · rw [List.count_cons, List.count_cons] at hcnt
        simp [ha, hb] at hcnt
    · rw [List.count_cons, List.count_cons] at hcnt
      by_cases hb : b = q1.edge.id
      · simp [ha, hb] at hcnt
      · simp [ha, hb] at hcnt
  | cons y q2p =>
    subst hq2
    rw [List.map_cons] at hnd
    have h2 := (List.nodup_cons.mp hnd).2
    rw [List.map_cons] at h2
    have h3 := (List.nodup_cons.mp h2).1
    refine h3 ?_
    have hlastval : ((se :: q1 :: y :: q2p).getLastD dummyOrientedEdge) =
        ((y :: q2p).getLastD q1) := by
      rw [List.getLastD_cons, List.getLastD_cons]
    have hm2 : ((y :: q2p).getLastD q1) ∈ y :: q2p :=
      getLastD_mem_of_ne_nil _ _ (List.cons_ne_nil _ _)
    rw [hlastval] at hlastq1
    rw [← hlastq1]
    exact List.mem_map.mpr ⟨_, hm2, rfl⟩

theorem getLast?_eq_getLastD {l : List OrientedEdge} (h : l ≠ []) (d : OrientedEdge) :
    l.getLast? = some (l.getLastD d) := by
  rw [List.getLastD_eq_getLast?]
  cases hq : l.getLast? with
  | none => exact absurd (List.getLast?_eq_none_iff.mp hq) h
  | some z => rfl

theorem reversePath_nil : Utils.reversePath [] = [] := rfl

theorem reversePath_ne_nil {l : List OrientedEdge} (h : l ≠ []) :
    Utils.reversePath l ≠ [] := by
  unfold Utils.reversePath
  simp [h]

theorem headD_eq_head? (l : List OrientedEdge) (d : OrientedEdge) :
    l.headD d = l.head?.getD d := by
  cases l <;> rfl

theorem reversePath_head? {l : List OrientedEdge} :
    (Utils.reversePath l).head? =
      l.getLast?.map (fun o => { edge := o.edge, isForward := !o.isForward }) := by
  unfold Utils.reversePath
  rw [List.head?_reverse, List.getLast?_map]

theorem reversePath_getLast? {l : List OrientedEdge} :
    (Utils.reversePath l).getLast? =
      l.head?.map (fun o => { edge := o.edge, isForward := !o.isForward }) := by
  unfold Utils.reversePath
  rw [List.getLast?_reverse, List.head?_map]

theorem fw_end_deg2_step {g : Graph}
    {e : Edge} {fwrest : List OrientedEdge}
    (hch : List.Chain' (WalkStep g) (⟨e, true⟩ :: fwrest))
    (hstop : ∃ ns, g.getNode (OrientedEdge.target
        (((⟨e, true⟩ :: fwrest) : List OrientedEdge).getLastD dummyOrientedEdge)) = some ns ∧
      ns.edgeIds.length ≠ 2)
    {nb : Node} (hnbdeg : nb.edgeIds.length = 2)
    (hfirstnode : g.getNode (OrientedEdge.target (⟨e, true⟩ : OrientedEdge)) = some nb) :
    ∃ o1 f2, fwrest = o1 :: f2 ∧ o1.edge.id ∈ nb.edgeIds := by
  cases hf : fwrest with
  | nil =>
    exfalso
    subst hf
    obtain ⟨ns, hns, hnsdeg⟩ := hstop
    have hl : ((((⟨e, true⟩ : OrientedEdge) :: []) : List OrientedEdge).getLastD
        dummyOrientedEdge) = (⟨e, true⟩ : OrientedEdge) := rfl
    rw [hl, hfirstnode] at hns
    have hnn : ns = nb := (Option.some.inj hns).symm
    rw [hnn] at hnsdeg
    exact hnsdeg hnbdeg
  | cons o1 f2 =>
    subst hf
    have hpair : WalkStep g ⟨e, true⟩ o1 :=
      chain'_pair (u := []) (v := f2) (by simpa using hch)
    exact ⟨o1, f2, rfl, walkStep_next_mem hpair hfirstnode⟩

theorem getOnlyPath_spec {g : Graph} (hwf : Wellformed g)
    (hW6 : ∀ e ∈ g.edges, ∀ n ∈ g.nodes,
      n.id = e.startNodeId ∨ n.id = e.endNodeId → e.id ∈ n.edgeIds)
    (hSlots : ∀ n ∈ g.nodes, ∀ e ∈ g.edges,
      n.edgeIds.count e.id =
        (if e.startNodeId = n.id then 1 else 0) + (if e.endNodeId = n.id then 1 else 0))
    {e : Edge} (he : e ∈ g.edges) :
    ∃ p, g.getOnlyPath e = .ok p ∧ GoodChain g p ∧ e.id ∈ chainIds p ∧
      (p.length = 1 → p = [⟨e, true⟩]) := by
  have htse : OrientedEdge.target (⟨e, true⟩ : OrientedEdge) = e.endNodeId := rfl
  have hsse : OrientedEdge.source (⟨e, true⟩ : OrientedEdge) = e.startNodeId := rfl
  have htse2 : OrientedEdge.target (⟨e, false⟩ : OrientedEdge) = e.startNodeId := rfl
  obtain ⟨fw, hfwrun, hfwmem, hfwhead, hfwcases⟩ :=
    onlyPathGo_spec hwf hW6 hSlots ⟨e, true⟩ he []
      (fun n _ _ i _ hi => absurd hi (List.not_mem_nil i))
      (fun n _ _ i _ hi => absurd hi (List.not_mem_nil i))
      (2 * g.edges.length + 2) ⟨e, true⟩ []
      (by simp only [List.length_nil]; omega) he
      (fun o ho => absurd ho (List.not_mem_nil o))
      (by simp) rfl (by simp)
      (fun o _ hc => absurd hc (List.not_mem_nil _))
  rcases hfwcases with ⟨hch, hnd, _, hne, hstop⟩ |
    ⟨q, nc, hout, hqne, hqch, hqnd, _, hqhead, hncn, hncdeg, hseslot, hlastslot, hsel⟩
  · -- the forward walk stopped at a node without exactly two slots
    cases fw with
    | nil => exact absurd rfl hne
    | cons a fwrest =>
    rw [List.headD_cons] at hfwhead
    subst hfwhead
    have hAv := fw_almost_closed hwf hW6 he hch hnd hfwmem hstop
    have hAvStart := fw_avoid_start hwf hW6 hSlots he hch hnd hfwmem hstop
    have heid_avoid : e.id ∉ fwrest.map (·.edge.id) := by
      rw [List.map_cons] at hnd
      exact (List.nodup_cons.mp hnd).1
    obtain ⟨bw, hbwrun, hbwmem, hbwhead, hbwcases⟩ :=
      onlyPathGo_spec hwf hW6 hSlots ⟨e, false⟩ he (fwrest.map (·.edge.id))
        hAv hAvStart (2 * g.edges.length + 2) ⟨e, false⟩ []
        (by simp only [List.length_nil]; omega) he
        (fun o ho => absurd ho (List.not_mem_nil o))
        (by simp) rfl (by simp)
        (by
          intro o ho
          have ho2 : o = (⟨e, false⟩ : OrientedEdge) := by simpa using ho
          rw [ho2]
          exact heid_avoid)
    have hcondF : ¬((((⟨e, true⟩ : OrientedEdge) :: fwrest).length > 1 ∧
        ((⟨e, true⟩ : OrientedEdge) :: fwrest).headD dummyOrientedEdge =
          ((⟨e, true⟩ : OrientedEdge) :: fwrest).getLastD dummyOrientedEdge)) := by
      rintro ⟨hl, hhl⟩
      cases hfr : fwrest with
      | nil => subst hfr; simp at hl
      | cons b bt =>
        subst hfr
        rw [List.headD_cons, List.getLastD_cons] at hhl
        have hmem2 : ((b :: bt).getLastD (⟨e, true⟩ : OrientedEdge)) ∈ b :: bt :=
          getLastD_mem_of_ne_nil _ _ (List.cons_ne_nil _ _)
        rw [List.map_cons] at hnd
        refine (List.nodup_cons.mp hnd).1 ?_
        refine List.mem_map.mpr ⟨_, hmem2, ?_⟩
        rw [← hhl]
    rcases hbwcases with ⟨hbch, hbnd, hbav, hbne, hbstop⟩ |
      ⟨qb, nb, hbout, hqbne, hqbch, hqbnd, hqbav, hqbhead, hnbn, hnbdeg, hbseslot,
        hblastslot, hbsel⟩
    · -- both walks stopped: the chain is the reversed backward tail plus the forward walk
      cases bw with
      | nil => exact absurd rfl hbne
      | cons a2 bwrest =>
      rw [List.headD_cons] at hbwhead
      subst hbwhead
      have hbwrest_mem : ∀ o ∈ bwrest, o.edge ∈ g.edges :=
        fun o ho => hbwmem o (List.mem_cons_of_mem _ ho)
      have hbwrest_nd : ((bwrest.map (·.edge.id)).Nodup) := by
        rw [List.map_cons] at hbnd
        exact (List.nodup_cons.mp hbnd).2
      have heid_bw : e.id ∉ bwrest.map (·.edge.id) := by
        rw [List.map_cons] at hbnd
        exact (List.nodup_cons.mp hbnd).1
      refine ⟨Utils.reversePath bwrest ++ ((⟨e, true⟩ : OrientedEdge) :: fwrest), ?_, ?_, ?_, ?_⟩
      · show Graph.getOnlyPath g e = _
        unfold Graph.getOnlyPath Graph.getOnlyPathInDirection
        rw [hfwrun]
        simp only [bind, Except.bind]
        rw [if_neg hcondF, hbwrun]
        simp only [List.drop_succ_cons, List.drop_zero]
        rfl
      · refine ⟨by simp, ?_, ?_, ?_, ?_⟩
        · intro o ho
          rcases List.mem_append.mp ho with h | h
          · obtain ⟨o2, ho2, heq⟩ := reversePath_mem.mp h
            rw [heq]
            exact hbwrest_mem o2 ho2
          · exact hfwmem o h
        · rw [List.map_append, reversePath_map_ids]
          refine List.nodup_append.mpr ⟨List.nodup_reverse.mpr hbwrest_nd, hnd, ?_⟩
          intro x hx hx2
          rw [List.mem_reverse] at hx
          rw [List.map_cons] at hx2
          rcases List.mem_cons.mp hx2 with h | h
          · rw [h] at hx
            exact heid_bw hx
          · obtain ⟨o2, ho2, heq⟩ := List.mem_map.mp hx
            rw [← heq] at h
            exact hbav o2 (List.mem_cons_of_mem _ ho2) h
        · refine List.chain'_append.mpr ⟨?_, ?_, ?_⟩
          · exact reversePath_chain (chain'_wchain hwf hW6 bwrest hbch.tail hbwrest_mem
              hbwrest_nd)
          · exact chain'_wchain hwf hW6 _ hch hfwmem hnd
          · intro x hx y hy
            have hy2 : (⟨e, true⟩ : OrientedEdge) = y := by simpa using hy
            cases hbr : bwrest with
            | nil =>
              exfalso
              subst hbr
              rw [reversePath_nil] at hx
              simp at hx
            | cons b1 bt =>
              subst hbr
              rw [reversePath_getLast?] at hx
              have hx2 : ({ edge := b1.edge, isForward := !b1.isForward } :
                  OrientedEdge) = x := by
                simpa using hx
              rw [← hx2, ← hy2]
              have hbpair : WalkStep g ⟨e, false⟩ b1 :=
                chain'_pair (u := []) (v := bt) (by simpa using hbch)
              obtain ⟨n0, hn0, hn0deg, hb1mem, hb1sel, hb1fwd⟩ := hbpair
              have hbpair2 : WalkStep g ⟨e, false⟩ b1 :=
                ⟨n0, hn0, hn0deg, hb1mem, hb1sel, hb1fwd⟩
              refine ⟨?_, n0, ?_, hn0deg, ?_, ?_, ?_⟩
              · rw [target_rev, walkStep_source hwf hbpair2, htse2, hsse]
              · rw [target_rev, walkStep_source hwf hbpair2]
                exact hn0
              · show b1.edge.id ∈ n0.edgeIds
                exact walkStep_next_mem hbpair2 hn0
              · show e.id ∈ n0.edgeIds
                exact arrival_slot hW6 (o := ⟨e, false⟩) he hn0
              · show b1.edge.id ≠ e.id
                intro hcontra
                exact heid_bw (List.mem_map.mpr ⟨b1, List.mem_cons_self _ _, hcontra⟩)
        · refine Or.inl ⟨?_, ?_⟩
          · cases hbr : bwrest with
            | nil =>
              subst hbr
              rw [reversePath_nil, List.nil_append, List.headD_cons, hsse]
              intro n hn
              obtain ⟨ns, hns, hnsdeg⟩ := hbstop
              have hbl : ((((⟨e, false⟩ : OrientedEdge) :: []) : List OrientedEdge).getLastD
                  dummyOrientedEdge) = (⟨e, false⟩ : OrientedEdge) := rfl
              rw [hbl, htse2, hn] at hns
              have hnn : n = ns := Option.some.inj hns
              rw [hnn]
              exact hnsdeg
            | cons b1 bt =>
              subst hbr
              have hrne : Utils.reversePath (b1 :: bt) ≠ [] :=
                reversePath_ne_nil (List.cons_ne_nil _ _)
              rw [headD_append_left hrne]
              have hlast : (b1 :: bt).getLast? =
                  some ((b1 :: bt).getLastD dummyOrientedEdge) :=
                getLast?_eq_getLastD (List.cons_ne_nil _ _) _
              have hhd : (Utils.reversePath (b1 :: bt)).headD dummyOrientedEdge =
                  { edge := ((b1 :: bt).getLastD dummyOrientedEdge).edge,
                    isForward := !((b1 :: bt).getLastD dummyOrientedEdge).isForward } := by
                rw [headD_eq_head?, reversePath_head?, hlast]
                rfl
              rw [hhd, source_rev]
              intro n hn
              obtain ⟨ns, hns, hnsdeg⟩ := hbstop
              have hbl : ((((⟨e, false⟩ : OrientedEdge) :: b1 :: bt) :
                  List OrientedEdge).getLastD dummyOrientedEdge) =
                  ((b1 :: bt).getLastD dummyOrientedEdge) := by
                rw [List.getLastD_cons,
                  getLastD_default_irrel _ _ _ (List.cons_ne_nil _ _)]
              rw [hbl, hn] at hns
              have hnn : n = ns := Option.some.inj hns
              rw [hnn]
              exact hnsdeg
          · rw [getLastD_append_right (List.cons_ne_nil _ _)]
            intro n hn
            obtain ⟨ns, hns, hnsdeg⟩ := hstop
            rw [hn] at hns
            have hnn : n = ns := Option.some.inj hns
            rw [hnn]
            exact hnsdeg
      · unfold chainIds
        rw [List.map_append]
        refine List.mem_append_right _ ?_
        rw [List.map_cons]
        exact List.mem_cons_self _ _
      · intro hlen1
        rw [List.length_append, List.length_cons] at hlen1
        have hbw0 : (Utils.reversePath bwrest).length = 0 := by omega
        have hfw0 : fwrest.length = 0 := by omega
        rw [List.length_eq_zero] at hbw0 hfw0
        rw [hbw0, hfw0]
        rfl
    · -- the backward walk cannot close into a loop after the forward walk stopped
      exfalso
      cases qb with
      | nil => exact absurd rfl hqbne
      | cons a3 qbrest =>
      rw [List.headD_cons] at hqbhead
      subst hqbhead
      have hnbmem : nb ∈ g.nodes := (getNode_mem hnbn).1
      obtain ⟨x, hx, hxid, hxend⟩ := hwf.2.2.2 nb hnbmem e.id hbseslot
      have hxe : x = e := edge_eq_of_id hwf hx he hxid
      rw [hxe] at hxend
      have hqbmem : ∀ o ∈ (⟨e, false⟩ : OrientedEdge) :: qbrest, o.edge ∈ g.edges :=
        fun o ho => hbwmem o (by rw [hbout]; exact List.mem_append_left _ ho)
      rcases hxend with hstart | hend
      · -- nb is the node at e's start: the backward walk begins there
        have hfirstb : g.getNode (OrientedEdge.target (⟨e, false⟩ : OrientedEdge)) =
            some nb := by
          rw [htse2, hstart]
          exact getNode_self hwf.1 hnbmem
        cases hqr : qbrest with
        | nil =>
          subst hqr
          have hslots2 : nb.edgeIds = [e.id, e.id] := sel_pair_eq hnbdeg hbsel
          have hloop := slots_self_loop hSlots hnbmem he (by rw [hslots2]; simp)
          have hfirstnode : g.getNode (OrientedEdge.target (⟨e, true⟩ : OrientedEdge)) =
              some nb := by
            rw [htse, hloop.2]
            exact getNode_self hwf.1 hnbmem
          obtain ⟨o1, f2, hfr, ho1arr⟩ := fw_end_deg2_step hch hstop hnbdeg hfirstnode
          rw [hslots2] at ho1arr
          have ho1eq : o1.edge.id = e.id := by simpa using ho1arr
          refine heid_avoid ?_
          rw [hfr]
          exact List.mem_map.mpr ⟨o1, List.mem_cons_self _ _, ho1eq⟩
        | cons b1 b2 =>
          subst hqr
          exact closure_at_first_node hwf hW6 hSlots hqbmem hqbch hqbnd hfirstb hnbdeg hnbn
      · -- nb is the node at e's end: the forward walk stopped or continued there
        have hfirstnode : g.getNode (OrientedEdge.target (⟨e, true⟩ : OrientedEdge)) =
            some nb := by
          rw [htse, hend]
          exact getNode_self hwf.1 hnbmem
        obtain ⟨o1, f2, hfr, ho1arr⟩ := fw_end_deg2_step hch hstop hnbdeg hfirstnode
        have hne_eo1 : e.id ≠ o1.edge.id := by
          intro hc
          refine heid_avoid ?_
          rw [hfr]
          exact List.mem_map.mpr ⟨o1, List.mem_cons_self _ _, hc.symm⟩
        have hchar := slots_pair_char hnbdeg hbseslot ho1arr hne_eo1
        cases hqr : qbrest with
        | nil =>
          subst hqr
          have hslots2 : nb.edgeIds = [e.id, e.id] := sel_pair_eq hnbdeg hbsel
          rw [hslots2] at ho1arr
          have ho1eq : o1.edge.id = e.id := by simpa using ho1arr
          exact hne_eo1 ho1eq.symm
        | cons b1 b2 =>
          subst hqr
          have hlastb_mem : ((((⟨e, false⟩ : OrientedEdge) :: b1 :: b2) :
              List OrientedEdge).getLastD dummyOrientedEdge) ∈ b1 :: b2 := by
            rw [List.getLastD_cons]
            exact getLastD_mem_of_ne_nil _ _ (List.cons_ne_nil _ _)
          rcases hchar _ hblastslot with hLe | hLo
          · rw [List.map_cons] at hqbnd
            refine (List.nodup_cons.mp hqbnd).1 ?_
            refine List.mem_map.mpr ⟨_, hlastb_mem, ?_⟩
            exact hLe
          · refine hqbav _ (List.mem_cons_of_mem _ hlastb_mem) ?_
            rw [hfr]
            refine List.mem_map.mpr ⟨o1, List.mem_cons_self _ _, ?_⟩
            exact hLo.symm
  · -- the forward walk closed into a loop: the chain is its body
    subst hout
    cases q with
    | nil => exact absurd rfl hqne
    | cons a4 qtail =>
    rw [List.headD_cons] at hqhead
    subst hqhead
    have hlen : (((⟨e, true⟩ : OrientedEdge) :: qtail) ++
        [(⟨e, true⟩ : OrientedEdge)]).length = qtail.length + 2 := by
      simp
    have hcond : ((((⟨e, true⟩ : OrientedEdge) :: qtail) ++
        [(⟨e, true⟩ : OrientedEdge)]).length > 1 ∧
        (((⟨e, true⟩ : OrientedEdge) :: qtail) ++
          [(⟨e, true⟩ : OrientedEdge)]).headD dummyOrientedEdge =
        (((⟨e, true⟩ : OrientedEdge) :: qtail) ++
          [(⟨e, true⟩ : OrientedEdge)]).getLastD dummyOrientedEdge) := by
      constructor
      · rw [hlen]; omega
      · rw [headD_append_left (List.cons_ne_nil _ _), List.getLastD_concat, List.headD_cons]
    have htake : ((((⟨e, true⟩ : OrientedEdge) :: qtail) ++
        [(⟨e, true⟩ : OrientedEdge)]).take
          ((((⟨e, true⟩ : OrientedEdge) :: qtail) ++
            [(⟨e, true⟩ : OrientedEdge)]).length - 1)) =
        (⟨e, true⟩ : OrientedEdge) :: qtail := by
      rw [hlen, show qtail.length + 2 - 1 = ((⟨e, true⟩ : OrientedEdge) :: qtail).length by
        simp]
      exact List.take_left _ _
    have hqmem : ∀ o ∈ (⟨e, true⟩ : OrientedEdge) :: qtail, o.edge ∈ g.edges :=
      fun o ho => hfwmem o (List.mem_append_left _ ho)
    have hrun : Graph.getOnlyPath g e = .ok ((⟨e, true⟩ : OrientedEdge) :: qtail) := by
      unfold Graph.getOnlyPath Graph.getOnlyPathInDirection
      rw [hfwrun]
      simp only [bind, Except.bind]
      rw [if_pos hcond, htake]
      rfl
    refine ⟨(⟨e, true⟩ : OrientedEdge) :: qtail, hrun, ?_, ?_, ?_⟩
    · refine ⟨List.cons_ne_nil _ _, hqmem, hqnd, chain'_wchain hwf hW6 _ hqch hqmem hqnd, ?_⟩
      cases hqt : qtail with
      | nil =>
        subst hqt
        have hslots2 : nc.edgeIds = [e.id, e.id] := sel_pair_eq hncdeg hsel
        have hloop := slots_self_loop hSlots (getNode_mem hncn).1 he (by rw [hslots2]; simp)
        refine Or.inr (Or.inr ⟨⟨e, true⟩, rfl, hloop.1.trans hloop.2.symm, ?_⟩)
        intro n hn
        have hncn2 : g.getNode e.endNodeId = some nc := hncn
        rw [hn] at hncn2
        have hnn : n = nc := Option.some.inj hncn2
        rw [hnn]
        exact hslots2
      | cons q1 q2 =>
        subst hqt
        have hncmem : nc ∈ g.nodes := (getNode_mem hncn).1
        have hncid : nc.id = OrientedEdge.target
            ((((⟨e, true⟩ : OrientedEdge) :: q1 :: q2) :
              List OrientedEdge).getLastD dummyOrientedEdge) := (getNode_mem hncn).2
        obtain ⟨x, hx, hxid, hxend⟩ := hwf.2.2.2 nc hncmem e.id hseslot
        have hxe : x = e := edge_eq_of_id hwf hx he hxid
        rw [hxe] at hxend
        have hstarteq : nc.id = e.startNodeId := by
          rcases hxend with hc | hc
          · exact hc.symm
          · exfalso
            have hfirst : g.getNode (OrientedEdge.target (⟨e, true⟩ : OrientedEdge)) =
                some nc := by
              rw [htse, hc]
              exact getNode_self hwf.1 hncmem
            exact closure_at_first_node hwf hW6 hSlots hqmem hqch hqnd hfirst hncdeg hncn
        have hlmem : ((((⟨e, true⟩ : OrientedEdge) :: q1 :: q2) :
            List OrientedEdge).getLastD dummyOrientedEdge) ∈ q1 :: q2 := by
          rw [List.getLastD_cons]
          exact getLastD_mem_of_ne_nil _ _ (List.cons_ne_nil _ _)
        refine Or.inr (Or.inl ⟨by simp, ?_⟩)
        refine ⟨?_, nc, hncn, hncdeg, hlastslot, ?_, ?_⟩
        · rw [← hncid, List.headD_cons, hsse, hstarteq]
        · rw [List.headD_cons]
          exact hseslot
        · rw [List.headD_cons]
          intro hcontra
          rw [List.map_cons] at hqnd
          refine (List.nodup_cons.mp hqnd).1 ?_
          exact List.mem_map.mpr ⟨_, hlmem, hcontra⟩
    · unfold chainIds
      rw [List.map_cons]
      exact List.mem_cons_self _ _
    · intro hlen1
      cases hqt : qtail with
      | nil => rfl
      | cons q1 q2 =>
        exfalso
        subst hqt
        rw [List.length_cons, List.length_cons] at hlen1
        omega

theorem headD_mem {l : List OrientedEdge} (h : l ≠ []) (d : OrientedEdge) :
    l.headD d ∈ l := by
  cases l with
  | nil => exact absurd rfl h
  | cons a t => exact List.mem_cons_self _ _

theorem linkedAt_node_eq {g : Graph} (hwf : Wellformed g) {o o2 : OrientedEdge}
    (h : LinkedAt g o o2) {n : Node} (hn : n ∈ g.nodes)
    (hid : n.id = OrientedEdge.target o) :
    n.edgeIds.length = 2 ∧ o.edge.id ∈ n.edgeIds ∧ o2.edge.id ∈ n.edgeIds ∧
      o.edge.id ≠ o2.edge.id := by
  obtain ⟨-, n2, hn2, hdeg, hm1, hm2, hne⟩ := h
  have hn2b : g.getNode (OrientedEdge.target o) = some n := by
    rw [← hid]
    exact getNode_self hwf.1 hn
  rw [hn2b] at hn2
  have hnn : n = n2 := Option.some.inj hn2
  rw [hnn]
  exact ⟨hdeg, hm1, hm2, hne⟩

theorem goodChain_closed {g : Graph} (hwf : Wellformed g)
    {p : List OrientedEdge} (hp : GoodChain g p) :
    ∀ n ∈ g.nodes, n.edgeIds.length = 2 → ∀ i ∈ n.edgeIds, i ∈ chainIds p →
      ∀ j ∈ n.edgeIds, j ∈ chainIds p := by
  obtain ⟨hne, hmem, hnd, hch, hends⟩ := hp
  intro n nmem hdeg i hslot hiP j hj
  obtain ⟨o, ho, hoid⟩ := List.mem_map.mp hiP
  obtain ⟨x, hx, hxid, hxend⟩ := hwf.2.2.2 n nmem i hslot
  have hxo : x = o.edge := edge_eq_of_id hwf hx (hmem o ho) (by rw [hxid, hoid])
  rw [hxo] at hxend
  have hst : n.id = OrientedEdge.source o ∨ n.id = OrientedEdge.target o := by
    rcases endpoints_eq_source_target o with ⟨h1, h2⟩ | ⟨h1, h2⟩
    · rcases hxend with hc | hc
      · exact Or.inl (by rw [← hc, h1])
      · exact Or.inr (by rw [← hc, h2])
    · rcases hxend with hc | hc
      · exact Or.inr (by rw [← hc, h1])
      · exact Or.inl (by rw [← hc, h2])
  obtain ⟨r1, r2, hr⟩ := List.append_of_mem ho
  rcases hst with hsrc | htgt
  · rcases List.eq_nil_or_concat r1 with h1nil | ⟨r1', w, hw⟩
    · subst h1nil
      rcases hends with ⟨hA1, hA2⟩ | ⟨hB1, hB2⟩ | ⟨o2, hCp, hCloop, hCslots⟩
      · exfalso
        refine hA1 n ?_ hdeg
        rw [hr, show (([] : List OrientedEdge) ++ o :: r2).headD dummyOrientedEdge = o
          from by simp, ← hsrc]
        exact getNode_self hwf.1 nmem
      · have hhead : p.headD dummyOrientedEdge = o := by rw [hr]; simp
        rw [hhead] at hB2
        have hid2 : n.id = OrientedEdge.target (p.getLastD dummyOrientedEdge) := by
          rw [hB2.1]
          exact hsrc
        obtain ⟨-, hm1, hm2, hne2⟩ := linkedAt_node_eq hwf hB2 nmem hid2
        have hchar := slots_pair_char hdeg hm1 hm2 hne2
        rcases hchar j hj with hc | hc
        · rw [hc]
          exact List.mem_map.mpr ⟨_, getLastD_mem_of_ne_nil _ _ hne, rfl⟩
        · rw [hc]
          exact List.mem_map.mpr ⟨o, ho, rfl⟩
      · have hoo : o = o2 := by
          rw [hCp] at ho
          simpa using ho
        subst hoo
        have hnid : n.id = o.edge.endNodeId := by
          unfold OrientedEdge.source at hsrc
          by_cases hf : o.isForward = true
          · rw [if_pos hf] at hsrc
            exact hsrc.trans hCloop
          · rw [if_neg hf] at hsrc
            exact hsrc
        have hslots2 := hCslots n (by rw [← hnid]; exact getNode_self hwf.1 nmem)
        rw [hslots2] at hj
        have hje : j = o.edge.id := by simpa using hj
        rw [hje]
        exact List.mem_map.mpr ⟨o, ho, rfl⟩
    · rw [List.concat_eq_append] at hw
      subst hw
      have hpair : LinkedAt g w o := by
        refine chain'_pair (u := r1') (v := r2) ?_
        rw [show r1' ++ w :: o :: r2 = (r1' ++ [w]) ++ o :: r2 by simp, ← hr]
        exact hch
      have hid2 : n.id = OrientedEdge.target w := by
        rw [hpair.1]
        exact hsrc
      obtain ⟨-, hm1, hm2, hne2⟩ := linkedAt_node_eq hwf hpair nmem hid2
      have hchar := slots_pair_char hdeg hm1 hm2 hne2
      rcases hchar j hj with hc | hc
      · rw [hc]
        refine List.mem_map.mpr ⟨w, ?_, rfl⟩
        rw [hr]
        simp
      · rw [hc]
        exact List.mem_map.mpr ⟨o, ho, rfl⟩
  · cases hr2 : r2 with
    | nil =>
      subst hr2
      have hlast : p.getLastD dummyOrientedEdge = o := by
        rw [hr, show r1 ++ o :: ([] : List OrientedEdge) = r1 ++ [o] by simp,
          List.getLastD_concat]
      rcases hends with ⟨hA1, hA2⟩ | ⟨hB1, hB2⟩ | ⟨o2, hCp, hCloop, hCslots⟩
      · exfalso
        refine hA2 n ?_ hdeg
        rw [hlast, ← htgt]
        exact getNode_self hwf.1 nmem
      · rw [hlast] at hB2
        obtain ⟨-, hm1, hm2, hne2⟩ := linkedAt_node_eq hwf hB2 nmem htgt
        have hchar := slots_pair_char hdeg hm1 hm2 hne2
        rcases hchar j hj with hc | hc
        · rw [hc]
          exact List.mem_map.mpr ⟨o, ho, rfl⟩
        · rw [hc]
          exact List.mem_map.mpr ⟨_, headD_mem hne _, rfl⟩
      · have hoo : o = o2 := by
          rw [hCp] at ho
          simpa using ho
        subst hoo
        have hnid : n.id = o.edge.endNodeId := by
          unfold OrientedEdge.target at htgt
          by_cases hf : o.isForward = true
          · rw [if_pos hf] at htgt
            exact htgt
          · rw [if_neg hf] at htgt
            exact htgt.trans hCloop
        have hslots2 := hCslots n (by rw [← hnid]; exact getNode_self hwf.1 nmem)
        rw [hslots2] at hj
        have hje : j = o.edge.id := by simpa using hj
        rw [hje]
        exact List.mem_map.mpr ⟨o, ho, rfl⟩
    | cons y r2p =>
      subst hr2
      have hpair : LinkedAt g o y := by
        refine chain'_pair (u := r1) (v := r2p) ?_
        rw [← hr]
        exact hch
      obtain ⟨-, hm1, hm2, hne2⟩ := linkedAt_node_eq hwf hpair nmem htgt
      have hchar := slots_pair_char hdeg hm1 hm2 hne2
      rcases hchar j hj with hc | hc
      · rw [hc]
        exact List.mem_map.mpr ⟨o, ho, rfl⟩
      · rw [hc]
        refine List.mem_map.mpr ⟨y, ?_, rfl⟩
        rw [hr]
        simp

theorem flatMap_mem {α β : Type} {l : List α} {f : α → List β} {b : β} :
    b ∈ Utils.flatMap l f ↔ ∃ a ∈ l, b ∈ f a := by
  unfold Utils.flatMap
  rw [List.mem_flatten]
  constructor
  · rintro ⟨L, hL, hb⟩
    obtain ⟨a, ha, rfl⟩ := List.mem_map.mp hL
    exact ⟨a, ha, hb⟩
  · rintro ⟨a, ha, hb⟩
    exact ⟨f a, List.mem_map.mpr ⟨a, ha, rfl⟩, hb⟩

theorem mergedEntry_startNodeId (p : List OrientedEdge) :
    (mergedEntry p).startNodeId = OrientedEdge.source (p.headD dummyOrientedEdge) := rfl

theorem mergedEntry_endNodeId (p : List OrientedEdge) :
    (mergedEntry p).endNodeId = OrientedEdge.target (p.getLastD dummyOrientedEdge) := rfl

theorem mergedEntry_id_mem {p : List OrientedEdge} (hne : p ≠ []) :
    (mergedEntry p).id ∈ chainIds p := by
  obtain ⟨m, hm, hmem, -⟩ :=
    minOf_compareIds_spec (p.map fun pathEdge => pathEdge.edge.id) (by simp [hne])
  show (Utils.minOf (p.map fun pathEdge => pathEdge.edge.id) Utils.compareIds).getD
      (.int 0) ∈ chainIds p
  rw [hm]
  exact hmem

theorem mergedDels_mem {p : List OrientedEdge} {i : NodeId} :
    i ∈ mergedDels p ↔
      ((∃ o ∈ p, i = o.edge.startNodeId ∨ i = o.edge.endNodeId) ∧
        i ≠ OrientedEdge.source (p.headD dummyOrientedEdge) ∧
        i ≠ OrientedEdge.target (p.getLastD dummyOrientedEdge)) := by
  unfold mergedDels
  rw [List.mem_filter]
  constructor
  · intro h
    obtain ⟨hmem, hpred⟩ := h
    rw [Bool.and_eq_true, decide_eq_true_eq, decide_eq_true_eq] at hpred
    obtain ⟨o, ho, hio⟩ := flatMap_mem.mp hmem
    refine ⟨⟨o, ho, by simpa using hio⟩, hpred.1, hpred.2⟩
  · rintro ⟨⟨o, ho, hio⟩, h1, h2⟩
    refine ⟨flatMap_mem.mpr ⟨o, ho, by simpa using hio⟩, ?_⟩
    rw [Bool.and_eq_true, decide_eq_true_eq, decide_eq_true_eq]
    exact ⟨h1, h2⟩

theorem coalesceStep_skip (g : Graph) (st : CoalesceState) (edge : Edge)
    (h : edge.id ∈ st.deletedEdgeIds) : coalesceStep g st edge = .ok st := by
  unfold coalesceStep
  rw [if_pos h]

theorem coalesceStep_keep (g : Graph) (st : CoalesceState) (edge : Edge)
    (p : List OrientedEdge) (h : edge.id ∉ st.deletedEdgeIds)
    (hp : g.getOnlyPath edge = .ok p) (hl : p.length = 1) :
    coalesceStep g st edge =
      .ok { st with newEdges := st.newEdges ++ [edge.toSimple] } := by
  unfold coalesceStep
  rw [if_neg h, hp]
  show (if p.length = 1 then _ else _) = _
  rw [if_pos hl]
  rfl

theorem coalesceStep_merge (g : Graph) (st : CoalesceState) (edge : Edge)
    (p : List OrientedEdge) (h : edge.id ∉ st.deletedEdgeIds)
    (hp : g.getOnlyPath edge = .ok p) (hl : ¬ p.length = 1) :
    coalesceStep g st edge = .ok
      { deletedNodeIds := st.deletedNodeIds ++ mergedDels p,
        deletedEdgeIds := st.deletedEdgeIds ++ (p.map (·.edge)).map (·.id),
        newEdges := st.newEdges ++ [mergedEntry p] } := by
  unfold coalesceStep mergedDels mergedEntry
  rw [if_neg h, hp]
  show (if p.length = 1 then _ else _) = _
  rw [if_neg hl]
  rfl

theorem linked_spread_head {g : Graph} {S : EdgeId → Prop}
    (hS : ∀ a b, LinkedAt g a b → (S a.edge.id ↔ S b.edge.id)) :
    ∀ (t : List OrientedEdge) (a : OrientedEdge),
      List.Chain' (LinkedAt g) (a :: t) → S a.edge.id → ∀ o ∈ a :: t, S o.edge.id := by
  intro t
  induction t with
  | nil =>
    intro a _ hSa o ho
    have hoa : o = a := by simpa using ho
    rw [hoa]
    exact hSa
  | cons b t2 ih =>
    intro a hch hSa o ho
    have hpair : LinkedAt g a b := (List.chain'_cons.mp hch).1
    have hSb : S b.edge.id := (hS a b hpair).mp hSa
    rcases List.mem_cons.mp ho with h | h
    · rw [h]
      exact hSa
    · exact ih b (List.chain'_cons.mp hch).2 hSb o h

theorem linked_spread {g : Graph} {S : EdgeId → Prop}
    (hS : ∀ a b, LinkedAt g a b → (S a.edge.id ↔ S b.edge.id)) :
    ∀ (l : List OrientedEdge), List.Chain' (LinkedAt g) l →
      ∀ o0 ∈ l, S o0.edge.id → ∀ o ∈ l, S o.edge.id := by
  intro l
  induction l with
  | nil =>
    intro _ o0 ho0
    cases ho0
  | cons a t ih =>
    intro hch o0 ho0 hS0 o ho
    rcases List.mem_cons.mp ho0 with h0 | h0
    · exact linked_spread_head hS t a hch (h0 ▸ hS0) o ho
    · cases t with
      | nil => cases h0
      | cons b t2 =>
        have hch2 := (List.chain'_cons.mp hch).2
        have hpair : LinkedAt g a b := (List.chain'_cons.mp hch).1
        have hSb : S b.edge.id := ih hch2 o0 h0 hS0 b (List.mem_cons_self _ _)
        have hSa : S a.edge.id := (hS a b hpair).mpr hSb
        rcases List.mem_cons.mp ho with h | h
        · rw [h]
          exact hSa
        · exact ih hch2 o0 h0 hS0 o h

theorem chain_avoid {g : Graph} (hwf : Wellformed g) {c : List OrientedEdge}
    (hc : GoodChain g c) {p : List OrientedEdge}
    (hpch : List.Chain' (LinkedAt g) p) {x : OrientedEdge} (hx : x ∈ p)
    (hxS : x.edge.id ∉ chainIds c) :
    ∀ o ∈ p, o.edge.id ∉ chainIds c := by
  intro o ho hoS
  refine hxS ?_
  refine linked_spread (S := (· ∈ chainIds c)) ?_ p hpch o ho hoS x hx
  intro a b hab
  obtain ⟨-, n2, hn2, hdeg2, hm1, hm2, -⟩ := hab
  have hn2mem : n2 ∈ g.nodes := (getNode_mem hn2).1
  constructor
  · intro haS
    exact goodChain_closed hwf hc n2 hn2mem hdeg2 a.edge.id hm1 haS b.edge.id hm2
  · intro hbS
    exact goodChain_closed hwf hc n2 hn2mem hdeg2 b.edge.id hm2 hbS a.edge.id hm1

theorem chainDatOK_keep {g : Graph} {e : Edge} {p : List OrientedEdge}
    (hp : GoodChain g p) (hmem_id : e.id ∈ chainIds p)
    (hp1 : p.length = 1 → p = [⟨e, true⟩]) (hl : p.length = 1) :
    ChainDatOK g ⟨p, e.toSimple, []⟩ := by
  have hpe := hp1 hl
  refine ⟨hp, ?_, ?_, hmem_id, fun _ => rfl, ?_, ?_⟩
  · rw [hpe]
    rfl
  · rw [hpe]
    rfl
  · intro h2
    rw [hl] at h2
    exact absurd h2 (by omega)
  · intro i hi
    cases hi

theorem chainDatOK_merge {g : Graph} {p : List OrientedEdge}
    (hp : GoodChain g p) (hl : ¬ p.length = 1) :
    ChainDatOK g ⟨p, mergedEntry p, mergedDels p⟩ := by
  obtain ⟨hne, hmem, hnd, hch, hends⟩ := hp
  refine ⟨⟨hne, hmem, hnd, hch, hends⟩, mergedEntry_startNodeId p, mergedEntry_endNodeId p,
    mergedEntry_id_mem hne, ?_, ?_, ?_⟩
  · intro h1
    exact absurd h1 hl
  · intro _ i hiex h1 h2
    refine mergedDels_mem.mpr ⟨hiex, ?_, ?_⟩
    · rw [← mergedEntry_startNodeId]
      exact h1
    · rw [← mergedEntry_endNodeId]
      exact h2
  · intro i hi
    obtain ⟨⟨o, ho, hio⟩, hne1, hne2⟩ := mergedDels_mem.mp hi
    have hi_st : i = OrientedEdge.source o ∨ i = OrientedEdge.target o := by
      rcases endpoints_eq_source_target o with ⟨h1, h2⟩ | ⟨h1, h2⟩
      · rcases hio with hc | hc
        · exact Or.inl (by rw [hc, h1])
        · exact Or.inr (by rw [hc, h2])
      · rcases hio with hc | hc
        · exact Or.inr (by rw [hc, h1])
        · exact Or.inl (by rw [hc, h2])
    obtain ⟨r1, r2, hr⟩ := List.append_of_mem ho
    rcases hi_st with hsrc | htgt
    · rcases List.eq_nil_or_concat r1 with h1nil | ⟨r1p, w, hw⟩
      · exfalso
        subst h1nil
        refine hne1 ?_
        rw [hr, show (([] : List OrientedEdge) ++ o :: r2).headD dummyOrientedEdge = o
          from by simp]
        exact hsrc
      · rw [List.concat_eq_append] at hw
        subst hw
        have hpair : LinkedAt g w o := by
          refine chain'_pair (u := r1p) (v := r2) ?_
          rw [show r1p ++ w :: o :: r2 = (r1p ++ [w]) ++ o :: r2 by simp, ← hr]
          exact hch
        obtain ⟨hteq, n2, hn2, hdeg2, -, -, -⟩ := hpair
        refine ⟨n2, (getNode_mem hn2).1, ?_, hdeg2⟩
        rw [(getNode_mem hn2).2, hteq, ← hsrc]
    · cases hr2 : r2 with
      | nil =>
        exfalso
        subst hr2
        refine hne2 ?_
        rw [hr, show r1 ++ o :: ([] : List OrientedEdge) = r1 ++ [o] by simp,
          List.getLastD_concat]
        exact htgt
      | cons y r2p =>
        subst hr2
        have hpair : LinkedAt g o y := by
          refine chain'_pair (u := r1) (v := r2p) ?_
          rw [← hr]
          exact hch
        obtain ⟨-, n2, hn2, hdeg2, -, -, -⟩ := hpair
        refine ⟨n2, (getNode_mem hn2).1, ?_, hdeg2⟩
        rw [(getNode_mem hn2).2, ← htgt]

theorem sweep_inv {g : Graph} (hwf : Wellformed g)
    (hW6 : ∀ e ∈ g.edges, ∀ n ∈ g.nodes,
      n.id = e.startNodeId ∨ n.id = e.endNodeId → e.id ∈ n.edgeIds)
    (hSlots : ∀ n ∈ g.nodes, ∀ e ∈ g.edges,
      n.edgeIds.count e.id =
        (if e.startNodeId = n.id then 1 else 0) + (if e.endNodeId = n.id then 1 else 0)) :
    ∀ (todo done : List Edge) (st : CoalesceState) (cs : List ChainDat),
      g.edges = done ++ todo → SweepInv g done st cs →
      ∃ st2 cs2, todo.foldlM (coalesceStep g) st = .ok st2 ∧
        SweepInv g (done ++ todo) st2 cs2 := by
  intro todo
  induction todo with
  | nil =>
    intro done st cs hsplit hinv
    refine ⟨st, cs, rfl, ?_⟩
    rw [List.append_nil]
    exact hinv
  | cons x todo2 ih =>
    intro done st cs hsplit hinv
    obtain ⟨hOK, hPW, hNE, hDE1, hDE2, hDN1, hDN2, hCOV, hKEPT⟩ := hinv
    rw [List.foldlM_cons]
    by_cases hskip : x.id ∈ st.deletedEdgeIds
    · rw [coalesceStep_skip g st x hskip]
      have hinv2 : SweepInv g (done ++ [x]) st cs := by
        refine ⟨hOK, hPW, hNE, hDE1, hDE2, hDN1, hDN2, ?_, ?_⟩
        · intro e2 he2
          rcases List.mem_append.mp he2 with h | h
          · exact hCOV e2 h
          · have hex : e2 = x := by simpa using h
            rw [hex]
            exact hDE1 x.id hskip
        · intro c hc h1
          obtain ⟨o, ho1, ho2⟩ := hKEPT c hc h1
          exact ⟨o, ho1, List.mem_append_left _ ho2⟩
      obtain ⟨st2, cs2, hrun, hinv3⟩ := ih (done ++ [x]) st cs (by rw [hsplit]; simp) hinv2
      refine ⟨st2, cs2, ?_, ?_⟩
      · simp only [bind, Except.bind]
        exact hrun
      · rw [show done ++ x :: todo2 = (done ++ [x]) ++ todo2 by simp]
        exact hinv3
    · have hxmem : x ∈ g.edges := by rw [hsplit]; simp
      obtain ⟨p, hprun, hpgood, hpid, hp1⟩ := getOnlyPath_spec hwf hW6 hSlots hxmem
      obtain ⟨ox, hox, hoxid⟩ := List.mem_map.mp hpid
      have hdisj_new : ∀ c ∈ cs, ∀ i ∈ chainIds p, i ∉ chainIds c.path := by
        intro c hc
        have hxnot : x.id ∉ chainIds c.path := by
          intro hxin
          by_cases hlen1 : c.path.length = 1
          · obtain ⟨o, hco, hodone⟩ := hKEPT c hc hlen1
            rw [hco] at hxin
            have hxo : x.id = o.edge.id := by
              simpa [chainIds] using hxin
            have hnd2 : ((done ++ x :: todo2).map (·.id)).Nodup := by
              rw [← hsplit]
              exact hwf.2.1
            rw [List.map_append] at hnd2
            obtain ⟨-, -, hdisj2⟩ := List.nodup_append.mp hnd2
            refine hdisj2 (List.mem_map.mpr ⟨o.edge, hodone, hxo.symm⟩) ?_
            rw [List.map_cons]
            exact List.mem_cons_self _ _
          · have hlen2 : 2 ≤ c.path.length := by
              have hpos := List.length_pos.mpr (hOK c hc).1.1
              omega
            exact hskip (hDE2 c hc hlen2 x.id hxin)
        have hchain := hpgood.2.2.2.1
        have hav := chain_avoid hwf (hOK c hc).1 hchain hox (by rw [hoxid]; exact hxnot)
        intro i hi
        obtain ⟨o2, ho2, ho2id⟩ := List.mem_map.mp hi
        rw [← ho2id]
        exact hav o2 ho2
      have hPW2 : ∀ (cnew : ChainDat), cnew.path = p →
          List.Pairwise (fun c c2 => ∀ i ∈ chainIds c.path, i ∉ chainIds c2.path)
            (cs ++ [cnew]) := by
        intro cnew hcp
        refine List.pairwise_append.mpr ⟨hPW, List.pairwise_singleton _ _, ?_⟩
        intro a ha b hb
        have hb2 : b = cnew := by simpa using hb
        rw [hb2, hcp]
        intro i hia hip
        exact hdisj_new a ha i hip hia
      by_cases hlen1 : p.length = 1
      · rw [coalesceStep_keep g st x p hskip hprun hlen1]
        have hinv2 : SweepInv g (done ++ [x])
            { st with newEdges := st.newEdges ++ [x.toSimple] }
            (cs ++ [(⟨p, x.toSimple, []⟩ : ChainDat)]) := by
          refine ⟨?_, hPW2 _ rfl, ?_, ?_, ?_, ?_, ?_, ?_, ?_⟩
          · intro c hc
            rcases List.mem_append.mp hc with h | h
            · exact hOK c h
            · have hc2 : c = ⟨p, x.toSimple, []⟩ := by simpa using h
              rw [hc2]
              exact chainDatOK_keep hpgood hpid hp1 hlen1
          · show st.newEdges ++ [x.toSimple] = _
            rw [hNE, List.map_append]
            rfl
          · intro i hi
            obtain ⟨c, hc, hic⟩ := hDE1 i hi
            exact ⟨c, List.mem_append_left _ hc, hic⟩
          · intro c hc h2 i hic
            rcases List.mem_append.mp hc with h | h
            · exact hDE2 c h h2 i hic
            · exfalso
              have hc2 : c = ⟨p, x.toSimple, []⟩ := by simpa using h
              rw [hc2] at h2
              have h2b : 2 ≤ p.length := h2
              rw [hlen1] at h2b
              omega
          · intro c hc i hic
            rcases List.mem_append.mp hc with h | h
            · exact hDN1 c h i hic
            · exfalso
              have hc2 : c = ⟨p, x.toSimple, []⟩ := by simpa using h
              rw [hc2] at hic
              cases hic
          · intro i hi
            obtain ⟨c, hc, hic⟩ := hDN2 i hi
            exact ⟨c, List.mem_append_left _ hc, hic⟩
          · intro e2 he2
            rcases List.mem_append.mp he2 with h | h
            · obtain ⟨c, hc, hic⟩ := hCOV e2 h
              exact ⟨c, List.mem_append_left _ hc, hic⟩
            · have hex : e2 = x := by simpa using h
              rw [hex]
              exact ⟨⟨p, x.toSimple, []⟩, List.mem_append_right _ (List.mem_cons_self _ _),
                hpid⟩
          · intro c hc h1
            rcases List.mem_append.mp hc with h | h
            · obtain ⟨o, ho1, ho2⟩ := hKEPT c h h1
              exact ⟨o, ho1, List.mem_append_left _ ho2⟩
            · have hc2 : c = ⟨p, x.toSimple, []⟩ := by simpa using h
              rw [hc2]
              refine ⟨⟨x, true⟩, ?_, List.mem_append_right _ (List.mem_cons_self _ _)⟩
              show p = [⟨x, true⟩]
              exact hp1 hlen1
        obtain ⟨st2, cs2, hrun, hinv3⟩ := ih (done ++ [x]) _ _ (by rw [hsplit]; simp) hinv2
        refine ⟨st2, cs2, ?_, ?_⟩
        · simp only [bind, Except.bind]
          exact hrun
        · rw [show done ++ x :: todo2 = (done ++ [x]) ++ todo2 by simp]
          exact hinv3
      · rw [coalesceStep_merge g st x p hskip hprun hlen1]
        have hpc : (p.map (·.edge)).map (·.id) = chainIds p := by
          rw [List.map_map]
          rfl
        have hinv2 : SweepInv g (done ++ [x])
            { deletedNodeIds := st.deletedNodeIds ++ mergedDels p,
              deletedEdgeIds := st.deletedEdgeIds ++ (p.map (·.edge)).map (·.id),
              newEdges := st.newEdges ++ [mergedEntry p] }
            (cs ++ [(⟨p, mergedEntry p, mergedDels p⟩ : ChainDat)]) := by
          refine ⟨?_, hPW2 _ rfl, ?_, ?_, ?_, ?_, ?_, ?_, ?_⟩
          · intro c hc
            rcases List.mem_append.mp hc with h | h
            · exact hOK c h
            · have hc2 : c = ⟨p, mergedEntry p, mergedDels p⟩ := by simpa using h
              rw [hc2]
              exact chainDatOK_merge hpgood hlen1
          · show st.newEdges ++ [mergedEntry p] = _
            rw [hNE, List.map_append]
            rfl
          · intro i hi
            rcases List.mem_append.mp hi with h | h
            · obtain ⟨c, hc, hic⟩ := hDE1 i h
              exact ⟨c, List.mem_append_left _ hc, hic⟩
            · rw [hpc] at h
              exact ⟨⟨p, mergedEntry p, mergedDels p⟩,
                List.mem_append_right _ (List.mem_cons_self _ _), h⟩
          · intro c hc h2 i hic
            rcases List.mem_append.mp hc with h | h
            · exact List.mem_append_left _ (hDE2 c h h2 i hic)
            · have hc2 : c = ⟨p, mergedEntry p, mergedDels p⟩ := by simpa using h
              rw [hc2] at hic
              refine List.mem_append_right _ ?_
              rw [hpc]
              exact hic
          · intro c hc i hic
            rcases List.mem_append.mp hc with h | h
            · exact List.mem_append_left _ (hDN1 c h i hic)
            · have hc2 : c = ⟨p, mergedEntry p, mergedDels p⟩ := by simpa using h
              rw [hc2] at hic
              exact List.mem_append_right _ hic
          · intro i hi
            rcases List.mem_append.mp hi with h | h
            · obtain ⟨c, hc, hic⟩ := hDN2 i h
              exact ⟨c, List.mem_append_left _ hc, hic⟩
            · exact ⟨⟨p, mergedEntry p, mergedDels p⟩,
                List.mem_append_right _ (List.mem_cons_self _ _), h⟩
          · intro e2 he2
            rcases List.mem_append.mp he2 with h | h
            · obtain ⟨c, hc, hic⟩ := hCOV e2 h
              exact ⟨c, List.mem_append_left _ hc, hic⟩
            · have hex : e2 = x := by simpa using h
              rw [hex]
              exact ⟨⟨p, mergedEntry p, mergedDels p⟩,
                List.mem_append_right _ (List.mem_cons_self _ _), hpid⟩
          · intro c hc h1
            rcases List.mem_append.mp hc with h | h
            · obtain ⟨o, ho1, ho2⟩ := hKEPT c h h1
              exact ⟨o, ho1, List.mem_append_left _ ho2⟩
            · exfalso
              have hc2 : c = ⟨p, mergedEntry p, mergedDels p⟩ := by simpa using h
              rw [hc2] at h1
              exact hlen1 h1
        obtain ⟨st2, cs2, hrun, hinv3⟩ := ih (done ++ [x]) _ _ (by rw [hsplit]; simp) hinv2
        refine ⟨st2, cs2, ?_, ?_⟩
        · simp only [bind, Except.bind]
          exact hrun
        · rw [show done ++ x :: todo2 = (done ++ [x]) ++ todo2 by simp]
          exact hinv3

theorem contribS_append (nid : NodeId) : ∀ (l1 l2 : List SimpleEdge),
    contribS nid (l1 ++ l2) = contribS nid l1 ++ contribS nid l2 := by
  intro l1 l2
  induction l1 with
  | nil => rfl
  | cons a t ih =>
    rw [List.cons_append, contribS_cons, contribS_cons, ih]
    simp [List.append_assoc]

theorem contribS_single (nid : NodeId) (se : SimpleEdge) :
    contribS nid [se] =
      (if se.startNodeId = nid then [se.id] else []) ++
        (if se.endNodeId = nid then [se.id] else []) := by
  rw [contribS_cons, show contribS nid [] = [] from rfl, List.append_nil]

theorem contribS_sum_length (nid : NodeId) : ∀ (ses : List SimpleEdge),
    (contribS nid ses).length = (ses.map (fun se => (contribS nid [se]).length)).sum := by
  intro ses
  induction ses with
  | nil => rfl
  | cons a t ih =>
    rw [contribS_cons, List.length_append, ih, List.map_cons, List.sum_cons]
    congr 1
    rw [contribS_single]

theorem contribS_single_length (nid : NodeId) (se : SimpleEdge) :
    (contribS nid [se]).length =
      (if se.startNodeId = nid then 1 else 0) + (if se.endNodeId = nid then 1 else 0) := by
  by_cases h1 : se.startNodeId = nid <;> by_cases h2 : se.endNodeId = nid <;>
    simp [contribS_single, h1, h2]

theorem ind_swap (o : OrientedEdge) (nid : NodeId) :
    ((if OrientedEdge.source o = nid then 1 else 0) +
      (if OrientedEdge.target o = nid then 1 else 0) : ℕ) =
    (if o.edge.startNodeId = nid then 1 else 0) +
      (if o.edge.endNodeId = nid then 1 else 0) := by
  unfold OrientedEdge.source OrientedEdge.target
  by_cases hf : o.isForward = true
  · rw [if_pos hf, if_pos hf]
  · rw [if_neg hf, if_neg hf]
    exact Nat.add_comm _ _

theorem filter_length_eq_count {l : List EdgeId} {p : EdgeId → Bool} {a : EdgeId}
    (h : ∀ i ∈ l, p i = true ↔ i = a) :
    (l.filter p).length = l.count a := by
  induction l with
  | nil => rfl
  | cons i t ih =>
    rw [List.count_cons]
    have ht : ∀ j ∈ t, p j = true ↔ j = a := fun j hj => h j (List.mem_cons_of_mem _ hj)
    by_cases hp : p i = true
    · rw [List.filter_cons_of_pos hp, List.length_cons, ih ht]
      have hia : i = a := (h i (List.mem_cons_self _ _)).mp hp
      rw [hia]
      simp
    · rw [List.filter_cons_of_neg hp, ih ht]
      have hia : i ≠ a := fun hc => hp ((h i (List.mem_cons_self _ _)).mpr hc)
      have hb : (i == a) = false := beq_eq_false_iff_ne.mpr hia
      rw [hb]
      simp

theorem filter_length_eq_count_pair {a b : EdgeId} (hab : a ≠ b) :
    ∀ {l : List EdgeId} {p : EdgeId → Bool},
    (∀ i ∈ l, p i = true ↔ (i = a ∨ i = b)) →
    (l.filter p).length = l.count a + l.count b := by
  intro l
  induction l with
  | nil => intro p _; rfl
  | cons i t ih =>
    intro p h
    rw [List.count_cons, List.count_cons]
    have ht : ∀ j ∈ t, p j = true ↔ (j = a ∨ j = b) :=
      fun j hj => h j (List.mem_cons_of_mem _ hj)
    by_cases hp : p i = true
    · rw [List.filter_cons_of_pos hp, List.length_cons, ih ht]
      rcases (h i (List.mem_cons_self _ _)).mp hp with hia | hib
      · rw [hia]
        have h2 : (a == b) = false := beq_eq_false_iff_ne.mpr hab
        rw [h2]
        simp
        omega
      · rw [hib]
        have h2 : (b == a) = false :=
          beq_eq_false_iff_ne.mpr (fun hc => hab hc.symm)
        rw [h2]
        simp
        omega
    · rw [List.filter_cons_of_neg hp, ih ht]
      have hia : i ≠ a := fun hc => hp ((h i (List.mem_cons_self _ _)).mpr (Or.inl hc))
      have hib : i ≠ b := fun hc => hp ((h i (List.mem_cons_self _ _)).mpr (Or.inr hc))
      rw [beq_eq_false_iff_ne.mpr hia, beq_eq_false_iff_ne.mpr hib]
      simp

theorem filter_partition_length :
    ∀ (cs : List ChainDat) (l : List EdgeId),
      List.Pairwise (fun c c2 => ∀ i ∈ chainIds c.path, i ∉ chainIds c2.path) cs →
      (∀ i ∈ l, ∃ c ∈ cs, i ∈ chainIds c.path) →
      (cs.map (fun c => (l.filter (fun i => decide (i ∈ chainIds c.path))).length)).sum =
        l.length := by
  intro cs
  induction cs with
  | nil =>
    intro l _ hcov
    have hl : l = [] := by
      cases l with
      | nil => rfl
      | cons a t =>
        obtain ⟨c, hc, -⟩ := hcov a (List.mem_cons_self _ _)
        cases hc
    rw [hl]
    rfl
  | cons c cs2 ih =>
    intro l hpw hcov
    rw [List.map_cons, List.sum_cons]
    have hperm := List.filter_append_perm (fun i => decide (i ∈ chainIds c.path)) l
    have hlen : (l.filter (fun i => decide (i ∈ chainIds c.path))).length +
        (l.filter (fun i => !decide (i ∈ chainIds c.path))).length = l.length := by
      have hq := hperm.length_eq
      rw [List.length_append] at hq
      exact hq
    have hpw2 := (List.pairwise_cons.mp hpw).2
    have hdisj := (List.pairwise_cons.mp hpw).1
    have hcov2 : ∀ i ∈ l.filter (fun i => !decide (i ∈ chainIds c.path)),
        ∃ c2 ∈ cs2, i ∈ chainIds c2.path := by
      intro i hi
      obtain ⟨hil, hip⟩ := List.mem_filter.mp hi
      obtain ⟨c2, hc2, hic2⟩ := hcov i hil
      rcases List.mem_cons.mp hc2 with h | h
      · exfalso
        rw [h] at hic2
        simp [hic2] at hip
      · exact ⟨c2, h, hic2⟩
    have hih := ih (l.filter (fun i => !decide (i ∈ chainIds c.path))) hpw2 hcov2
    have hmapeq : cs2.map (fun c2 =>
          ((l.filter (fun i => !decide (i ∈ chainIds c.path))).filter
            (fun i => decide (i ∈ chainIds c2.path))).length) =
        cs2.map (fun c2 => (l.filter (fun i => decide (i ∈ chainIds c2.path))).length) := by
      refine List.map_congr_left ?_
      intro c2 hc2
      congr 1
      rw [List.filter_filter]
      refine List.filter_congr ?_
      intro i hil
      by_cases h2 : i ∈ chainIds c2.path
      · have h1 : i ∉ chainIds c.path := fun hc1 => hdisj c2 hc2 i hc1 h2
        simp [h2, h1]
      · simp [h2]
    have hsum2 : (cs2.map (fun c2 =>
        (l.filter (fun i => decide (i ∈ chainIds c2.path))).length)).sum =
        (l.filter (fun i => !decide (i ∈ chainIds c.path))).length := by
      rw [← hmapeq]
      exact hih
    rw [hsum2]
    exact hlen

theorem slot_source_target {g : Graph} (hwf : Wellformed g)
    {n : Node} (hn : n ∈ g.nodes) {i : EdgeId} (hslot : i ∈ n.edgeIds)
    {o : OrientedEdge} (homem : o.edge ∈ g.edges) (hoid : o.edge.id = i) :
    n.id = OrientedEdge.source o ∨ n.id = OrientedEdge.target o := by
  obtain ⟨x, hx, hxid, hxend⟩ := hwf.2.2.2 n hn i hslot
  have hxo : x = o.edge := edge_eq_of_id hwf hx homem (by rw [hxid, hoid])
  rw [hxo] at hxend
  rcases endpoints_eq_source_target o with ⟨h1, h2⟩ | ⟨h1, h2⟩
  · rcases hxend with hc | hc
    · exact Or.inl (by rw [← hc, h1])
    · exact Or.inr (by rw [← hc, h2])
  · rcases hxend with hc | hc
    · exact Or.inr (by rw [← hc, h1])
    · exact Or.inl (by rw [← hc, h2])

theorem chain_occurrence_end {g : Graph} (hwf : Wellformed g)
    {n : Node} (hn : n ∈ g.nodes) (hdegne : n.edgeIds.length ≠ 2)
    {P : List OrientedEdge} (hch : List.Chain' (LinkedAt g) P)
    {o : OrientedEdge} {a b : List OrientedEdge} (hr : P = a ++ o :: b) :
    (n.id = OrientedEdge.source o → a = []) ∧
    (n.id = OrientedEdge.target o → b = []) := by
  constructor
  · intro hsrc
    rcases List.eq_nil_or_concat a with h | ⟨r1p, w, hw⟩
    · exact h
    · exfalso
      rw [List.concat_eq_append] at hw
      subst hw
      have hpair : LinkedAt g w o := by
        refine chain'_pair (u := r1p) (v := b) ?_
        rw [show r1p ++ w :: o :: b = (r1p ++ [w]) ++ o :: b by simp, ← hr]
        exact hch
      obtain ⟨hteq, n2, hn2, hdeg2, -, -, -⟩ := hpair
      have hn2id : n2.id = n.id := by
        rw [(getNode_mem hn2).2, hteq, ← hsrc]
      have hq : n2 = n := node_eq_of_id hwf (getNode_mem hn2).1 hn hn2id
      rw [hq] at hdeg2
      exact hdegne hdeg2
  · intro htgt
    cases hr2 : b with
    | nil => rfl
    | cons y r2p =>
      exfalso
      subst hr2
      have hpair : LinkedAt g o y := by
        refine chain'_pair (u := a) (v := r2p) ?_
        rw [← hr]
        exact hch
      obtain ⟨-, n2, hn2, hdeg2, -, -, -⟩ := hpair
      have hn2id : n2.id = n.id := by
        rw [(getNode_mem hn2).2, ← htgt]
      have hq : n2 = n := node_eq_of_id hwf (getNode_mem hn2).1 hn hn2id
      rw [hq] at hdeg2
      exact hdegne hdeg2

theorem chain_contrib_count {g : Graph} (hwf : Wellformed g)
    (hSlots : ∀ n ∈ g.nodes, ∀ e ∈ g.edges,
      n.edgeIds.count e.id =
        (if e.startNodeId = n.id then 1 else 0) + (if e.endNodeId = n.id then 1 else 0))
    {n : Node} (hn : n ∈ g.nodes) (hdegne : n.edgeIds.length ≠ 2)
    {c : ChainDat} (hc : ChainDatOK g c) :
    (contribS n.id [c.entry]).length =
      (n.edgeIds.filter (fun i => decide (i ∈ chainIds c.path))).length := by
  obtain ⟨⟨hne, hmem, hnd, hch, hends⟩, hst, hen, hidm, -, -, -⟩ := hc
  rw [contribS_single_length]
  by_cases hl1 : c.path.length = 1
  · obtain ⟨o, ho⟩ := List.length_eq_one.mp hl1
    have hhd : c.path.headD dummyOrientedEdge = o := by rw [ho]; rfl
    have hld : c.path.getLastD dummyOrientedEdge = o := by rw [ho]; rfl
    have homem : o.edge ∈ g.edges := hmem o (by rw [ho]; exact List.mem_cons_self _ _)
    have hcount := hSlots n hn o.edge homem
    have hfilt : (n.edgeIds.filter (fun i => decide (i ∈ chainIds c.path))).length =
        n.edgeIds.count o.edge.id := by
      refine filter_length_eq_count ?_
      intro i hi
      rw [decide_eq_true_eq]
      constructor
      · intro h
        rw [ho] at h
        simpa [chainIds] using h
      · intro h
        rw [ho, h]
        exact List.mem_map.mpr ⟨o, List.mem_cons_self _ _, rfl⟩
    rw [hfilt, hcount, hst, hen, hhd, hld, ind_swap]
  · obtain ⟨o0, rest, hP⟩ : ∃ o0 rest, c.path = o0 :: rest := by
      cases hp : c.path with
      | nil => exact absurd hp hne
      | cons a t => exact ⟨a, t, rfl⟩
    have hrestne : rest ≠ [] := by
      intro h
      rw [hP, h] at hl1
      exact hl1 rfl
    obtain ⟨r2, olast, hr⟩ : ∃ r2 olast, rest = r2 ++ [olast] := by
      rcases List.eq_nil_or_concat rest with h | ⟨r2, olast, h⟩
      · exact absurd h hrestne
      · rw [List.concat_eq_append] at h
        exact ⟨r2, olast, h⟩
    have hPfull : c.path = (o0 :: r2) ++ [olast] := by
      rw [hP, hr]
      simp
    have hhd : c.path.headD dummyOrientedEdge = o0 := by rw [hP]; rfl
    have hld : c.path.getLastD dummyOrientedEdge = olast := by
      rw [hPfull, List.getLastD_concat]
    have ho0mem : o0.edge ∈ g.edges := hmem o0 (by rw [hP]; exact List.mem_cons_self _ _)
    have holmem : olast.edge ∈ g.edges := by
      refine hmem olast ?_
      rw [hPfull]
      simp
    have hne0l : o0.edge.id ≠ olast.edge.id := by
      intro hcq
      rw [hP, List.map_cons] at hnd
      refine (List.nodup_cons.mp hnd).1 ?_
      rw [hcq]
      refine List.mem_map.mpr ⟨olast, ?_, rfl⟩
      rw [hr]
      simp
    have hind0 : ¬ n.id = OrientedEdge.target o0 := by
      intro htgt
      have hocc := chain_occurrence_end hwf hn hdegne hch
        (o := o0) (a := []) (b := r2 ++ [olast]) (by rw [hPfull]; simp)
      have hq := hocc.2 htgt
      simp at hq
    have hindl : ¬ n.id = OrientedEdge.source olast := by
      intro hsrc
      have hocc := chain_occurrence_end hwf hn hdegne hch
        (o := olast) (a := o0 :: r2) (b := []) (by rw [hPfull])
      have hq := hocc.1 hsrc
      simp at hq
    have hnt : ¬ (OrientedEdge.target o0 = n.id) := fun hq => hind0 hq.symm
    have hns : ¬ (OrientedEdge.source olast = n.id) := fun hq => hindl hq.symm
    have hc0b : n.edgeIds.count o0.edge.id =
        (if OrientedEdge.source o0 = n.id then 1 else 0) := by
      rw [hSlots n hn o0.edge ho0mem, ← ind_swap, if_neg hnt, Nat.add_zero]
    have hclb : n.edgeIds.count olast.edge.id =
        (if OrientedEdge.target olast = n.id then 1 else 0) := by
      rw [hSlots n hn olast.edge holmem, ← ind_swap, if_neg hns, Nat.zero_add]
    have hfilt : (n.edgeIds.filter (fun i => decide (i ∈ chainIds c.path))).length =
        n.edgeIds.count o0.edge.id + n.edgeIds.count olast.edge.id := by
      refine filter_length_eq_count_pair hne0l ?_
      intro i hi
      rw [decide_eq_true_eq]
      constructor
      · intro hiP
        obtain ⟨o, hoP, hoid⟩ := List.mem_map.mp hiP
        rcases slot_source_target hwf hn hi (hmem o hoP) hoid with hsrc | htgt
        · obtain ⟨r1b, rr2, hrr⟩ := List.append_of_mem hoP
          have h1 := (chain_occurrence_end hwf hn hdegne hch hrr).1 hsrc
          rw [h1] at hrr
          rw [hP] at hrr
          have hrr2 : o0 = o ∧ rest = rr2 := by simpa using hrr
          exact Or.inl (by rw [← hoid, ← hrr2.1])
        · obtain ⟨r1b, rr2, hrr⟩ := List.append_of_mem hoP
          have h2 := (chain_occurrence_end hwf hn hdegne hch hrr).2 htgt
          rw [h2] at hrr
          have hlo : c.path.getLastD dummyOrientedEdge = o := by
            rw [hrr, List.getLastD_concat]
          rw [hld] at hlo
          exact Or.inr (by rw [← hoid, ← hlo])
      · intro hio
        rcases hio with h | h
        · rw [h]
          refine List.mem_map.mpr ⟨o0, ?_, rfl⟩
          rw [hP]
          exact List.mem_cons_self _ _
        · rw [h]
          refine List.mem_map.mpr ⟨olast, ?_, rfl⟩
          rw [hPfull]
          simp
    rw [hfilt, hc0b, hclb, hst, hen, hhd, hld]

theorem contrib_two_of_entry {n : Node} {cs : List ChainDat} {c1 : ChainDat}
    (hc1 : c1 ∈ cs)
    (hstart : c1.entry.startNodeId = n.id) (hend : c1.entry.endNodeId = n.id)
    (htot : (contribS n.id (cs.map (·.entry))).length = 2) :
    contribS n.id (cs.map (·.entry)) = [c1.entry.id, c1.entry.id] := by
  obtain ⟨A, B, hAB⟩ := List.append_of_mem hc1
  have hmid : contribS n.id [c1.entry] = [c1.entry.id, c1.entry.id] := by
    rw [contribS_single, if_pos hstart, if_pos hend]
    rfl
  have hsplit : contribS n.id ((A ++ c1 :: B).map (·.entry)) =
      contribS n.id (A.map (·.entry)) ++ contribS n.id [c1.entry] ++
        contribS n.id (B.map (·.entry)) := by
    rw [List.map_append, contribS_append, List.map_cons,
      show (c1.entry :: B.map (·.entry)) = [c1.entry] ++ B.map (·.entry) from rfl,
      contribS_append, ← List.append_assoc]
  rw [hAB] at htot ⊢
  rw [hsplit] at htot ⊢
  rw [hmid] at htot ⊢
  rw [List.length_append, List.length_append] at htot
  have h2 : ([c1.entry.id, c1.entry.id] : List EdgeId).length = 2 := rfl
  rw [h2] at htot
  have hA0 : contribS n.id (A.map (·.entry)) = [] :=
    List.length_eq_zero.mp (by omega)
  have hB0 : contribS n.id (B.map (·.entry)) = [] :=
    List.length_eq_zero.mp (by omega)
  rw [hA0, hB0]
  rfl

theorem deg2loop_of_sweep {g : Graph} (hwf : Wellformed g)
    (hSlots : ∀ n ∈ g.nodes, ∀ e ∈ g.edges,
      n.edgeIds.count e.id =
        (if e.startNodeId = n.id then 1 else 0) + (if e.endNodeId = n.id then 1 else 0))
    {st : CoalesceState} {cs : List ChainDat}
    (hinv : SweepInv g g.edges st cs)
    {n : Node} (hn : n ∈ g.nodes) (hsurv : n.id ∉ st.deletedNodeIds)
    (htot : (contribS n.id (cs.map (·.entry))).length = 2) :
    ∃ i, contribS n.id (cs.map (·.entry)) = [i, i] := by
  obtain ⟨hOK, hPW, hNE, hDE1, hDE2, hDN1, hDN2, hCOV, hKEPT⟩ := hinv
  have hcover : ∀ i ∈ n.edgeIds, ∃ c ∈ cs, i ∈ chainIds c.path := by
    intro i hi
    obtain ⟨x, hx, hxid, -⟩ := hwf.2.2.2 n hn i hi
    obtain ⟨c, hc, hic⟩ := hCOV x hx
    rw [hxid] at hic
    exact ⟨c, hc, hic⟩
  by_cases hdeg : n.edgeIds.length = 2
  case neg =>
    exfalso
    have hsum := contribS_sum_length n.id (cs.map (·.entry))
    rw [List.map_map] at hsum
    have hsum2 : (cs.map ((fun se => (contribS n.id [se]).length) ∘ (·.entry))).sum =
        (cs.map (fun c =>
          (n.edgeIds.filter (fun i => decide (i ∈ chainIds c.path))).length)).sum := by
      congr 1
      refine List.map_congr_left ?_
      intro c hc
      exact chain_contrib_count hwf hSlots hn hdeg (hOK c hc)
    rw [hsum2, filter_partition_length cs n.edgeIds hPW hcover, htot] at hsum
    exact hdeg hsum.symm
  case pos =>
    obtain ⟨s1, s2, hab⟩ := List.length_eq_two.mp hdeg
    have hs1mem : s1 ∈ n.edgeIds := by rw [hab]; simp
    have hs2mem : s2 ∈ n.edgeIds := by rw [hab]; simp
    obtain ⟨x1, hx1, hx1id, hx1end⟩ := hwf.2.2.2 n hn s1 hs1mem
    obtain ⟨c1, hc1, hs1in⟩ := hCOV x1 hx1
    rw [hx1id] at hs1in
    obtain ⟨o1, ho1, ho1id⟩ := List.mem_map.mp hs1in
    have ho1mem : o1.edge ∈ g.edges := (hOK c1 hc1).1.2.1 o1 ho1
    have ho1x1 : o1.edge = x1 := edge_eq_of_id hwf ho1mem hx1 (by rw [ho1id, hx1id])
    by_cases hss : s1 = s2
    · have hcnt : n.edgeIds.count x1.id = 2 := by
        rw [hab, hx1id, ← hss]
        simp [List.count_cons]
      have hloop := slots_self_loop hSlots hn hx1 (by omega)
      obtain ⟨r1, r2, hr⟩ := List.append_of_mem ho1
      have htv : OrientedEdge.target o1 = n.id := by
        rcases target_mem_endpoints o1 with hc | hc
        · rw [hc, ho1x1]
          exact hloop.1
        · rw [hc, ho1x1]
          exact hloop.2
      have hsv : OrientedEdge.source o1 = n.id := by
        rcases source_mem_endpoints o1 with hc | hc
        · rw [hc, ho1x1]
          exact hloop.1
        · rw [hc, ho1x1]
          exact hloop.2
      have hr2nil : r2 = [] := by
        cases hr2c : r2 with
        | nil => rfl
        | cons y t =>
          exfalso
          subst hr2c
          have hpair : LinkedAt g o1 y := by
            refine chain'_pair (u := r1) (v := t) ?_
            rw [← hr]
            exact (hOK c1 hc1).1.2.2.2.1
          obtain ⟨-, n2, hn2, -, hm1, hm2, hnepair⟩ := hpair
          have hn2id : n2.id = n.id := by rw [(getNode_mem hn2).2, htv]
          have hn2n : n2 = n := node_eq_of_id hwf (getNode_mem hn2).1 hn hn2id
          rw [hn2n, hab] at hm2
          rcases (by simpa using hm2 : y.edge.id = s1 ∨ y.edge.id = s2) with hc | hc
          · exact hnepair (ho1id.trans hc.symm)
          · exact hnepair (ho1id.trans (hss.trans hc.symm))
      rcases List.eq_nil_or_concat r1 with hr1nil | ⟨r1p, w, hw⟩
      · have hpath1 : c1.path = [o1] := by
          rw [hr, hr1nil, hr2nil]
          rfl
        have hes : c1.entry.startNodeId = n.id := by
          rw [(hOK c1 hc1).2.1, hpath1]
          exact hsv
        have hee : c1.entry.endNodeId = n.id := by
          rw [(hOK c1 hc1).2.2.1, hpath1]
          exact htv
        exact ⟨c1.entry.id, contrib_two_of_entry hc1 hes hee htot⟩
      · exfalso
        rw [List.concat_eq_append] at hw
        subst hw
        have hpair : LinkedAt g w o1 := by
          refine chain'_pair (u := r1p) (v := r2) ?_
          rw [show r1p ++ w :: o1 :: r2 = (r1p ++ [w]) ++ o1 :: r2 by simp, ← hr]
          exact (hOK c1 hc1).1.2.2.2.1
        obtain ⟨hteq, n2, hn2, -, hm1, hm2, hnepair⟩ := hpair
        have hn2id : n2.id = n.id := by rw [(getNode_mem hn2).2, hteq, hsv]
        have hn2n : n2 = n := node_eq_of_id hwf (getNode_mem hn2).1 hn hn2id
        rw [hn2n, hab] at hm1
        rcases (by simpa using hm1 : w.edge.id = s1 ∨ w.edge.id = s2) with hc | hc
        · exact hnepair (hc.trans ho1id.symm)
        · exact hnepair (hc.trans (hss.symm.trans ho1id.symm))
    · have hs2in : s2 ∈ chainIds c1.path :=
        goodChain_closed hwf (hOK c1 hc1).1 n hn hdeg s1 hs1mem hs1in s2 hs2mem
      have hlen2 : ¬ c1.path.length = 1 := by
        intro h1
        obtain ⟨o, ho⟩ := List.length_eq_one.mp h1
        rw [ho] at hs1in hs2in
        have e1 : s1 = o.edge.id := by simpa [chainIds] using hs1in
        have e2 : s2 = o.edge.id := by simpa [chainIds] using hs2in
        exact hss (e1.trans e2.symm)
      have hnocc : ∃ o ∈ c1.path, n.id = o.edge.startNodeId ∨ n.id = o.edge.endNodeId := by
        refine ⟨o1, ho1, ?_⟩
        rw [ho1x1]
        rcases hx1end with hc | hc
        · exact Or.inl hc.symm
        · exact Or.inr hc.symm
      obtain ⟨hgood, hest, heen, -, -, hdel, -⟩ := hOK c1 hc1
      have hdel2 := hdel (by have h1 := List.length_pos.mpr hgood.1; omega)
      rcases hgood.2.2.2.2 with ⟨hA1, hA2⟩ | ⟨-, hB⟩ | ⟨o, hCp, -, -⟩
      · exfalso
        have hne1 : n.id ≠ c1.entry.startNodeId := by
          intro hc
          refine hA1 n ?_ hdeg
          rw [← hest, ← hc]
          exact getNode_self hwf.1 hn
        have hne2 : n.id ≠ c1.entry.endNodeId := by
          intro hc
          refine hA2 n ?_ hdeg
          rw [← heen, ← hc]
          exact getNode_self hwf.1 hn
        exact hsurv (hDN1 c1 hc1 n.id (hdel2 n.id hnocc hne1 hne2))
      · have heq : c1.entry.endNodeId = c1.entry.startNodeId := by
          rw [hest, heen]
          exact hB.1
        by_cases hcn : n.id = c1.entry.startNodeId
        · refine ⟨c1.entry.id, contrib_two_of_entry hc1 hcn.symm ?_ htot⟩
          rw [heq]
          exact hcn.symm
        · exfalso
          have hne2 : n.id ≠ c1.entry.endNodeId := by
            rw [heq]
            exact hcn
          exact hsurv (hDN1 c1 hc1 n.id (hdel2 n.id hnocc hcn hne2))
      · exfalso
        apply hlen2
        rw [hCp]
        rfl

theorem pushEdgeId_sim (ns : List Node) (nid : NodeId) (eid : EdgeId) :
    (pushEdgeId ns nid eid).map
        (fun n => ({ id := n.id, location := n.location } : SimpleNode)) =
      ns.map (fun n => ({ id := n.id, location := n.location } : SimpleNode)) := by
  unfold pushEdgeId
  rw [List.map_map]
  refine List.map_congr_left ?_
  intro n _
  by_cases hc : n.id = nid
  · simp [hc]
  · simp [hc]

theorem mkDerivedEdge_toSimple (e : SimpleEdge) (sn tn : Node) :
    (mkDerivedEdge e sn tn).toSimple = e := rfl

theorem buildNodes_sim : ∀ (ns : List SimpleNode) (acc out : List Node),
    buildNodes ns acc = .ok out →
    out.map (fun n => ({ id := n.id, location := n.location } : SimpleNode)) =
      acc.map (fun n => ({ id := n.id, location := n.location } : SimpleNode)) ++ ns := by
  intro ns
  induction ns with
  | nil =>
    intro acc out h
    cases h
    simp
  | cons n rest ih =>
    intro acc out h
    unfold buildNodes at h
    by_cases hdup : (acc.any (fun x => x.id = n.id)) = true
    · rw [if_pos hdup] at h
      cases h
    · rw [if_neg hdup] at h
      have hq := ih _ _ h
      rw [hq]
      simp

theorem foldlM_addEdge_sim :
    ∀ (es : List SimpleEdge) (ns : List Node) (acc : List Edge)
      (out : List Node × List Edge),
      es.foldlM addEdge (ns, acc) = .ok out →
      out.1.map (fun n => ({ id := n.id, location := n.location } : SimpleNode)) =
          ns.map (fun n => ({ id := n.id, location := n.location } : SimpleNode)) ∧
        out.2.map Edge.toSimple = acc.map Edge.toSimple ++ es := by
  intro es
  induction es with
  | nil =>
    intro ns acc out h
    simp only [List.foldlM_nil, pure, Except.pure, Except.ok.injEq] at h
    subst h
    exact ⟨rfl, by simp⟩
  | cons e rest ih =>
    intro ns acc out h
    rw [List.foldlM_cons] at h
    cases ha : addEdge (ns, acc) e with
    | error m => rw [ha] at h; cases h
    | ok st2 =>
      rw [ha] at h
      simp only [bind, Except.bind] at h
      obtain ⟨sn, tn, hfs, hft, hout⟩ := addEdge_ok ha
      subst hout
      obtain ⟨h1, h2⟩ := ih _ _ _ h
      constructor
      · rw [h1, pushEdgeId_sim, pushEdgeId_sim]
      · rw [h2]
        simp [mkDerivedEdge_toSimple]

theorem created_rebuild_inputs {ns : List SimpleNode} {es : List SimpleEdge} {h : Graph}
    (hcr : Graph.create ns es = .ok h) :
    h.nodes.map (fun n => ({ id := n.id, location := n.location } : SimpleNode)) = ns ∧
      h.edges.map Edge.toSimple = es := by
  obtain ⟨nsb, out, hb, hf, hn, he, -⟩ := create_ok hcr
  obtain ⟨h1, h2⟩ := foldlM_addEdge_sim es nsb [] out hf
  constructor
  · rw [hn, h1, buildNodes_sim ns [] nsb hb]
    simp
  · rw [he, h2]
    simp

theorem stable_fold {h : Graph} (hstable : CoalesceStable h) :
    ∀ (todo : List Edge), (∀ e ∈ todo, e ∈ h.edges) →
      ∀ (st : CoalesceState), st.deletedEdgeIds = [] →
      ∃ st2, todo.foldlM (coalesceStep h) st = .ok st2 ∧
        st2.deletedNodeIds = st.deletedNodeIds ∧ st2.deletedEdgeIds = [] ∧
        st2.newEdges = st.newEdges ++ todo.map Edge.toSimple := by
  intro todo
  induction todo with
  | nil =>
    intro _ st hde
    exact ⟨st, rfl, rfl, hde, by simp⟩
  | cons x t ih =>
    intro hmem st hde
    obtain ⟨p, hrun, hp1⟩ := hstable x (hmem x (List.mem_cons_self _ _))
    have hskip : x.id ∉ st.deletedEdgeIds := by
      rw [hde]
      exact List.not_mem_nil _
    rw [List.foldlM_cons, coalesceStep_keep h st x p hskip hrun hp1]
    simp only [bind, Except.bind]
    obtain ⟨st2, hrun2, hdn, hde2, hne2⟩ :=
      ih (fun e he => hmem e (List.mem_cons_of_mem _ he))
        { st with newEdges := st.newEdges ++ [x.toSimple] } hde
    refine ⟨st2, hrun2, hdn, hde2, ?_⟩
    rw [hne2]
    show (st.newEdges ++ [x.toSimple]) ++ t.map Edge.toSimple =
      st.newEdges ++ (x :: t).map Edge.toSimple
    simp

theorem stable_coalesced_self {h : Graph} (hstable : CoalesceStable h)
    {ns : List SimpleNode} {es : List SimpleEdge}
    (hcr : Graph.create ns es = .ok h) :
    h.coalesced = .ok h := by
  obtain ⟨st2, hrun, hdn, hde, hne⟩ :=
    stable_fold hstable h.edges (fun e he => he) ⟨[], [], []⟩ rfl
  unfold Graph.coalesced
  rw [hrun]
  simp only [bind, Except.bind]
  have hfilt : h.nodes.filter (fun n => n.id ∉ st2.deletedNodeIds) = h.nodes := by
    refine List.filter_eq_self.mpr ?_
    intro n _
    rw [hdn]
    simp
  rw [hfilt, hne]
  show Graph.create (h.nodes.map fun n => { id := n.id, location := n.location })
    (([] : List SimpleEdge) ++ h.edges.map Edge.toSimple) = .ok h
  rw [List.nil_append]
  obtain ⟨hn, he⟩ := created_rebuild_inputs hcr
  rw [hn, he]
  exact hcr

theorem stable_of_deg2loop {h : Graph} (hwf : Wellformed h)
    (hW6 : ∀ e ∈ h.edges, ∀ n ∈ h.nodes,
      n.id = e.startNodeId ∨ n.id = e.endNodeId → e.id ∈ n.edgeIds)
    (hSlots : ∀ n ∈ h.nodes, ∀ e ∈ h.edges,
      n.edgeIds.count e.id =
        (if e.startNodeId = n.id then 1 else 0) + (if e.endNodeId = n.id then 1 else 0))
    (hd2 : Deg2Loop h) : CoalesceStable h := by
  intro e he
  obtain ⟨p, hrun, hgood, hpid, hp1⟩ := getOnlyPath_spec hwf hW6 hSlots he
  refine ⟨p, hrun, ?_⟩
  by_contra hne1
  obtain ⟨o0, rest, hP⟩ : ∃ o0 rest, p = o0 :: rest := by
    cases hq : p with
    | nil => exact absurd hq hgood.1
    | cons a t => exact ⟨a, t, rfl⟩
  obtain ⟨o1, rest2, hR⟩ : ∃ o1 rest2, rest = o1 :: rest2 := by
    cases hq : rest with
    | nil =>
      exfalso
      apply hne1
      rw [hP, hq]
      rfl
    | cons a t => exact ⟨a, t, rfl⟩
  have hpair : LinkedAt h o0 o1 := by
    refine chain'_pair (u := []) (v := rest2) ?_
    rw [show ([] : List OrientedEdge) ++ o0 :: o1 :: rest2 = o0 :: o1 :: rest2 by simp,
      ← hR, ← hP]
    exact hgood.2.2.2.1
  obtain ⟨-, n2, hn2, hdeg2, hm1, hm2, hnepair⟩ := hpair
  obtain ⟨i, hslots⟩ := hd2 n2 (getNode_mem hn2).1 hdeg2
  rw [hslots] at hm1 hm2
  have h1 : o0.edge.id = i := by simpa using hm1
  have h2 : o1.edge.id = i := by simpa using hm2
  exact hnepair (h1.trans h2.symm)

theorem coalesced_is_create {g : Graph} (hwf : Wellformed g)
    (hW6 : ∀ e ∈ g.edges, ∀ n ∈ g.nodes,
      n.id = e.startNodeId ∨ n.id = e.endNodeId → e.id ∈ n.edgeIds)
    (hSlots : ∀ n ∈ g.nodes, ∀ e ∈ g.edges,
      n.edgeIds.count e.id =
        (if e.startNodeId = n.id then 1 else 0) + (if e.endNodeId = n.id then 1 else 0))
    {h : Graph} (hco : g.coalesced = .ok h) :
    ∃ st cs, SweepInv g g.edges st cs ∧
      Graph.create ((g.nodes.filter (fun n => n.id ∉ st.deletedNodeIds)).map
        (fun n => { id := n.id, location := n.location })) st.newEdges = .ok h := by
  obtain ⟨st, cs, hrun, hinv⟩ := sweep_inv hwf hW6 hSlots g.edges [] ⟨[], [], []⟩ []
    (by simp)
    ⟨fun c hc => absurd hc (List.not_mem_nil c), List.Pairwise.nil, rfl,
      fun i hi => absurd hi (List.not_mem_nil i),
      fun c hc => absurd hc (List.not_mem_nil c),
      fun c hc => absurd hc (List.not_mem_nil c),
      fun i hi => absurd hi (List.not_mem_nil i),
      fun e he => absurd he (List.not_mem_nil e),
      fun c hc => absurd hc (List.not_mem_nil c)⟩
  refine ⟨st, cs, by simpa using hinv, ?_⟩
  unfold Graph.coalesced at hco
  rw [hrun] at hco
  simp only [bind, Except.bind] at hco
  exact hco

theorem coalesced_idem {g : Graph} (hwf : Wellformed g)
    (hW6 : ∀ e ∈ g.edges, ∀ n ∈ g.nodes,
      n.id = e.startNodeId ∨ n.id = e.endNodeId → e.id ∈ n.edgeIds)
    (hSlots : ∀ n ∈ g.nodes, ∀ e ∈ g.edges,
      n.edgeIds.count e.id =
        (if e.startNodeId = n.id then 1 else 0) + (if e.endNodeId = n.id then 1 else 0))
    {h : Graph} (hco : g.coalesced = .ok h) :
    h.coalesced = .ok h := by
  obtain ⟨st, cs, hinv, hcr⟩ := coalesced_is_create hwf hW6 hSlots hco
  have hwfh := wellformed_of_create hcr
  have hW6h := created_incident hcr
  have hSlotsh := created_slot_count hcr
  have hd2 : Deg2Loop h := by
    intro n2 hn2 hdeg2
    have hids := created_edgeIds hcr n2 hn2
    obtain ⟨nsb, out, hb, hf, hn_eq, -, -⟩ := create_ok hcr
    have h1 := buildNodes_ids _ [] nsb hb
    have h2 := foldlM_addEdge_node_ids _ nsb [] out hf
    have hn2in : n2.id ∈ ((g.nodes.filter (fun n => n.id ∉ st.deletedNodeIds)).map
        (fun n => ({ id := n.id, location := n.location } : SimpleNode))).map (·.id) := by
      have hx : n2.id ∈ h.nodes.map (·.id) := List.mem_map.mpr ⟨n2, hn2, rfl⟩
      rw [hn_eq, h2, h1] at hx
      simpa using hx
    rw [List.map_map] at hn2in
    obtain ⟨v, hvf, hvid⟩ := List.mem_map.mp hn2in
    have hvmem : v ∈ g.nodes := List.mem_of_mem_filter hvf
    have hvdel : v.id ∉ st.deletedNodeIds := by
      have hq := List.of_mem_filter hvf
      simpa using hq
    have hvid2 : v.id = n2.id := hvid
    have htot : (contribS v.id (cs.map (·.entry))).length = 2 := by
      rw [hvid2, ← hinv.2.2.1, ← hids]
      exact hdeg2
    obtain ⟨i, hi⟩ := deg2loop_of_sweep hwf hSlots hinv hvmem hvdel htot
    refine ⟨i, ?_⟩
    rw [hids, hinv.2.2.1, ← hvid2]
    exact hi
  exact stable_coalesced_self (stable_of_deg2loop hwfh hW6h hSlotsh hd2) hcr

/-- C5: for every valid graph — a graph built by a successful `Graph.create`,
which is also how `coalesced` itself constructs its result — applying
`coalesced` twice gives the same result as applying it once: the second
application succeeds and returns a graph with the same multiset of nodes
(ids and locations) and the same multiset of edges as the first result.  The
proof establishes the stronger fact that the second application returns the
first result itself. -/
theorem C5_coalesced_idempotent (ns : List SimpleNode) (es : List SimpleEdge)
    (g h : Graph) (hg : Graph.create ns es = .ok g) (hco : g.coalesced = .ok h) :
    ∃ h2, h.coalesced = .ok h2 ∧
      (↑(h2.nodes.map (fun n => (n.id, n.location))) : Multiset (NodeId × Location)) =
        ↑(h.nodes.map (fun n => (n.id, n.location))) ∧
      (↑h2.edges : Multiset Edge) = ↑h.edges := by
  have hq := coalesced_idem (wellformed_of_create hg) (created_incident hg)
    (created_slot_count hg) hco
  exact ⟨h, hq, rfl, rfl⟩

/-- C5 (witness): the idempotence theorem applied to a concrete one-edge
graph, which `coalesced` maps to itself. -/
theorem C5_witness :
    ∃ h2, witGraphC8.coalesced = .ok h2 ∧
      (↑(h2.nodes.map (fun n => (n.id, n.location))) : Multiset (NodeId × Location)) =
        ↑(witGraphC8.nodes.map (fun n => (n.id, n.location))) ∧
      (↑h2.edges : Multiset Edge) = ↑witGraphC8.edges :=
  C5_coalesced_idempotent witNodesC8 witEdgesC8 witGraphC8 witGraphC8
    (by
      simp [Graph.create, buildNodes, addEdge, mkDerivedEdge, pushEdgeId,
        witNodesC8, witEdgesC8, witGraphC8, witNodeRec0, witNodeRec1, witEdgeRec,
        Utils.getCumulativeDistances, Utils.cumulFrom, Utils.distanceBetween,
        bind, Except.bind, pure, Except.pure, List.find?])
    (by
      norm_num [Graph.coalesced, coalesceStep, Graph.getOnlyPath,
        Graph.getOnlyPathInDirection, onlyPathGo, witGraphC8, witNodeRec0, witNodeRec1,
        witEdgeRec, witNodesC8, witEdgesC8, Graph.getNodeOrThrow, Graph.getNode,
        Graph.getEdgeOrThrow, Graph.getEdge, List.find?, bind, Except.bind, pure,
        Except.pure, Utils.reversePath, dummyOrientedEdge, dummyEdge, Edge.toSimple,
        List.filter, Graph.create, buildNodes, addEdge, mkDerivedEdge, pushEdgeId,
        Utils.getCumulativeDistances, Utils.cumulFrom, Utils.distanceBetween])

end GP
